import Mathlib

/-!
# Blob detection on horizontal pixel runs

A shallow embedding of `Exercise.cpp`: the `Line` record, the labelling pass
`BlobBuilder::Process` with its helpers `getBlobIDbyIndex` and `IsTouching`,
the fixture decoder `GenerateLinesAndResult`, the renderer `RenderImage` (what it
writes to standard output), and the return value of `main`.

Conventions of the embedding.

* `unsigned int` fields are natural numbers; every arithmetic operation the
  source performs on them is reduced modulo `2 ^ 32`.
* `int` values are integers; `static_cast<int>` of an `unsigned int` and the
  signed subtraction are two's-complement (reduced into `[-2^31, 2^31)`).
* Positions in vectors and strings (`i`, `j`, `b`, `m`, `n`, `X`, `Y`) are natural
  numbers: vectors are taken to hold fewer than `2 ^ 31` elements and rows fewer than
  `2 ^ 32` pixels, so that no loop counter overflows.
* An access outside a vector, and `back()` of an empty vector, make the embedded
  function return `none`.
-/

set_option autoImplicit false

namespace BlobDetection

/-! ## Data model -/

/-- A horizontal line of pixels: first column `m_X`, row `m_Y`, pixel count `m_Length`. -/
structure Line where
  m_X : Nat
  m_Y : Nat
  m_Length : Nat
deriving DecidableEq, Repr, Inhabited

/-- The ordering `Line::operator<`: by row, then by first column. -/
def Line.lt (a b : Line) : Bool :=
  decide (a.m_Y < b.m_Y) || (decide (a.m_Y = b.m_Y) && decide (a.m_X < b.m_X))

/-! ## Machine arithmetic -/

/-- Reduction of an `unsigned int` result modulo `2 ^ 32`. -/
def wrapU32 (n : Nat) : Nat := n % 4294967296

/-- Reduction of an integer into the range of `int`, `[-2^31, 2^31)`. -/
def wrapI32 (z : Int) : Int := (z + 2147483648) % 4294967296 - 2147483648

/-- The conversion `static_cast<int>(u)` of an `unsigned int`. -/
def toInt32 (u : Nat) : Int := wrapI32 (u : Int)

/-- The value of `std::abs` on an `int`. -/
def absI32 (z : Int) : Int := wrapI32 (if z < 0 then -z else z)

/-! ## `BlobBuilder` -/

/-- The test `BlobBuilder::IsTouching`: the two column comparisons of the source,
with both sums reduced modulo `2 ^ 32`. -/
def IsTouching (line1 line2 : Line) : Bool :=
  decide (line1.m_X < wrapU32 (line2.m_X + line2.m_Length)) &&
    decide (wrapU32 (line1.m_X + line1.m_Length) > line2.m_X)

/-- The row test of `Process`:
`std::abs(static_cast<int>(a.m_Y) - static_cast<int>(b.m_Y)) == 1`. -/
def rowsAdjacent (a b : Line) : Bool :=
  decide (absI32 (wrapI32 (toInt32 a.m_Y - toInt32 b.m_Y)) = 1)

/-- The search loop of `getBlobIDbyIndex`, started at bucket position `b`. -/
def getBlobIDbyIndexFrom (line : Nat) : List (List Nat) → Nat → Int
  | [], _ => -1
  | bucket :: rest, b =>
    if bucket.contains line then (b : Int) else getBlobIDbyIndexFrom line rest (b + 1)

/-- The lookup `BlobBuilder::getBlobIDbyIndex`: the position of the first bucket
holding `line`, or `-1`. -/
def getBlobIDbyIndex (line : Nat) (blobIndexMapping : List (List Nat)) : Int :=
  getBlobIDbyIndexFrom line blobIndexMapping 0

/-- The local variables of `Process` that live across loop iterations. -/
structure ProcState where
  touched : Bool
  visitedBlobId : Int
  blobIndexMapping : List (List Nat)
deriving DecidableEq, Repr

/-- The element access `blobIndexMapping[k]` for an `int` position `k`. -/
def bucketAt (blobIndexMapping : List (List Nat)) (k : Int) : Option (List Nat) :=
  if 0 ≤ k then blobIndexMapping[k.toNat]? else none

/-- The block of `Process` run when line `i` touches the earlier line `j`: either the
first touch (line `i` joins the bucket of `j`) or the bridge branch (the bucket of
`j` and the bucket of `i` are merged into the one with the smaller position). -/
def onTouch (i : Nat) (s : ProcState) (j : Nat) : Option ProcState :=
  if !s.touched then
    let visitedBlobId := getBlobIDbyIndex j s.blobIndexMapping
    match bucketAt s.blobIndexMapping visitedBlobId with
    | none => none
    | some bucket =>
      some { touched := true
             visitedBlobId := visitedBlobId
             blobIndexMapping :=
               s.blobIndexMapping.set visitedBlobId.toNat (bucket ++ [i]) }
  else
    let bridgeBlobId := getBlobIDbyIndex j s.blobIndexMapping
    if 0 ≤ bridgeBlobId ∧ bridgeBlobId ≠ s.visitedBlobId then
      let lo := if bridgeBlobId < s.visitedBlobId then bridgeBlobId else s.visitedBlobId
      let hi := if bridgeBlobId < s.visitedBlobId then s.visitedBlobId else bridgeBlobId
      match bucketAt s.blobIndexMapping hi, bucketAt s.blobIndexMapping lo with
      | some src, some dst =>
        some { touched := true
               visitedBlobId := lo
               blobIndexMapping :=
                 (s.blobIndexMapping.set lo.toNat (dst ++ src)).eraseIdx hi.toNat }
      | _, _ => none
    else some s

/-- The body of the inner loop of `Process` for line `i` and earlier line `j`. -/
def innerStep (i_rLineList : List Line) (i : Nat) (s : ProcState) (j : Nat) :
    Option ProcState :=
  if rowsAdjacent (i_rLineList.getD i default) (i_rLineList.getD j default) then
    if IsTouching (i_rLineList.getD i default) (i_rLineList.getD j default) then
      onTouch i s j
    else some s
  else some s

/-- The inner loop `for (int j = 0; j < i; j++)`. -/
def innerLoop (i_rLineList : List Line) (i : Nat) (s : ProcState) : Option ProcState :=
  (List.range i).foldlM (innerStep i_rLineList i) s

/-- The body of the outer loop of `Process` for line `i`. -/
def outerStep (i_rLineList : List Line) (s : ProcState) (i : Nat) : Option ProcState :=
  match innerLoop i_rLineList i { s with touched := false } with
  | none => none
  | some s1 =>
    if !s1.touched then
      some { s1 with blobIndexMapping := s1.blobIndexMapping ++ [[i]] }
    else some s1

/-- The state of `Process` after the first `k` iterations of the outer loop.
`visitedBlobId` starts indeterminate in the source; it is written before it is read. -/
def outerLoop (i_rLineList : List Line) (k : Nat) : Option ProcState :=
  (List.range k).foldlM (outerStep i_rLineList)
    { touched := false, visitedBlobId := 0, blobIndexMapping := [] }

/-- The loop `for (auto n : blobIndexMapping[m]) o_rBlobIndices[n] = m`. -/
def writeBucket (m : Nat) : List Nat → List Nat → Option (List Nat)
  | [], o_rBlobIndices => some o_rBlobIndices
  | n :: rest, o_rBlobIndices =>
    if n < o_rBlobIndices.length then writeBucket m rest (o_rBlobIndices.set n m) else none

/-- The final loop over the buckets, started at bucket position `m`. -/
def writeBuckets : Nat → List (List Nat) → List Nat → Option (List Nat)
  | _, [], o_rBlobIndices => some o_rBlobIndices
  | m, bucket :: rest, o_rBlobIndices =>
    match writeBucket m bucket o_rBlobIndices with
    | none => none
    | some o => writeBuckets (m + 1) rest o

/-- The call `v.assign(n, val)` of `std::vector`: whatever `v` held, it now holds
`n` copies of `val`. -/
def vectorAssign (_v : List Nat) (n val : Nat) : List Nat := List.replicate n val

/-- The function `BlobBuilder::Process`. The second argument is the content of the
output vector before the call; the result is its content after the call. -/
def Process (i_rLineList : List Line) (o_rBlobIndices : List Nat) : Option (List Nat) :=
  let o := vectorAssign o_rBlobIndices i_rLineList.length 0
  if i_rLineList.isEmpty then some o
  else
    match outerLoop i_rLineList i_rLineList.length with
    | none => none
    | some s => writeBuckets 0 s.blobIndexMapping o

/-! ## The fixture decoder -/

/-- The values `GenerateLinesAndResult` leaves behind: its return value and the
two output vectors. -/
structure GenResult where
  ok : Bool
  o_rLines : List Line
  o_rBlobIndices : List Nat
deriving DecidableEq, Repr

/-- The statement `++o_rLines.back().m_Length`; `back()` needs a non-empty vector. -/
def incrementBack : List Line → Option (List Line)
  | [] => none
  | [l] => some [{ l with m_Length := l.m_Length + 1 }]
  | l :: l2 :: rest => (incrementBack (l2 :: rest)).map (fun t => l :: t)

/-- The loop over the pixels of row `Y`, from column `X` on. The result is `none`
for an access to `back()` of an empty vector, `some (false, _, _)` when the source
returns `false`, and `some (true, _, _)` when the row is scanned to its end. -/
def scanRow (Y : Nat) : List Char → Nat → Char → List Line → List Nat → Option GenResult
  | [], _, _, o_rLines, o_rBlobIndices => some ⟨true, o_rLines, o_rBlobIndices⟩
  | Pixel :: rest, X, PreviousPixelOnRow, o_rLines, o_rBlobIndices =>
    if Pixel ≠ '.' ∧ (Pixel < 'A' ∨ Pixel > 'Z') then
      some ⟨false, o_rLines, o_rBlobIndices⟩
    else if Pixel ≠ '.' then
      if PreviousPixelOnRow = '.' then
        scanRow Y rest (X + 1) Pixel (o_rLines ++ [⟨X, Y, 1⟩])
          (o_rBlobIndices ++ [Pixel.toNat - 'A'.toNat])
      else if Pixel = PreviousPixelOnRow then
        match incrementBack o_rLines with
        | none => none
        | some ls => scanRow Y rest (X + 1) Pixel ls o_rBlobIndices
      else some ⟨false, o_rLines, o_rBlobIndices⟩
    else scanRow Y rest (X + 1) Pixel o_rLines o_rBlobIndices

/-- The loop over the rows of the image, from row `Y` on. -/
def scanRows : List String → Nat → List Line → List Nat → Option GenResult
  | [], _, o_rLines, o_rBlobIndices => some ⟨true, o_rLines, o_rBlobIndices⟩
  | rRow :: rest, Y, o_rLines, o_rBlobIndices =>
    match scanRow Y rRow.data 0 '.' o_rLines o_rBlobIndices with
    | none => none
    | some r => if r.ok then scanRows rest (Y + 1) r.o_rLines r.o_rBlobIndices else some r

/-- The function `GenerateLinesAndResult`; the last two arguments are the contents
of the output vectors before the call. -/
def GenerateLinesAndResult (i_rImage : List String) (o_rLines : List Line)
    (o_rBlobIndices : List Nat) : Option GenResult :=
  scanRows i_rImage 0 o_rLines o_rBlobIndices

/-! ## The fixtures and `main` -/

def g_ImageSimple : List String :=
  [ "...............AAAA............................................."
  , ".....BBB......AAAAAA.....CCC......DDDDDDDDDDDDDDDDDDDDDDDD......"
  , "...BBBBBBB.....AAAA....CCC.CCC....DDD...DDDDD...DDDD...DDD......"
  , "..BBBBBBBBB..........CCC.....CCC..DDD...DDDDD...DDDD...DDD......"
  , "...BBBBBBB.........CCC.CCC.....CCC.............................."
  , ".....BBB.........CCC.....CCC.....CCC........EEE..FFFF..GGG......"
  , "...................CCC.........CCC........EEE..FFF..FFF..GGG...."
  , ".....................CCC.....CCC............EEE..FFF...GGG......"
  , ".......................CCC.CCC.................................."
  , "................................................................"
  , ".....HHHHHHH.............IIIIIIIIII..............JJJJJJJJ......."
  , ".......HHH.........K.L...I........I......MM....JJJJJJJJJJJJ....."
  , ".....HHHHHHH.........L.....NNNNN..I......MM...JJJJJJJJJJJJJJ...."
  , "..HHHHH.....................NNN...I............JJJJJJJJJJJJ....."
  , ".....HHHH.........................I..............JJJJJJJJ......."
  , "...HHH..HH................IIIIIIIII........................OOOOO" ]

def g_ImageComplex : List String :=
  [ "........................AAAA............................................BBBBBBBBBBBBBBBBBBBBBBBBBB..."
  , "...........CCC........AAAAAAA......DDDDD.....DDDD......................BB............................"
  , ".......CCCCCCCCCCC.....AAAAA.....DDDDDDDDD.DDDDDDDDD..................BB..EEEEEE......FFFFFF.FFF....."
  , "......CCCCC...CCCCC.............DDDDDDDDDDDDDDDDDDDDD................BB......EEEEE..FFFFF..FFF.FF...."
  , ".......CCCCCCCCCCC...............DDDDDDDDD.DDDDDDDDD......BBBB......BB........EEE.FFFFF......FFF....."
  , "...........CCC.....................DDDD......DDDD............BBB...BB........EEEEE...FFFF...FFFFFF..."
  , "................GGG.HHHH.III.JJJJ..............................BB.BB......EEEEE........FFFFF........."
  , "................................................................BBB.................................."
  , "....................................................................................................."
  , "....................................................................................................."
  , "...KKKKKKKKKKKKKKKK......LLLLLLLLLLLLLLLLLLLLLLLLLLLLLLLLLLLLLLLLLLLLLLLLL..........................."
  , "...K..............K..LLLLLL.............................................LL.....MMMMMMM......MMMMMMM.."
  , "...K..LLLLLLLLLL..K..L...LL...N.N...........N.N.....OOO............OO...LL...........MMMMMMMM........"
  , "...K..L........L..K..L...LL..NN.N.N.......N.N.NN......OOO..........OO...LL.........MMMMMMMMMMMM......"
  , "...K..L..KKKK..L..K..L...LL..NN.N.N.N...N.N.N.NN........OOO........OO...LL......MMMM.........MMMM...."
  , "...K..L..K.....L..K..L...LL...NNN.N.N.N.N.N.NNN...........OOO......OO...LL......MM..PPP...QQQ..MM...."
  , "...K..L..K..LLLL..K..L...LL.....NNN.N.N.N.NNN...............OOO....OO...LL......MM..PPP...QQQ..MM...."
  , "...K..L..K........K..L...LL.......NNN.N.NNN...................OOO..OO...LL......MM.............MM...."
  , "...K..L..KKKKKKKKKK..L...LL.........NNNNN.......................OOOOO...LL......MMMM.........MMMM...."
  , "...K..L..............L...LL...........N...........................OOO...LL........MMMMMMMMMMMMM......"
  , "...K..LLLLLLLLLLLLLLLL...LL.............................................LL.............MMM..........."
  , "KKKK.....................LLLLLLLLLLLLLLLLLLLLLLLLLLLLLLLLLLLLLLLLLLLLLLLLL..........................."
  , "....................................................................................................."
  , "..........................................................................................RRR........"
  , ".....RRRRRRRRRRR........................RRR.............................................RRRRRRR......"
  , "RRRRRRRRRRRRRRRRRRRRRRRR.RRRRRRRRRRRRR.RRRRR.R.RRRR....................................RRRRRRRRR....."
  , "..RRRRRRRRRRRRRRRRRR...RRRRRRRRRRRRRRRRRRRRRRRRRRRRRRRR.................................RRRRRRR.....R"
  , "S.........................................RRRRRR...RRRRRR....TTTTTTT...........RR.........RRRRRRRRRRR"
  , "..........................................RRRRRR...RRRRRR......TTT...........RRRRRR............RRRR.."
  , ".........UUUUUU.......V....V................RRRRRRRRRRRRRR...TTTTTTT.......RRRR...RRRRR.....RRRR....."
  , ".........UU..UU.......VV..VV...................RRRRRRR...RRRR............RRRR........RRRRRRRRR......."
  , ".........U....U.......VVVVVV................................RRRRRRRRRRRRRR...............RR..RRR....W" ]

/-- The return value of `main`. `RenderImage` only prints and is left out. -/
def main : Option Int :=
  match GenerateLinesAndResult g_ImageSimple [] [] with
  | none => none
  | some simple =>
    if !simple.ok then some (-1)
    else
      match GenerateLinesAndResult g_ImageComplex [] [] with
      | none => none
      | some complex =>
        if !complex.ok then some (-1)
        else
          match Process simple.o_rLines [] with
          | none => none
          | some BlobIndices =>
            let bSimpleTestPassed := decide (BlobIndices = simple.o_rBlobIndices)
            match Process complex.o_rLines BlobIndices with
            | none => none
            | some BlobIndices2 =>
              let bComplexTestPassed := decide (BlobIndices2 = complex.o_rBlobIndices)
              let bPassed := bSimpleTestPassed && bComplexTestPassed
              some (if bPassed then 0 else 1)

/-! ## Specification vocabulary -/

/-- The test the inner loop of `Process` applies to line `i` and line `j`. -/
def codeTouch (lines : List Line) (i j : Nat) : Prop :=
  rowsAdjacent (lines.getD i default) (lines.getD j default) = true ∧
    IsTouching (lines.getD i default) (lines.getD j default) = true

instance (lines : List Line) (i j : Nat) : Decidable (codeTouch lines i j) :=
  inferInstanceAs (Decidable (_ ∧ _))

/-- Two positions of the line list are linked when the test of `Process` holds for
them in one of the two orders. -/
def linked (lines : List Line) (a b : Nat) : Prop :=
  a < lines.length ∧ b < lines.length ∧ (codeTouch lines a b ∨ codeTouch lines b a)

/-- Two positions are connected when a chain of linked positions leads from one to
the other. -/
def Conn (lines : List Line) : Nat → Nat → Prop := Relation.ReflTransGen (linked lines)

/-- Two positions lie in one bucket. -/
def SameBucket (m : List (List Nat)) (a b : Nat) : Prop := ∃ B ∈ m, a ∈ B ∧ b ∈ B

/-- The invariant of the bucket list of `Process` once the lines `0 .. k-1` are placed. -/
structure BucketInv (lines : List Line) (k : Nat) (m : List (List Nat)) : Prop where
  cover : ∀ x, (∃ B ∈ m, x ∈ B) ↔ x < k
  nonempty : ∀ B ∈ m, B ≠ []
  nodup : ∀ B ∈ m, B.Nodup
  disjoint : m.Pairwise (fun B C => ∀ x ∈ B, x ∉ C)
  headMin : ∀ B ∈ m, ∀ h ∈ B.head?, ∀ x ∈ B, h ≤ x
  headLt : m.Pairwise (fun B C => ∀ h ∈ B.head?, ∀ c ∈ C, h < c)
  connected : ∀ B ∈ m, ∀ x ∈ B, ∀ y ∈ B, Conn lines x y

/-- Every touching pair `(a, b)` with `b < a` that the loops have already examined
when the inner loop for line `k` reaches `j` lies in one bucket. -/
def Closed (lines : List Line) (m : List (List Nat)) (k j : Nat) : Prop :=
  ∀ a b, b < a → (a < k ∨ (a = k ∧ b < j)) → codeTouch lines a b → SameBucket m a b

/-- Every bucket of `m` is contained in a bucket of `m2`. -/
def Coarser (m m2 : List (List Nat)) : Prop := ∀ B ∈ m, ∃ C ∈ m2, ∀ x ∈ B, x ∈ C

/-- The invariant of the inner loop for line `i` before it examines line `j`. -/
structure InnerInv (lines : List Line) (i j : Nat) (s : ProcState) : Prop where
  inv : BucketInv lines (if s.touched then i + 1 else i) s.blobIndexMapping
  closed : Closed lines s.blobIndexMapping i j
  visited : s.touched = true → ∃ pre P post, s.blobIndexMapping = pre ++ P :: post ∧
    i ∈ P ∧ s.visitedBlobId = (pre.length : Int)

/-- The invariant of the outer loop of `Process` before it handles line `k`. -/
structure OuterInv (lines : List Line) (k : Nat) (s : ProcState) : Prop where
  inv : BucketInv lines k s.blobIndexMapping
  closed : Closed lines s.blobIndexMapping k 0

/-- A line of at least one pixel whose row fits in an `int` and whose column span
ends below `2 ^ 32`: none of the 32-bit operations of `Process` wraps on it. -/
def Line.InRange (l : Line) : Prop :=
  1 ≤ l.m_Length ∧ l.m_Y < 2147483648 ∧ l.m_X + l.m_Length < 4294967296

instance (l : Line) : Decidable l.InRange :=
  inferInstanceAs (Decidable (_ ∧ _ ∧ _))

/-- The rows of the two lines differ by exactly one. -/
def rowsDifferByOne (a b : Line) : Prop := a.m_Y + 1 = b.m_Y ∨ b.m_Y + 1 = a.m_Y

instance (a b : Line) : Decidable (rowsDifferByOne a b) :=
  inferInstanceAs (Decidable (_ ∨ _))

/-- The column spans `[x, x + length)` of the two lines have a column in common. -/
def shareColumn (a b : Line) : Prop :=
  ∃ c, a.m_X ≤ c ∧ c < a.m_X + a.m_Length ∧ b.m_X ≤ c ∧ c < b.m_X + b.m_Length

/-- The lines at positions `p` and `q` touch: their rows differ by exactly one and
their column spans overlap. -/
def Touching (lines : List Line) (p q : Nat) : Prop :=
  p < lines.length ∧ q < lines.length ∧
    rowsDifferByOne (lines.getD p default) (lines.getD q default) ∧
    shareColumn (lines.getD p default) (lines.getD q default)

/-- A chain of positions, each touching the next, leads from one position to the other. -/
def Chained (lines : List Line) : Nat → Nat → Prop := Relation.ReflTransGen (Touching lines)

/-- The line list is sorted ascending under `Line::operator<`. -/
def SortedLines (lines : List Line) : Prop := lines.Pairwise (fun a b => Line.lt b a = false)

instance (lines : List Line) : Decidable (SortedLines lines) :=
  inferInstanceAs (Decidable (List.Pairwise _ lines))

/-- Every label is preceded by all smaller labels: the labels `0, 1, 2, ...` make
their first appearance in this order. -/
def FirstOccurrenceOrdered (out : List Nat) : Prop :=
  ∀ (i v : Nat), out[i]? = some v → ∀ k < v, ∃ j : Nat, j < i ∧ out[j]? = some k

/-- Canonical renumbering in the words of the specification (section 4.3): the groups
of a labelling get the ids `0 .. k-1` in the order of the smallest position present in
each group. A position's new label is the number of groups whose smallest position
lies before the smallest position of its own group. -/
def canonicalRenumberSpec (labels : List Nat) : List Nat :=
  labels.map (fun v =>
    ((List.range (labels.indexOf v)).filter
      (fun j => decide (labels.indexOf (labels.getD j 0) = j))).length)

/-- The pixel is an uppercase letter `A .. Z`. -/
def isLetter (c : Char) : Prop := 'A' ≤ c ∧ c ≤ 'Z'

instance (c : Char) : Decidable (isLetter c) :=
  inferInstanceAs (Decidable (_ ∧ _))

/-- Somewhere in the row two neighbouring pixels are letters and differ. -/
def AdjBad : List Char → Prop
  | [] => False
  | [_] => False
  | a :: b :: rest => (isLetter a ∧ isLetter b ∧ a ≠ b) ∨ AdjBad (b :: rest)

/-- The row holds a pixel that is neither `.` nor a letter, or two neighbouring
letters that differ; `prev` is the pixel before the first pixel of `row`. -/
def RowBad (prev : Char) (row : List Char) : Prop :=
  (∃ c ∈ row, c ≠ '.' ∧ ¬ isLetter c) ∨ AdjBad (prev :: row)

/-- The invariant of the output vectors of `GenerateLinesAndResult` on an image of
`H` rows of at most `W` pixels: one reference index per line, and every line has at
least one pixel, lies in a row of the image and ends inside its row. -/
structure GenInv (H W : Nat) (ls : List Line) (bs : List Nat) : Prop where
  len : ls.length = bs.length
  range : ∀ l ∈ ls, 1 ≤ l.m_Length ∧ l.m_Y < H ∧ l.m_X + l.m_Length ≤ W

/-! ## Checking the fixtures

The run of `main` on the two fixtures is not evaluated step by step. The decoder is
run with its output vectors stored back to front, and the reference indices it
produces are checked to be the labelling that `Process` computes: equal on touching
lines, introduced in the order `0, 1, 2, ...`, and with every line joined to the first
line of its label by a path of touching lines, given by a parent and a depth per line.
-/

/-- The statement `++o_rLines.back().m_Length` on a vector stored back to front. -/
def incrementHead : List Line → Option (List Line)
  | [] => none
  | l :: rest => some ({ l with m_Length := l.m_Length + 1 } :: rest)

/-- The loop `scanRow` with the two output vectors stored back to front. -/
def scanRowRev (Y : Nat) : List Char → Nat → Char → List Line → List Nat → Option GenResult
  | [], _, _, o_rLines, o_rBlobIndices => some ⟨true, o_rLines, o_rBlobIndices⟩
  | Pixel :: rest, X, PreviousPixelOnRow, o_rLines, o_rBlobIndices =>
    if Pixel ≠ '.' ∧ (Pixel < 'A' ∨ Pixel > 'Z') then
      some ⟨false, o_rLines, o_rBlobIndices⟩
    else if Pixel ≠ '.' then
      if PreviousPixelOnRow = '.' then
        scanRowRev Y rest (X + 1) Pixel (⟨X, Y, 1⟩ :: o_rLines)
          ((Pixel.toNat - 'A'.toNat) :: o_rBlobIndices)
      else if Pixel = PreviousPixelOnRow then
        match incrementHead o_rLines with
        | none => none
        | some ls => scanRowRev Y rest (X + 1) Pixel ls o_rBlobIndices
      else some ⟨false, o_rLines, o_rBlobIndices⟩
    else scanRowRev Y rest (X + 1) Pixel o_rLines o_rBlobIndices

/-- The loop `scanRows` with the two output vectors stored back to front. -/
def scanRowsRev : List String → Nat → List Line → List Nat → Option GenResult
  | [], _, o_rLines, o_rBlobIndices => some ⟨true, o_rLines, o_rBlobIndices⟩
  | rRow :: rest, Y, o_rLines, o_rBlobIndices =>
    match scanRowRev Y rRow.data 0 '.' o_rLines o_rBlobIndices with
    | none => none
    | some r => if r.ok then scanRowsRev rest (Y + 1) r.o_rLines r.o_rBlobIndices else some r

/-- Turns the two output vectors of a decoder result around. -/
def GenResult.turned (r : GenResult) : GenResult :=
  ⟨r.ok, r.o_rLines.reverse, r.o_rBlobIndices.reverse⟩

/-- The row test of `Process` on rows below `2 ^ 31`, in natural-number arithmetic. -/
def rowsAdjacentNat (a b : Line) : Bool := (a.m_Y + 1 == b.m_Y) || (b.m_Y + 1 == a.m_Y)

/-- The touch test of `Process` with the row test in natural numbers. -/
def touchB (a b : Line) : Bool := rowsAdjacentNat a b && IsTouching a b

/-- A line with its reference index and its place in the connectivity certificate:
the position of a touching line of the same label (its own position for the first
line of a label) and the number of steps to the first line of the label. -/
structure CertEntry where
  line : Line
  gold : Nat
  parent : Nat
  depth : Nat
deriving Inhabited

/-- The entries of four lists of the same length. -/
def mkEntries : List Line → List Nat → List Nat → List Nat → List CertEntry
  | l :: L, g :: G, p :: P, d :: D => ⟨l, g, p, d⟩ :: mkEntries L G P D
  | _, _, _, _ => []

/-- Line `e` has the label of every later line it touches; the scan stops at the
first line more than one row below. -/
def closedFrom (e : CertEntry) : List CertEntry → Bool
  | [] => true
  | m :: rest =>
    if m.line.m_Y ≤ e.line.m_Y + 1 then
      (!(touchB e.line m.line) || e.gold == m.gold) && closedFrom e rest
    else true

/-- Touching lines have equal labels (on a list sorted by row). -/
def closedAll : List CertEntry → Bool
  | [] => true
  | e :: rest => closedFrom e rest && closedAll rest

/-- The rows do not decrease along the list. -/
def rowsSortedB : List CertEntry → Bool
  | a :: b :: rest => decide (a.line.m_Y ≤ b.line.m_Y) && rowsSortedB (b :: rest)
  | _ => true

/-- Entry `q` is a valid parent of entry `e`: the lines touch, the labels agree and
`q` is closer to the first line of the label. -/
def parentOK (e q : CertEntry) : Bool :=
  touchB e.line q.line && (q.gold == e.gold) && decide (q.depth < e.depth)

/-- The walk over the entries from position `i` on, `k` labels having occurred so
far: an entry that is its own parent must carry the new label `k`; any other entry
must carry an earlier label and have a valid parent. The entries before position `i`
are at hand back to front. -/
def certGo : Nat → Nat → List CertEntry → List CertEntry → Bool
  | _, _, _, [] => true
  | i, k, prevRev, e :: rest =>
    if e.parent == i then (e.gold == k) && certGo (i + 1) (k + 1) (e :: prevRev) rest
    else decide (e.gold < k) &&
      parentOK e (if e.parent < i then prevRev.getD (i - 1 - e.parent) default
        else rest.getD (e.parent - i - 1) default) &&
      certGo (i + 1) k (e :: prevRev) rest

/-- All checks on a list of entries. -/
def entriesOK (Z : List CertEntry) : Bool :=
  Z.all (fun e => decide (1 ≤ e.line.m_Length ∧ e.line.m_Y < 2147483648 ∧
    e.line.m_X + e.line.m_Length < 4294967296)) &&
  rowsSortedB Z && closedAll Z && certGo 0 0 [] Z

/-- The image is decoded, and its reference indices pass the checks with the given
parents and depths. -/
def fixtureOK (image : List String) (parents depths : List Nat) : Bool :=
  match scanRowsRev image 0 [] [] with
  | none => false
  | some r =>
    r.ok && (r.o_rBlobIndices.length == r.o_rLines.length) &&
      (parents.length == r.o_rLines.length) && (depths.length == r.o_rLines.length) &&
      entriesOK (mkEntries r.o_rLines.reverse r.o_rBlobIndices.reverse parents depths)

/-- The parents of the lines of `g_ImageSimple`. -/
def simpleParents : List Nat :=
  [0, 1, 0, 3, 4, 1, 2, 3, 3, 4, 4, 4, 4, 5, 7, 8, 9, 10, 11, 12, 13, 14, 14, 15, 20, 21, 22,
   23, 28, 29, 30, 25, 27, 28, 29, 29, 30, 31, 32, 33, 34, 36, 37, 38, 44, 45, 46, 44, 48, 49,
   45, 45, 52, 46, 47, 49, 56, 51, 52, 53, 54, 56, 57, 59, 60, 62, 63, 64, 64, 65, 70]

/-- The depths of the lines of `g_ImageSimple`. -/
def simpleDepths : List Nat :=
  [0, 0, 1, 0, 0, 1, 2, 1, 1, 1, 1, 1, 1, 2, 2, 2, 2, 2, 2, 2, 3, 3, 3, 3, 4, 4, 4, 4, 0, 0,
   0, 5, 5, 1, 1, 1, 1, 6, 6, 2, 2, 2, 7, 7, 0, 0, 0, 1, 0, 0, 1, 1, 0, 1, 2, 1, 0, 2, 1, 2,
   3, 1, 3, 3, 4, 4, 4, 5, 5, 5, 0]

/-- The parents of the lines of `g_ImageComplex`. -/
def complexParents : List Nat :=
  [0, 1, 2, 0, 4, 10, 1, 2, 3, 4, 17, 6, 12, 13, 21, 7, 7, 9, 11, 12, 13, 13, 14, 15, 17, 17,
   34, 18, 19, 20, 21, 23, 24, 25, 43, 27, 28, 29, 30, 39, 40, 41, 42, 47, 35, 36, 37, 44, 48,
   49, 48, 48, 49, 49, 54, 68, 50, 70, 51, 52, 52, 61, 76, 79, 80, 65, 82, 53, 54, 56, 86, 57,
   58, 59, 60, 61, 93, 94, 97, 98, 99, 65, 101, 67, 68, 69, 106, 107, 71, 72, 73, 74, 75, 112,
   113, 114, 116, 117, 118, 118, 81, 120, 83, 84, 84, 85, 127, 128, 88, 89, 90, 91, 92, 133,
   134, 135, 136, 137, 137, 100, 139, 102, 103, 123, 124, 104, 105, 146, 147, 108, 109, 110,
   111, 112, 151, 152, 153, 153, 119, 155, 121, 122, 123, 124, 125, 126, 160, 161, 130, 131,
   132, 133, 164, 164, 138, 165, 140, 141, 144, 145, 170, 148, 149, 150, 151, 154, 156, 157,
   158, 159, 178, 162, 163, 164, 165, 166, 167, 169, 171, 172, 175, 176, 177, 179, 184, 188,
   190, 184, 195, 195, 195, 195, 195, 187, 188, 199, 193, 203, 198, 204, 205, 201, 207, 196,
   212, 212, 201, 215, 203, 209, 210, 220, 222, 206, 207, 224, 208, 209, 209, 210, 227, 212,
   228, 214, 216, 217, 218, 219, 223, 224, 224, 231]

/-- The depths of the lines of `g_ImageComplex`. -/
def complexDepths : List Nat :=
  [0, 0, 0, 1, 0, 4, 1, 1, 2, 1, 3, 2, 0, 0, 2, 2, 2, 2, 3, 1, 1, 1, 3, 3, 3, 3, 10, 4, 2, 2,
   2, 4, 4, 4, 9, 5, 3, 3, 3, 0, 0, 0, 0, 8, 6, 4, 4, 7, 0, 0, 1, 1, 1, 1, 0, 2, 2, 18, 2, 2,
   2, 0, 6, 12, 12, 0, 12, 2, 1, 3, 17, 19, 3, 3, 3, 1, 5, 7, 11, 11, 11, 1, 11, 3, 2, 4, 16,
   12, 20, 4, 4, 4, 2, 4, 6, 8, 10, 10, 10, 10, 2, 10, 4, 3, 3, 5, 15, 11, 21, 5, 5, 5, 3, 5,
   7, 9, 9, 9, 9, 3, 9, 5, 4, 0, 0, 4, 6, 14, 10, 22, 6, 6, 6, 4, 6, 8, 8, 8, 4, 8, 6, 5, 1,
   1, 5, 7, 13, 9, 7, 7, 7, 5, 7, 7, 5, 7, 7, 6, 6, 8, 12, 8, 8, 8, 6, 6, 8, 7, 7, 9, 11, 9,
   9, 7, 7, 9, 8, 10, 10, 10, 10, 9, 11, 11, 0, 19, 19, 1, 18, 18, 18, 18, 18, 2, 19, 17, 3,
   5, 0, 16, 16, 0, 10, 4, 15, 15, 1, 9, 5, 0, 0, 4, 14, 2, 10, 8, 6, 1, 1, 1, 3, 15, 13, 11,
   7, 2, 2, 2, 12, 8, 8, 0]

/-- What the walk `certGo` establishes for the entry at position `j`: a line that is
its own parent is the first line of its label; any other line has a valid parent;
every smaller label occurs earlier. -/
def CertFacts (Z : List CertEntry) (j : Nat) : Prop :=
  ((Z.getD j default).parent = j →
    ∀ j2 < j, (Z.getD j2 default).gold ≠ (Z.getD j default).gold) ∧
  ((Z.getD j default).parent ≠ j →
    parentOK (Z.getD j default) (Z.getD (Z.getD j default).parent default) = true) ∧
  (∀ w < (Z.getD j default).gold, ∃ j2 < j, (Z.getD j2 default).gold = w)

/-! ## Points of the run of `Process` -/

/-- The state of `Process` inside the outer-loop iteration for line `i`, just before
the inner loop examines line `j`; for `j = i` this is the state at the end of the
inner loop. -/
def stateBefore (i_rLineList : List Line) (i j : Nat) : Option ProcState :=
  match outerLoop i_rLineList i with
  | none => none
  | some s => (List.range j).foldlM (innerStep i_rLineList i) { s with touched := false }

/-! ## `RenderImage` -/

/-- What `RenderImage` writes to standard output: whether the message about the
differing numbers of lines and blob indices was printed, and the image rows printed. -/
structure RenderResult where
  mismatch : Bool
  rows : List String
deriving DecidableEq, Repr

/-- The pixel `static_cast<char>(blobIndex + 'A')`, as a byte. -/
def pixelOf (blobIndex : Nat) : Char := Char.ofNat (wrapU32 (blobIndex + 65) % 256)

/-- The loop `for (j = 0; j < rLine.m_Length; ++j) rRow[rLine.m_X + j] = Pixel` with
`n` iterations left, the next one for `j`. -/
def paintFrom (Pixel : Char) (m_X : Nat) : Nat → Nat → List Char → Option (List Char)
  | 0, _, rRow => some rRow
  | n + 1, j, rRow =>
    if wrapU32 (m_X + j) < rRow.length then
      paintFrom Pixel m_X n (j + 1) (rRow.set (wrapU32 (m_X + j)) Pixel)
    else none

/-- The loop over the lines of `RenderImage`: line `i` is painted with the letter of
`i_rBlobIndices[i]` into row `m_Y` of the image. -/
def paintLines : List Line → List Nat → List (List Char) → Option (List (List Char))
  | [], _, Image => some Image
  | _ :: _, [], _ => none
  | rLine :: lines, blobIndex :: indices, Image =>
    match Image[rLine.m_Y]? with
    | none => none
    | some rRow =>
      match paintFrom (pixelOf blobIndex) rLine.m_X rLine.m_Length 0 rRow with
      | none => none
      | some painted => paintLines lines indices (Image.set rLine.m_Y painted)

/-- The value of `MaxColumn` after the first loop of `RenderImage`; the term
`rLine.m_X + rLine.m_Length - 1` is computed modulo `2 ^ 32`. -/
def maxColumn (i_rLines : List Line) : Nat :=
  i_rLines.foldl (fun MaxColumn rLine =>
    max MaxColumn (wrapU32 (rLine.m_X + rLine.m_Length + 4294967295))) 0

/-- What `std::cout << rRow.c_str()` prints: the characters before the first NUL. -/
def printed (rRow : List Char) : String :=
  String.mk (rRow.takeWhile (fun c => c ≠ Char.ofNat 0))

/-- The function `RenderImage`. -/
def RenderImage (i_rLines : List Line) (i_rBlobIndices : List Nat) : Option RenderResult :=
  if i_rLines.isEmpty then some ⟨false, []⟩
  else if i_rLines.length ≠ i_rBlobIndices.length then some ⟨true, []⟩
  else
    match i_rLines.getLast? with
    | none => none
    | some back =>
      match paintLines i_rLines i_rBlobIndices
          (List.replicate (wrapU32 (back.m_Y + 1))
            (List.replicate (wrapU32 (maxColumn i_rLines + 1)) '.')) with
      | none => none
      | some Image => some ⟨false, Image.map printed⟩

/-- The line covers the pixel in row `r` and column `c`. -/
def covers (l : Line) (r c : Nat) : Prop :=
  l.m_Y = r ∧ l.m_X ≤ c ∧ c < l.m_X + l.m_Length

instance (l : Line) (r c : Nat) : Decidable (covers l r c) :=
  inferInstanceAs (Decidable (_ ∧ _ ∧ _))

/-- The pixel at `(r, c)` after one more line with its blob index is painted. -/
def paintStep (r c : Nat) (ch : Char) (it : Line × Nat) : Char :=
  if covers it.1 r c then pixelOf it.2 else ch

/-- The pixel at `(r, c)` of an image given as a list of rows (`.` outside). -/
def pixAt (Image : List (List Char)) (r c : Nat) : Char := (Image.getD r []).getD c '.'

/-! ## The invariant of the decoder -/

/-- Line `l` with reference index `g` is a run of one letter in row `l.m_Y` of the
image, and `g` is that letter minus `A`. -/
def LineOK (image : List String) (l : Line) (g : Nat) : Prop :=
  ∃ row ch, image[l.m_Y]? = some row ∧ isLetter ch ∧ g = ch.toNat - 'A'.toNat ∧
    ∀ c, l.m_X ≤ c → c < l.m_X + l.m_Length → row.data[c]? = some ch

/-- The output vectors of `GenerateLinesAndResult` when the scan is at column `X` of
row `Y`: one reference index per line, every line is a run of its letter, the lines
ascend, and every line ends before the scan position. -/
structure DecInv (image : List String) (Y X : Nat) (ls : List Line) (bs : List Nat) :
    Prop where
  len : bs.length = ls.length
  ok : ∀ it ∈ ls.zip bs, LineOK image it.1 it.2
  asc : ls.Pairwise (fun a b => Line.lt a b = true)
  before : ∀ l ∈ ls, 1 ≤ l.m_Length ∧
    (l.m_Y < Y ∨ (l.m_Y = Y ∧ l.m_X + l.m_Length ≤ X))

/-- When the previous pixel `prev` of the row is a letter, the last line is the run
of `prev` that ends at the scan position `X`. -/
def OpenRun (row : List Char) (Y X : Nat) (prev : Char) (ls : List Line) (bs : List Nat) :
    Prop :=
  prev ≠ '.' → isLetter prev ∧ ∃ init l binit, ls = init ++ [l] ∧
    bs = binit ++ [prev.toNat - 'A'.toNat] ∧ init.length = binit.length ∧ l.m_Y = Y ∧
    l.m_X + l.m_Length = X ∧ ∀ c, l.m_X ≤ c → c < X → row[c]? = some prev

/-! ## Rows made of runs -/

/-- The part from column `pos` on of a row of width `W` that shows the runs `items`
(lines with their blob indices, from left to right) and `.` elsewhere. -/
def blockRow (W : Nat) : Nat → List (Line × Nat) → List Char
  | pos, [] => List.replicate (W - pos) '.'
  | pos, it :: rest =>
    List.replicate (it.1.m_X - pos) '.' ++
      (List.replicate it.1.m_Length (pixelOf it.2) ++
        blockRow W (it.1.m_X + it.1.m_Length) rest)

/-- The lines of row `r`, with their blob indices. -/
def rowItems (Z : List (Line × Nat)) (r : Nat) : List (Line × Nat) :=
  Z.filter (fun it => decide (it.1.m_Y = r))

/-- The lines of the rows from `a` on, with their blob indices. -/
def rowsFrom (Z : List (Line × Nat)) (a : Nat) : List (Line × Nat) :=
  Z.filter (fun it => decide (a ≤ it.1.m_Y))

/-- Line `a` lies in a row above `b`, or in the row of `b` and ends at least one
column before `b` begins. -/
def Apart (a b : Line) : Prop :=
  a.m_Y < b.m_Y ∨ (a.m_Y = b.m_Y ∧ a.m_X + a.m_Length < b.m_X)

/-! ## Lemmas on lists -/

theorem set_append_cons {α : Type} (pre : List α) (P X : α) (post : List α) :
    (pre ++ P :: post).set pre.length X = pre ++ X :: post := by
  induction pre with
  | nil => rfl
  | cons a pre ih => simp [List.set, ih]

theorem eraseIdx_append_cons {α : Type} (pre : List α) (P : α) (post : List α) :
    (pre ++ P :: post).eraseIdx pre.length = pre ++ post := by
  induction pre with
  | nil => rfl
  | cons a pre ih => simp [List.eraseIdx, ih]

theorem getElem?_append_cons {α : Type} (pre : List α) (P : α) (post : List α) :
    (pre ++ P :: post)[pre.length]? = some P := by
  induction pre with
  | nil => simp
  | cons a pre ih => simpa using ih

theorem split_at {α : Type} (l : List α) (t : Nat) (h : t < l.length) :
    ∃ pre P post, l = pre ++ P :: post ∧ pre.length = t := by
  induction l generalizing t with
  | nil => simp at h
  | cons a l ih =>
    cases t with
    | zero => exact ⟨[], a, l, rfl, rfl⟩
    | succ t =>
      obtain ⟨pre, P, post, h1, h2⟩ := ih t (by simpa using h)
      exact ⟨a :: pre, P, post, by simp [h1], by simp [h2]⟩

/-- Two splittings of one list at different positions give a splitting with two holes. -/
theorem two_holes {α : Type} {pre pre2 post post2 : List α} {P Q : α}
    (h : pre ++ P :: post = pre2 ++ Q :: post2) (hlt : pre.length < pre2.length) :
    ∃ mid, pre2 = pre ++ P :: mid ∧ post = mid ++ Q :: post2 := by
  induction pre generalizing pre2 with
  | nil =>
    cases pre2 with
    | nil => simp at hlt
    | cons a pre2 =>
      simp at h
      exact ⟨pre2, by simp [h.1], h.2⟩
  | cons a pre ih =>
    cases pre2 with
    | nil => simp at hlt
    | cons b pre2 =>
      simp at h
      obtain ⟨mid, h1, h2⟩ := ih h.2 (by simpa using hlt)
      exact ⟨mid, by simp [h.1, h1], h2⟩

theorem same_hole {α : Type} {pre pre2 post post2 : List α} {P Q : α}
    (h : pre ++ P :: post = pre2 ++ Q :: post2) (hlen : pre.length = pre2.length) :
    pre = pre2 ∧ P = Q ∧ post = post2 := by
  have h1 := List.append_inj h hlen
  simp at h1
  exact ⟨h1.1, h1.2.1, h1.2.2⟩

/-! ## The lookup -/

theorem getBlobIDbyIndexFrom_found (x : Nat) (m : List (List Nat)) (b : Nat)
    (h : ∃ B ∈ m, x ∈ B) :
    ∃ pre P post, m = pre ++ P :: post ∧ x ∈ P ∧
      getBlobIDbyIndexFrom x m b = ((b + pre.length : Nat) : Int) := by
  induction m generalizing b with
  | nil => simp at h
  | cons B m ih =>
    by_cases hx : x ∈ B
    · exact ⟨[], B, m, rfl, hx, by simp [getBlobIDbyIndexFrom, hx]⟩
    · have h2 : ∃ B ∈ m, x ∈ B := by
        obtain ⟨C, hC, hxC⟩ := h
        simp at hC
        rcases hC with rfl | hC
        · exact absurd hxC hx
        · exact ⟨C, hC, hxC⟩
      obtain ⟨pre, P, post, h3, h4, h5⟩ := ih (b + 1) h2
      refine ⟨B :: pre, P, post, by simp [h3], h4, ?_⟩
      simp [getBlobIDbyIndexFrom, hx, h5]
      omega

theorem getBlobIDbyIndex_found (x : Nat) (m : List (List Nat)) (h : ∃ B ∈ m, x ∈ B) :
    ∃ pre P post, m = pre ++ P :: post ∧ x ∈ P ∧
      getBlobIDbyIndex x m = (pre.length : Int) := by
  obtain ⟨pre, P, post, h1, h2, h3⟩ := getBlobIDbyIndexFrom_found x m 0 h
  exact ⟨pre, P, post, h1, h2, by simpa [getBlobIDbyIndex] using h3⟩

theorem bucketAt_append_cons (pre : List (List Nat)) (P : List Nat) (post : List (List Nat)) :
    bucketAt (pre ++ P :: post) (pre.length : Int) = some P := by
  have h : (0 : Int) ≤ (pre.length : Int) := Int.ofNat_nonneg _
  unfold bucketAt
  rw [if_pos h, Int.toNat_ofNat]
  exact getElem?_append_cons pre P post

/-! ## Connectivity -/

theorem linked_symm (lines : List Line) {a b : Nat} (h : linked lines a b) :
    linked lines b a :=
  ⟨h.2.1, h.1, h.2.2.symm⟩

theorem Conn.symm {lines : List Line} {a b : Nat} (h : Conn lines a b) : Conn lines b a :=
  Relation.ReflTransGen.symmetric (fun _ _ h => linked_symm lines h) h

theorem Conn.trans {lines : List Line} {a b c : Nat} (h1 : Conn lines a b)
    (h2 : Conn lines b c) : Conn lines a c :=
  Relation.ReflTransGen.trans h1 h2

theorem Conn.of_linked {lines : List Line} {a b : Nat} (h : linked lines a b) :
    Conn lines a b :=
  Relation.ReflTransGen.single h

/-! ## The three bucket operations preserve the invariant -/

theorem mem_of_mem_head {B : List Nat} {h : Nat} (hh : h ∈ B.head?) : h ∈ B := by
  cases B with
  | nil => simp at hh
  | cons a B => simp at hh; simp [hh]

/-- A new singleton bucket for line `k` at the end of the bucket list. -/
theorem BucketInv.new {lines : List Line} {k : Nat} {m : List (List Nat)}
    (inv : BucketInv lines k m) : BucketInv lines (k + 1) (m ++ [[k]]) where
  cover := by
    intro x
    constructor
    · rintro ⟨B, hB, hx⟩
      rcases List.mem_append.1 hB with hB | hB
      · have := (inv.cover x).1 ⟨B, hB, hx⟩
        omega
      · simp at hB
        subst hB
        simp at hx
        omega
    · intro hx
      by_cases h : x < k
      · obtain ⟨B, hB, hxB⟩ := (inv.cover x).2 h
        exact ⟨B, List.mem_append_left _ hB, hxB⟩
      · exact ⟨[k], by simp, by simp; omega⟩
  nonempty := by
    intro B hB
    rcases List.mem_append.1 hB with hB | hB
    · exact inv.nonempty B hB
    · simp at hB; simp [hB]
  nodup := by
    intro B hB
    rcases List.mem_append.1 hB with hB | hB
    · exact inv.nodup B hB
    · simp at hB; simp [hB]
  disjoint := by
    rw [List.pairwise_append]
    refine ⟨inv.disjoint, by simp, ?_⟩
    intro B hB C hC x hx
    simp at hC
    subst hC
    have := (inv.cover x).1 ⟨B, hB, hx⟩
    simp
    omega
  headMin := by
    intro B hB h hh x hx
    rcases List.mem_append.1 hB with hB | hB
    · exact inv.headMin B hB h hh x hx
    · simp at hB
      subst hB
      simp at hh hx
      omega
  headLt := by
    rw [List.pairwise_append]
    refine ⟨inv.headLt, by simp, ?_⟩
    intro B hB C hC h hh c hc
    simp at hC
    subst hC
    simp at hc
    subst hc
    exact (inv.cover h).1 ⟨B, hB, mem_of_mem_head hh⟩
  connected := by
    intro B hB x hx y hy
    rcases List.mem_append.1 hB with hB | hB
    · exact inv.connected B hB x hx y hy
    · simp at hB
      subst hB
      simp at hx hy
      subst hx hy
      exact Relation.ReflTransGen.refl

/-- Line `k` joins the bucket of an earlier line `j` it is linked to. -/
theorem BucketInv.push {lines : List Line} {k j : Nat} {pre post : List (List Nat)}
    {P : List Nat} (inv : BucketInv lines k (pre ++ P :: post)) (hj : j ∈ P)
    (hl : linked lines k j) : BucketInv lines (k + 1) (pre ++ (P ++ [k]) :: post) := by
  have hlt : ∀ B ∈ pre ++ P :: post, ∀ x ∈ B, x < k :=
    fun B hB x hx => (inv.cover x).1 ⟨B, hB, hx⟩
  have hP : P ≠ [] := List.ne_nil_of_mem hj
  have hd := inv.disjoint
  have hh := inv.headLt
  rw [List.pairwise_append, List.pairwise_cons] at hd hh
  refine ⟨?_, ?_, ?_, ?_, ?_, ?_, ?_⟩
  · intro x
    constructor
    · rintro ⟨B, hB, hx⟩
      simp at hB
      rcases hB with hB | rfl | hB
      · have := hlt B (by simp [hB]) x hx
        omega
      · simp at hx
        rcases hx with hx | rfl
        · have := hlt P (by simp) x hx
          omega
        · omega
      · have := hlt B (by simp [hB]) x hx
        omega
    · intro hx
      by_cases h : x < k
      · obtain ⟨B, hB, hxB⟩ := (inv.cover x).2 h
        simp at hB
        rcases hB with hB | rfl | hB
        · exact ⟨B, by simp [hB], hxB⟩
        · exact ⟨B ++ [k], by simp, by simp [hxB]⟩
        · exact ⟨B, by simp [hB], hxB⟩
      · exact ⟨P ++ [k], by simp, by simp; omega⟩
  · intro B hB
    simp at hB
    rcases hB with hB | rfl | hB
    · exact inv.nonempty B (by simp [hB])
    · simp
    · exact inv.nonempty B (by simp [hB])
  · intro B hB
    simp at hB
    rcases hB with hB | rfl | hB
    · exact inv.nodup B (by simp [hB])
    · rw [List.nodup_append]
      refine ⟨inv.nodup P (by simp), by simp, ?_⟩
      intro x hx hx2
      simp at hx2
      subst hx2
      have := hlt P (by simp) x hx
      omega
    · exact inv.nodup B (by simp [hB])
  · rw [List.pairwise_append, List.pairwise_cons]
    refine ⟨hd.1, ⟨?_, hd.2.1.2⟩, ?_⟩
    · intro C hC x hx
      simp at hx
      rcases hx with hx | rfl
      · exact hd.2.1.1 C hC x hx
      · intro hxC
        have := hlt C (by simp [hC]) x hxC
        omega
    · intro B hB C hC x hx
      simp at hC
      rcases hC with rfl | hC
      · simp
        refine ⟨hd.2.2 B hB P (by simp) x hx, ?_⟩
        have := hlt B (by simp [hB]) x hx
        omega
      · exact hd.2.2 B hB C (by simp [hC]) x hx
  · intro B hB h hhd x hx
    simp at hB
    rcases hB with hB | rfl | hB
    · exact inv.headMin B (by simp [hB]) h hhd x hx
    · rw [List.head?_append_of_ne_nil _ hP] at hhd
      simp at hx
      rcases hx with hx | rfl
      · exact inv.headMin P (by simp) h hhd x hx
      · exact Nat.le_of_lt (hlt P (by simp) h (mem_of_mem_head hhd))
    · exact inv.headMin B (by simp [hB]) h hhd x hx
  · rw [List.pairwise_append, List.pairwise_cons]
    refine ⟨hh.1, ⟨?_, hh.2.1.2⟩, ?_⟩
    · intro C hC h hhd c hc
      rw [List.head?_append_of_ne_nil _ hP] at hhd
      exact hh.2.1.1 C hC h hhd c hc
    · intro B hB C hC h hhd c hc
      simp at hC
      rcases hC with rfl | hC
      · simp at hc
        rcases hc with hc | rfl
        · exact hh.2.2 B hB P (by simp) h hhd c hc
        · exact hlt B (by simp [hB]) h (mem_of_mem_head hhd)
      · exact hh.2.2 B hB C (by simp [hC]) h hhd c hc
  · intro B hB x hx y hy
    simp at hB
    have hkj : Conn lines k j := Conn.of_linked hl
    have hin : ∀ z ∈ P, Conn lines z k := fun z hz =>
      (inv.connected P (by simp) z hz j hj).trans hkj.symm
    rcases hB with hB | rfl | hB
    · exact inv.connected B (by simp [hB]) x hx y hy
    · simp at hx hy
      rcases hx with hx | rfl <;> rcases hy with hy | rfl
      · exact inv.connected P (by simp) x hx y hy
      · exact hin x hx
      · exact (hin y hy).symm
      · exact Relation.ReflTransGen.refl
    · exact inv.connected B (by simp [hB]) x hx y hy

theorem pairwise_merge {R : List Nat → List Nat → Prop} {pre mid post : List (List Nat)}
    {P Q : List Nat} (h : (pre ++ P :: (mid ++ Q :: post)).Pairwise R)
    (hpre : ∀ B, R B P → R B Q → R B (P ++ Q))
    (hmid : ∀ C, R P C → R C Q → R (P ++ Q) C)
    (hpost : ∀ C, R P C → R Q C → R (P ++ Q) C) :
    (pre ++ (P ++ Q) :: (mid ++ post)).Pairwise R := by
  simp only [List.pairwise_append, List.pairwise_cons, List.mem_append, List.mem_cons] at h ⊢
  obtain ⟨h1, ⟨h2, h3, ⟨h4, h5⟩, h6⟩, h7⟩ := h
  refine ⟨h1, ⟨?_, h3, h5, ?_⟩, ?_⟩
  · intro C hC
    rcases hC with hC | hC
    · exact hmid C (h2 C (Or.inl hC)) (h6 C hC Q (Or.inl rfl))
    · exact hpost C (h2 C (Or.inr (Or.inr hC))) (h4 C hC)
  · intro B hB C hC
    exact h6 B hB C (Or.inr hC)
  · intro B hB C hC
    rcases hC with rfl | hC | hC
    · exact hpre B (h7 B hB P (Or.inl rfl)) (h7 B hB Q (Or.inr (Or.inr (Or.inl rfl))))
    · exact h7 B hB C (Or.inr (Or.inl hC))
    · exact h7 B hB C (Or.inr (Or.inr (Or.inr hC)))

theorem mem_merge_iff {pre mid post : List (List Nat)} {P Q B : List Nat} :
    B ∈ pre ++ (P ++ Q) :: (mid ++ post) ↔
      B = P ++ Q ∨ (B ∈ pre ++ P :: (mid ++ Q :: post) ∧ B ∈ pre ++ (mid ++ post)) := by
  simp only [List.mem_append, List.mem_cons]
  tauto

/-- The bucket `Q` is appended to the earlier bucket `P` and removed from the list. -/
theorem BucketInv.merge {lines : List Line} {k x0 y0 : Nat} {pre mid post : List (List Nat)}
    {P Q : List Nat} (inv : BucketInv lines k (pre ++ P :: (mid ++ Q :: post)))
    (hx0 : x0 ∈ P) (hy0 : y0 ∈ Q) (hc : Conn lines x0 y0) :
    BucketInv lines k (pre ++ (P ++ Q) :: (mid ++ post)) := by
  have hPm : P ∈ pre ++ P :: (mid ++ Q :: post) := by simp
  have hQm : Q ∈ pre ++ P :: (mid ++ Q :: post) := by simp
  have hP : P ≠ [] := List.ne_nil_of_mem hx0
  have hPQd : ∀ x ∈ P, x ∉ Q := by
    have := inv.disjoint
    simp only [List.pairwise_append, List.pairwise_cons, List.mem_append, List.mem_cons] at this
    exact this.2.1.1 Q (Or.inr (Or.inl rfl))
  have hPQh : ∀ h ∈ P.head?, ∀ c ∈ Q, h < c := by
    have := inv.headLt
    simp only [List.pairwise_append, List.pairwise_cons, List.mem_append, List.mem_cons] at this
    exact this.2.1.1 Q (Or.inr (Or.inl rfl))
  refine ⟨?_, ?_, ?_, ?_, ?_, ?_, ?_⟩
  · intro x
    rw [← inv.cover x]
    constructor
    · rintro ⟨B, hB, hx⟩
      rcases mem_merge_iff.1 hB with rfl | ⟨hB, _⟩
      · rcases List.mem_append.1 hx with hx | hx
        · exact ⟨P, hPm, hx⟩
        · exact ⟨Q, hQm, hx⟩
      · exact ⟨B, hB, hx⟩
    · rintro ⟨B, hB, hx⟩
      simp only [List.mem_append, List.mem_cons] at hB
      rcases hB with hB | rfl | hB | rfl | hB
      · exact ⟨B, by simp [hB], hx⟩
      · exact ⟨B ++ Q, by simp, by simp [hx]⟩
      · exact ⟨B, by simp [hB], hx⟩
      · exact ⟨P ++ B, by simp, by simp [hx]⟩
      · exact ⟨B, by simp [hB], hx⟩
  · intro B hB
    rcases mem_merge_iff.1 hB with rfl | ⟨hB, _⟩
    · simp [hP]
    · exact inv.nonempty B hB
  · intro B hB
    rcases mem_merge_iff.1 hB with rfl | ⟨hB, _⟩
    · rw [List.nodup_append]
      exact ⟨inv.nodup P hPm, inv.nodup Q hQm, fun x hx hx2 => hPQd x hx hx2⟩
    · exact inv.nodup B hB
  · refine pairwise_merge inv.disjoint ?_ ?_ ?_
    · intro B h1 h2 x hx
      simp only [List.mem_append, not_or]
      exact ⟨h1 x hx, h2 x hx⟩
    · intro C h1 h2 x hx hxC
      rcases List.mem_append.1 hx with hx | hx
      · exact h1 x hx hxC
      · exact h2 x hxC hx
    · intro C h1 h2 x hx
      rcases List.mem_append.1 hx with hx | hx
      · exact h1 x hx
      · exact h2 x hx
  · intro B hB h hhd x hx
    rcases mem_merge_iff.1 hB with rfl | ⟨hB, _⟩
    · rw [List.head?_append_of_ne_nil _ hP] at hhd
      rcases List.mem_append.1 hx with hx | hx
      · exact inv.headMin P hPm h hhd x hx
      · exact Nat.le_of_lt (hPQh h hhd x hx)
    · exact inv.headMin B hB h hhd x hx
  · refine pairwise_merge inv.headLt ?_ ?_ ?_
    · intro B h1 h2 h hhd c hc
      rcases List.mem_append.1 hc with hc | hc
      · exact h1 h hhd c hc
      · exact h2 h hhd c hc
    · intro C h1 _ h hhd c hc
      rw [List.head?_append_of_ne_nil _ hP] at hhd
      exact h1 h hhd c hc
    · intro C h1 _ h hhd c hc
      rw [List.head?_append_of_ne_nil _ hP] at hhd
      exact h1 h hhd c hc
  · intro B hB x hx y hy
    rcases mem_merge_iff.1 hB with rfl | ⟨hB, _⟩
    · have hPc := inv.connected P hPm
      have hQc := inv.connected Q hQm
      rcases List.mem_append.1 hx with hx | hx <;> rcases List.mem_append.1 hy with hy | hy
      · exact hPc x hx y hy
      · exact ((hPc x hx x0 hx0).trans hc).trans (hQc y0 hy0 y hy)
      · exact ((hQc x hx y0 hy0).trans hc.symm).trans (hPc x0 hx0 y hy)
      · exact hQc x hx y hy
    · exact inv.connected B hB x hx y hy

/-! ## Buckets only grow -/

theorem SameBucket.mono {m m2 : List (List Nat)} {a b : Nat} (h : SameBucket m a b)
    (hc : Coarser m m2) : SameBucket m2 a b := by
  obtain ⟨B, hB, ha, hb⟩ := h
  obtain ⟨C, hC, hsub⟩ := hc B hB
  exact ⟨C, hC, hsub a ha, hsub b hb⟩

theorem Coarser.of_new (m : List (List Nat)) (k : Nat) : Coarser m (m ++ [[k]]) :=
  fun B hB => ⟨B, List.mem_append_left _ hB, fun _ hx => hx⟩

theorem Coarser.of_push (pre post : List (List Nat)) (P : List Nat) (k : Nat) :
    Coarser (pre ++ P :: post) (pre ++ (P ++ [k]) :: post) := by
  intro B hB
  simp only [List.mem_append, List.mem_cons] at hB
  rcases hB with hB | rfl | hB
  · exact ⟨B, by simp [hB], fun _ hx => hx⟩
  · exact ⟨B ++ [k], by simp, fun x hx => by simp [hx]⟩
  · exact ⟨B, by simp [hB], fun _ hx => hx⟩

theorem Coarser.of_merge (pre mid post : List (List Nat)) (P Q : List Nat) :
    Coarser (pre ++ P :: (mid ++ Q :: post)) (pre ++ (P ++ Q) :: (mid ++ post)) := by
  intro B hB
  simp only [List.mem_append, List.mem_cons] at hB
  rcases hB with hB | rfl | hB | rfl | hB
  · exact ⟨B, by simp [hB], fun _ hx => hx⟩
  · exact ⟨B ++ Q, by simp, fun x hx => by simp [hx]⟩
  · exact ⟨B, by simp [hB], fun _ hx => hx⟩
  · exact ⟨P ++ B, by simp, fun x hx => by simp [hx]⟩
  · exact ⟨B, by simp [hB], fun _ hx => hx⟩

/-! ## What `onTouch` computes -/

theorem assoc_hole {α : Type} (pre mid post : List α) (X Q : α) :
    pre ++ X :: (mid ++ Q :: post) = (pre ++ X :: mid) ++ Q :: post := by
  simp

theorem onTouch_first (i j : Nat) (s : ProcState) (pre post : List (List Nat))
    (P : List Nat) (ht : s.touched = false) (hm : s.blobIndexMapping = pre ++ P :: post)
    (hj : getBlobIDbyIndex j s.blobIndexMapping = (pre.length : Int)) :
    onTouch i s j = some ⟨true, (pre.length : Int), pre ++ (P ++ [i]) :: post⟩ := by
  unfold onTouch
  simp only [ht, Bool.not_false, if_true, hj]
  rw [hm, bucketAt_append_cons]
  simp only [Int.toNat_ofNat, set_append_cons]

theorem onTouch_same (i j : Nat) (s : ProcState) (ht : s.touched = true)
    (hj : getBlobIDbyIndex j s.blobIndexMapping = s.visitedBlobId) :
    onTouch i s j = some s := by
  unfold onTouch
  simp [ht, hj]

theorem onTouch_bridge (i j : Nat) (s : ProcState) (pre mid post : List (List Nat))
    (P Q : List Nat) (ht : s.touched = true)
    (hm : s.blobIndexMapping = pre ++ P :: (mid ++ Q :: post))
    (hv : (s.visitedBlobId = (pre.length : Int) ∧
            getBlobIDbyIndex j s.blobIndexMapping = ((pre ++ P :: mid).length : Int)) ∨
          (s.visitedBlobId = ((pre ++ P :: mid).length : Int) ∧
            getBlobIDbyIndex j s.blobIndexMapping = (pre.length : Int))) :
    onTouch i s j = some ⟨true, (pre.length : Int), pre ++ (P ++ Q) :: (mid ++ post)⟩ := by
  have hlo : bucketAt s.blobIndexMapping (pre.length : Int) = some P := by
    rw [hm, bucketAt_append_cons]
  have hhi : bucketAt s.blobIndexMapping ((pre ++ P :: mid).length : Int) = some Q := by
    rw [hm, assoc_hole, bucketAt_append_cons]
  have hres : (s.blobIndexMapping.set pre.length (P ++ Q)).eraseIdx (pre ++ P :: mid).length
      = pre ++ (P ++ Q) :: (mid ++ post) := by
    rw [hm, set_append_cons, assoc_hole]
    have hl : (pre ++ P :: mid).length = (pre ++ (P ++ Q) :: mid).length := by simp
    rw [hl, eraseIdx_append_cons]
    simp
  have hlt : (pre.length : Int) < ((pre ++ P :: mid).length : Int) := by
    simp only [List.length_append, List.length_cons]
    omega
  unfold onTouch
  rcases hv with ⟨h1, h2⟩ | ⟨h1, h2⟩
  · have hne : ¬ ((pre ++ P :: mid).length : Int) = (pre.length : Int) := by omega
    have hnlt : ¬ ((pre ++ P :: mid).length : Int) < (pre.length : Int) := by omega
    have h0 : (0 : Int) ≤ ((pre ++ P :: mid).length : Int) := Int.ofNat_nonneg _
    simp only [ht, Bool.not_true, h1, h2, ne_eq, hne, not_false_eq_true, and_true, h0,
      if_true, hnlt, if_false, hlo, hhi, Int.toNat_ofNat, hres]
    simp
  · have hne : ¬ (pre.length : Int) = ((pre ++ P :: mid).length : Int) := by omega
    have h0 : (0 : Int) ≤ (pre.length : Int) := Int.ofNat_nonneg _
    simp only [ht, Bool.not_true, h1, h2, ne_eq, hne, not_false_eq_true, and_true, h0,
      if_true, hlt, hlo, hhi, Int.toNat_ofNat, hres]
    simp

/-! ## The inner loop -/

theorem Closed.step_of_not {lines : List Line} {m : List (List Nat)} {i j : Nat}
    (h : Closed lines m i j) (hn : ¬ codeTouch lines i j) : Closed lines m i (j + 1) := by
  intro a b hba hab ht
  rcases hab with hab | ⟨rfl, hb⟩
  · exact h a b hba (Or.inl hab) ht
  · by_cases hbj : b = j
    · subst hbj; exact absurd ht hn
    · exact h a b hba (Or.inr ⟨rfl, by omega⟩) ht

theorem Closed.step_of_same {lines : List Line} {m m2 : List (List Nat)} {i j : Nat}
    (h : Closed lines m i j) (hc : Coarser m m2) (hs : SameBucket m2 i j) :
    Closed lines m2 i (j + 1) := by
  intro a b hba hab ht
  rcases hab with hab | ⟨rfl, hb⟩
  · exact (h a b hba (Or.inl hab) ht).mono hc
  · by_cases hbj : b = j
    · subst hbj; exact hs
    · exact (h a b hba (Or.inr ⟨rfl, by omega⟩) ht).mono hc

theorem Coarser.refl (m : List (List Nat)) : Coarser m m :=
  fun B hB => ⟨B, hB, fun _ hx => hx⟩

theorem innerStep_inv {lines : List Line} {i j : Nat} {s : ProcState}
    (hi : i < lines.length) (hj : j < i) (h : InnerInv lines i j s) :
    ∃ s2, innerStep lines i s j = some s2 ∧ InnerInv lines i (j + 1) s2 := by
  by_cases ht : codeTouch lines i j
  · have hstep : innerStep lines i s j = onTouch i s j := by
      unfold innerStep
      rw [if_pos ht.1, if_pos ht.2]
    have hl : linked lines i j := ⟨hi, by omega, Or.inl ht⟩
    rw [hstep]
    cases htd : s.touched with
    | false =>
      have inv := h.inv
      rw [htd] at inv
      simp only [Bool.false_eq_true, if_false] at inv
      obtain ⟨pre, P, post, hm, hjP, hg⟩ :=
        getBlobIDbyIndex_found j s.blobIndexMapping ((inv.cover j).2 hj)
      refine ⟨_, onTouch_first i j s pre post P htd hm hg, ?_, ?_, ?_⟩
      · simp only [if_true]
        rw [hm] at inv
        exact inv.push hjP hl
      · simp only
        refine h.closed.step_of_same ?_ ⟨P ++ [i], by simp, by simp, by simp [hjP]⟩
        rw [hm]
        exact Coarser.of_push pre post P i
      · intro _
        exact ⟨pre, P ++ [i], post, rfl, by simp, rfl⟩
    | true =>
      have inv := h.inv
      rw [htd] at inv
      simp only [if_true] at inv
      obtain ⟨pre, P, post, hm, hiP, hv⟩ := h.visited htd
      obtain ⟨pre2, Q, post2, hm2, hjQ, hg⟩ :=
        getBlobIDbyIndex_found j s.blobIndexMapping ((inv.cover j).2 (by omega))
      have heq : pre ++ P :: post = pre2 ++ Q :: post2 := by rw [← hm, ← hm2]
      rcases Nat.lt_trichotomy pre.length pre2.length with hlt | hlen | hgt
      · obtain ⟨mid, h1, h2⟩ := two_holes heq hlt
        have hm3 : s.blobIndexMapping = pre ++ P :: (mid ++ Q :: post2) := by rw [hm, h2]
        refine ⟨_, onTouch_bridge i j s pre mid post2 P Q htd hm3
          (Or.inl ⟨hv, by rw [hg, h1]⟩), ?_, ?_, ?_⟩
        · simp only [if_true]
          rw [hm3] at inv
          exact inv.merge hiP hjQ (Conn.of_linked hl)
        · simp only
          refine h.closed.step_of_same ?_ ⟨P ++ Q, by simp, by simp [hiP], by simp [hjQ]⟩
          rw [hm3]
          exact Coarser.of_merge pre mid post2 P Q
        · intro _
          exact ⟨pre, P ++ Q, mid ++ post2, rfl, by simp [hiP], rfl⟩
      · obtain ⟨_, hPQ, _⟩ := same_hole heq hlen
        refine ⟨s, onTouch_same i j s htd (by rw [hg, hv, hlen]), ?_, ?_, h.visited⟩
        · exact h.inv
        · refine h.closed.step_of_same (Coarser.refl _) ⟨P, by rw [hm]; simp, hiP, ?_⟩
          rw [hPQ]; exact hjQ
      · obtain ⟨mid, h1, h2⟩ := two_holes heq.symm hgt
        have hm3 : s.blobIndexMapping = pre2 ++ Q :: (mid ++ P :: post) := by rw [hm2, h2]
        refine ⟨_, onTouch_bridge i j s pre2 mid post Q P htd hm3
          (Or.inr ⟨by rw [hv, h1], hg⟩), ?_, ?_, ?_⟩
        · simp only [if_true]
          rw [hm3] at inv
          exact inv.merge hjQ hiP (Conn.of_linked hl).symm
        · simp only
          refine h.closed.step_of_same ?_ ⟨Q ++ P, by simp, by simp [hiP], by simp [hjQ]⟩
          rw [hm3]
          exact Coarser.of_merge pre2 mid post Q P
        · intro _
          exact ⟨pre2, Q ++ P, mid ++ post, rfl, by simp [hiP], rfl⟩
  · have hstep : innerStep lines i s j = some s := by
      unfold innerStep
      unfold codeTouch at ht
      by_cases h1 : rowsAdjacent (lines.getD i default) (lines.getD j default) = true
      · have h2 : ¬ IsTouching (lines.getD i default) (lines.getD j default) = true :=
          fun h2 => ht ⟨h1, h2⟩
        rw [if_pos h1, if_neg h2]
      · rw [if_neg h1]
    exact ⟨s, hstep, h.inv, h.closed.step_of_not ht, h.visited⟩

theorem foldlM_range_succ {σ : Type} (f : σ → Nat → Option σ) (s : σ) (k : Nat) :
    (List.range (k + 1)).foldlM f s = ((List.range k).foldlM f s).bind (fun t => f t k) := by
  rw [List.range_succ, List.foldlM_append]
  cases (List.foldlM f s (List.range k)) <;> simp

theorem innerLoop_upto {lines : List Line} {i : Nat} {s : ProcState}
    (hi : i < lines.length) (h : InnerInv lines i 0 s) (j : Nat) (hj : j ≤ i) :
    ∃ s2, (List.range j).foldlM (innerStep lines i) s = some s2 ∧ InnerInv lines i j s2 := by
  induction j with
  | zero => exact ⟨s, rfl, h⟩
  | succ j ih =>
    obtain ⟨s1, h1, h2⟩ := ih (by omega)
    obtain ⟨s2, h3, h4⟩ := innerStep_inv hi (by omega) h2
    refine ⟨s2, ?_, h4⟩
    rw [foldlM_range_succ, h1, Option.some_bind]
    exact h3

/-! ## The outer loop -/

theorem BucketInv.empty (lines : List Line) : BucketInv lines 0 [] where
  cover := by simp
  nonempty := by simp
  nodup := by simp
  disjoint := List.Pairwise.nil
  headMin := by simp
  headLt := List.Pairwise.nil
  connected := by simp

theorem outerStep_inv {lines : List Line} {i : Nat} {s : ProcState}
    (hi : i < lines.length) (h : OuterInv lines i s) :
    ∃ s2, outerStep lines s i = some s2 ∧ OuterInv lines (i + 1) s2 := by
  have h0 : InnerInv lines i 0 { s with touched := false } :=
    ⟨by simpa using h.inv, h.closed, by simp⟩
  obtain ⟨s1, h1, h2⟩ := innerLoop_upto hi h0 i (Nat.le_refl i)
  have hloop : innerLoop lines i { s with touched := false } = some s1 := h1
  have hinv := h2.inv
  unfold outerStep
  rw [hloop]
  cases ht : s1.touched with
  | true =>
    rw [ht] at hinv
    refine ⟨s1, by simp [ht], by simpa using hinv, ?_⟩
    intro a b hba hab hc
    have ha : a < i ∨ a = i := by omega
    rcases ha with ha | ha
    · exact h2.closed a b hba (Or.inl ha) hc
    · exact h2.closed a b hba (Or.inr ⟨ha, by omega⟩) hc
  | false =>
    rw [ht] at hinv
    refine ⟨{ s1 with blobIndexMapping := s1.blobIndexMapping ++ [[i]] }, by simp [ht], ?_, ?_⟩
    · have hinv2 : BucketInv lines i s1.blobIndexMapping := by simpa using hinv
      exact hinv2.new
    · intro a b hba hab hc
      have ha : a < i ∨ a = i := by omega
      rcases ha with ha | ha
      · exact (h2.closed a b hba (Or.inl ha) hc).mono (Coarser.of_new _ i)
      · exact (h2.closed a b hba (Or.inr ⟨ha, by omega⟩) hc).mono (Coarser.of_new _ i)

theorem outerLoop_inv (lines : List Line) (k : Nat) (hk : k ≤ lines.length) :
    ∃ s, outerLoop lines k = some s ∧ OuterInv lines k s := by
  induction k with
  | zero =>
    exact ⟨_, rfl, BucketInv.empty lines, fun a b _ hab => by omega⟩
  | succ k ih =>
    obtain ⟨s1, h1, h2⟩ := ih (by omega)
    obtain ⟨s2, h3, h4⟩ := outerStep_inv (by omega) h2
    refine ⟨s2, ?_, h4⟩
    unfold outerLoop at h1 ⊢
    rw [foldlM_range_succ, h1, Option.some_bind]
    exact h3

/-! ## Writing the blob indices -/

theorem writeBucket_spec (b : Nat) (P : List Nat) (out : List Nat)
    (hlt : ∀ x ∈ P, x < out.length) :
    ∃ out2, writeBucket b P out = some out2 ∧ out2.length = out.length ∧
      (∀ x ∈ P, out2[x]? = some b) ∧ (∀ x, x ∉ P → out2[x]? = out[x]?) := by
  induction P generalizing out with
  | nil => exact ⟨out, rfl, rfl, by simp, by simp⟩
  | cons n P ih =>
    have hn : n < out.length := hlt n (by simp)
    obtain ⟨out2, h1, h2, h3, h4⟩ := ih (out.set n b) (by
      intro x hx
      simpa using hlt x (by simp [hx]))
    refine ⟨out2, by simp [writeBucket, hn, h1], by simpa using h2, ?_, ?_⟩
    · intro x hx
      by_cases hxP : x ∈ P
      · exact h3 x hxP
      · have hxn : x = n := by simpa [hxP] using hx
        rw [h4 x hxP, hxn]
        simp [hn]
    · intro x hx
      simp only [List.mem_cons, not_or] at hx
      rw [h4 x hx.2]
      simp [List.getElem?_set, Ne.symm hx.1]

theorem writeBuckets_spec (b : Nat) (m : List (List Nat)) (out : List Nat)
    (hlt : ∀ B ∈ m, ∀ x ∈ B, x < out.length)
    (hd : m.Pairwise (fun B C => ∀ x ∈ B, x ∉ C)) :
    ∃ out2, writeBuckets b m out = some out2 ∧ out2.length = out.length ∧
      (∀ pre P post, m = pre ++ P :: post → ∀ x ∈ P, out2[x]? = some (b + pre.length)) ∧
      (∀ x, (∀ B ∈ m, x ∉ B) → out2[x]? = out[x]?) := by
  induction m generalizing b out with
  | nil =>
    refine ⟨out, rfl, rfl, ?_, by simp⟩
    intro pre P post h
    simp at h
  | cons B m ih =>
    obtain ⟨o1, h1, h2, h3, h4⟩ := writeBucket_spec b B out (hlt B (by simp))
    rw [List.pairwise_cons] at hd
    obtain ⟨o2, g1, g2, g3, g4⟩ := ih (b + 1) o1 (by
      intro C hC x hx
      rw [h2]
      exact hlt C (by simp [hC]) x hx) hd.2
    refine ⟨o2, by simp [writeBuckets, h1, g1], by rw [g2, h2], ?_, ?_⟩
    · intro pre P post hm x hx
      cases pre with
      | nil =>
        simp at hm
        obtain ⟨rfl, rfl⟩ := hm
        rw [g4 x (fun C hC hxC => hd.1 C hC x hx hxC), h3 x hx]
        simp
      | cons B2 pre =>
        simp at hm
        rw [g3 pre P post hm.2 x hx]
        simp
        omega
    · intro x hx
      rw [g4 x (fun C hC => hx C (by simp [hC])), h4 x (hx B (by simp))]

/-! ## The result of `Process` -/

/-- The result of `Process` read off the final bucket list: the run succeeds, the
final bucket list satisfies the invariants, and every line is labelled with the
position of its bucket. -/
theorem Process_spec (lines : List Line) (prev : List Nat) :
    ∃ m out, Process lines prev = some out ∧ out.length = lines.length ∧
      BucketInv lines lines.length m ∧ Closed lines m lines.length 0 ∧
      (∀ pre P post, m = pre ++ P :: post → ∀ x ∈ P, out[x]? = some pre.length) := by
  obtain ⟨s, h1, h2⟩ := outerLoop_inv lines lines.length (Nat.le_refl _)
  obtain ⟨out, g1, g2, g3, _⟩ := writeBuckets_spec 0 s.blobIndexMapping
    (vectorAssign prev lines.length 0)
    (by
      intro B hB x hx
      simpa [vectorAssign] using (h2.inv.cover x).1 ⟨B, hB, hx⟩)
    h2.inv.disjoint
  have hlen : out.length = lines.length := by simpa [vectorAssign] using g2
  refine ⟨s.blobIndexMapping, out, ?_, hlen, h2.inv, h2.closed, ?_⟩
  · unfold Process
    cases hl : lines with
    | nil =>
      subst hl
      have : out = [] := List.eq_nil_of_length_eq_zero (by simpa using hlen)
      subst this
      rfl
    | cons l ls =>
      rw [← hl, h1]
      simp only [hl, List.isEmpty_cons, Bool.false_eq_true, if_false]
      rw [← hl]
      exact g1
  · intro pre P post hm x hx
    simpa using g3 pre P post hm x hx

theorem label_of_mem {m : List (List Nat)} {out : List Nat}
    (hlab : ∀ pre P post, m = pre ++ P :: post → ∀ x ∈ P, out[x]? = some pre.length)
    {B : List Nat} (hB : B ∈ m) : ∃ t, ∀ x ∈ B, out[x]? = some t := by
  obtain ⟨pre, post, hm⟩ := List.append_of_mem hB
  exact ⟨pre.length, hlab pre B post hm⟩

theorem sameBucket_iff_label {lines : List Line} {k : Nat} {m : List (List Nat)}
    {out : List Nat} (inv : BucketInv lines k m)
    (hlab : ∀ pre P post, m = pre ++ P :: post → ∀ x ∈ P, out[x]? = some pre.length)
    {a b : Nat} (ha : a < k) (hb : b < k) :
    SameBucket m a b ↔ out[a]? = out[b]? := by
  constructor
  · rintro ⟨B, hB, haB, hbB⟩
    obtain ⟨t, ht⟩ := label_of_mem hlab hB
    rw [ht a haB, ht b hbB]
  · intro h
    obtain ⟨B, hB, haB⟩ := (inv.cover a).2 ha
    obtain ⟨C, hC, hbC⟩ := (inv.cover b).2 hb
    obtain ⟨pre, post, hm⟩ := List.append_of_mem hB
    obtain ⟨pre2, post2, hm2⟩ := List.append_of_mem hC
    have h1 := hlab pre B post hm a haB
    have h2 := hlab pre2 C post2 hm2 b hbC
    rw [h, h2] at h1
    have hlen : pre.length = pre2.length := by simpa using h1.symm
    obtain ⟨_, hBC, _⟩ := same_hole (hm.symm.trans hm2) hlen
    exact ⟨B, hB, haB, by rw [hBC]; exact hbC⟩

/-! ## The two tests on lines -/

theorem IsTouching_comm (a b : Line) : IsTouching a b = IsTouching b a := by
  unfold IsTouching
  rw [Bool.and_comm]

theorem rowsAdjacent_comm (a b : Line) : rowsAdjacent a b = rowsAdjacent b a := by
  unfold rowsAdjacent
  generalize toInt32 a.m_Y = x
  generalize toInt32 b.m_Y = y
  have h : absI32 (wrapI32 (x - y)) = 1 ↔ absI32 (wrapI32 (y - x)) = 1 := by
    unfold absI32 wrapI32
    split_ifs <;> omega
  simp only [h]

theorem codeTouch_symm {lines : List Line} {a b : Nat} (h : codeTouch lines a b) :
    codeTouch lines b a := by
  unfold codeTouch at h ⊢
  rw [rowsAdjacent_comm, IsTouching_comm]
  exact h

theorem IsTouching_iff_shareColumn (a b : Line) (ha : 1 ≤ a.m_Length)
    (hb : 1 ≤ b.m_Length) (hax : a.m_X + a.m_Length < 4294967296)
    (hbx : b.m_X + b.m_Length < 4294967296) :
    IsTouching a b = true ↔ shareColumn a b := by
  unfold IsTouching shareColumn wrapU32
  rw [Nat.mod_eq_of_lt hax, Nat.mod_eq_of_lt hbx]
  simp only [Bool.and_eq_true, decide_eq_true_eq, gt_iff_lt]
  constructor
  · rintro ⟨h1, h2⟩
    exact ⟨max a.m_X b.m_X, by omega, by omega, by omega, by omega⟩
  · rintro ⟨c, h1, h2, h3, h4⟩
    omega

theorem rowsAdjacent_iff (a b : Line) (ha : a.m_Y < 2147483648) (hb : b.m_Y < 2147483648) :
    rowsAdjacent a b = true ↔ rowsDifferByOne a b := by
  unfold rowsAdjacent rowsDifferByOne toInt32 absI32 wrapI32
  simp only [decide_eq_true_eq]
  split_ifs <;> omega

theorem codeTouch_iff_touching {lines : List Line} (hr : ∀ l ∈ lines, l.InRange)
    {a b : Nat} (ha : a < lines.length) (hb : b < lines.length) :
    codeTouch lines a b ↔ Touching lines a b := by
  have hla : (lines.getD a default).InRange := by
    rw [List.getD_eq_getElem _ _ ha]
    exact hr _ (List.getElem_mem ha)
  have hlb : (lines.getD b default).InRange := by
    rw [List.getD_eq_getElem _ _ hb]
    exact hr _ (List.getElem_mem hb)
  unfold codeTouch Touching
  rw [rowsAdjacent_iff _ _ hla.2.1 hlb.2.1,
    IsTouching_iff_shareColumn _ _ hla.1 hlb.1 hla.2.2 hlb.2.2]
  simp [ha, hb]

theorem Touching_symm {lines : List Line} {a b : Nat} (h : Touching lines a b) :
    Touching lines b a := by
  obtain ⟨h1, h2, h3, c, h4⟩ := h
  exact ⟨h2, h1, h3.symm, c, by omega⟩

theorem linked_iff_touching {lines : List Line} (hr : ∀ l ∈ lines, l.InRange) (a b : Nat) :
    linked lines a b ↔ Touching lines a b := by
  constructor
  · rintro ⟨ha, hb, h | h⟩
    · exact (codeTouch_iff_touching hr ha hb).1 h
    · exact Touching_symm ((codeTouch_iff_touching hr hb ha).1 h)
  · intro h
    exact ⟨h.1, h.2.1, Or.inl ((codeTouch_iff_touching hr h.1 h.2.1).2 h)⟩

theorem Conn_iff_chained {lines : List Line} (hr : ∀ l ∈ lines, l.InRange) (a b : Nat) :
    Conn lines a b ↔ Chained lines a b := by
  have h : linked lines = Touching lines := by
    funext p q
    exact propext (linked_iff_touching hr p q)
  unfold Conn Chained
  rw [h]

/-! ## The labelling computed by `Process` -/

theorem label_eq_of_linked {lines : List Line} {m : List (List Nat)} {out : List Nat}
    (inv : BucketInv lines lines.length m) (hcl : Closed lines m lines.length 0)
    (hlab : ∀ pre P post, m = pre ++ P :: post → ∀ x ∈ P, out[x]? = some pre.length)
    {c d : Nat} (h : linked lines c d) : out[c]? = out[d]? := by
  obtain ⟨hc, hd, ht⟩ := h
  rcases Nat.lt_trichotomy c d with hlt | heq | hgt
  · have ht2 : codeTouch lines d c := ht.elim codeTouch_symm id
    exact ((sameBucket_iff_label inv hlab hd hc).1 (hcl d c hlt (Or.inl hd) ht2)).symm
  · rw [heq]
  · have ht2 : codeTouch lines c d := ht.elim id codeTouch_symm
    exact (sameBucket_iff_label inv hlab hc hd).1 (hcl c d hgt (Or.inl hc) ht2)

/-- What `Process` computes, for every line list: the run succeeds; the output has one
entry per line; two positions carry the same label exactly when a chain of linked
positions connects them; the labels first occur in the order `0, 1, 2, ...`; and the
labels used are exactly the numbers below the number of buckets. -/
theorem Process_char (lines : List Line) (prev : List Nat) :
    ∃ out, Process lines prev = some out ∧ out.length = lines.length ∧
      (∀ a b, a < lines.length → b < lines.length →
        (out[a]? = out[b]? ↔ Conn lines a b)) ∧
      FirstOccurrenceOrdered out ∧
      (∃ K, (lines ≠ [] → 1 ≤ K) ∧ ∀ v, v ∈ out ↔ v < K) := by
  obtain ⟨m, out, h1, h2, inv, hcl, hlab⟩ := Process_spec lines prev
  refine ⟨out, h1, h2, ?_, ?_, m.length, ?_, ?_⟩
  · intro a b ha hb
    constructor
    · intro h
      obtain ⟨B, hB, haB, hbB⟩ := (sameBucket_iff_label inv hlab ha hb).2 h
      exact inv.connected B hB a haB b hbB
    · intro h
      induction h with
      | refl => rfl
      | tail _ hbc ih => exact (ih hbc.1).trans (label_eq_of_linked inv hcl hlab hbc)
  · intro i v hiv k hk
    have hi : i < lines.length := by
      rw [← h2]
      exact (List.getElem?_eq_some_iff.1 hiv).1
    obtain ⟨B, hB, hiB⟩ := (inv.cover i).2 hi
    obtain ⟨pre, post, hm⟩ := List.append_of_mem hB
    have hv : v = pre.length := by
      have := hlab pre B post hm i hiB
      rw [hiv] at this
      simpa using this
    obtain ⟨pre1, A, pre2, hpre, hlen⟩ := split_at pre k (by omega)
    have hm2 : m = pre1 ++ A :: (pre2 ++ B :: post) := by rw [hm, hpre]; simp
    have hA : A ∈ m := by rw [hm2]; simp
    obtain ⟨h, hh⟩ : ∃ h, h ∈ A.head? := by
      cases hA2 : A with
      | nil => exact absurd hA2 (inv.nonempty A hA)
      | cons a A2 => exact ⟨a, by simp⟩
    have hlt := inv.headLt
    rw [hm2] at hlt
    simp only [List.pairwise_append, List.pairwise_cons, List.mem_append, List.mem_cons] at hlt
    refine ⟨h, hlt.2.1.1 B (Or.inr (Or.inl rfl)) h hh i hiB, ?_⟩
    rw [hlab pre1 A _ hm2 h (mem_of_mem_head hh), hlen]
  · intro hne
    have hpos : 0 < lines.length := List.length_pos.2 hne
    obtain ⟨B, hB, _⟩ := (inv.cover 0).2 hpos
    exact List.length_pos.2 (List.ne_nil_of_mem hB)
  · intro v
    constructor
    · intro hv
      obtain ⟨i, hi, rfl⟩ := List.getElem_of_mem hv
      obtain ⟨B, hB, hiB⟩ := (inv.cover i).2 (by rw [← h2]; exact hi)
      obtain ⟨pre, post, hm⟩ := List.append_of_mem hB
      have := hlab pre B post hm i hiB
      rw [List.getElem?_eq_getElem hi] at this
      have hval : out[i] = pre.length := by simpa using this
      rw [hval, hm]
      simp
    · intro hv
      obtain ⟨pre, B, post, hm, hlen⟩ := split_at m v hv
      have hB : B ∈ m := by rw [hm]; simp
      obtain ⟨x, hx⟩ := List.exists_mem_of_ne_nil B (inv.nonempty B hB)
      have := hlab pre B post hm x hx
      rw [hlen] at this
      exact List.getElem?_mem this

/-- Two labellings of the same positions that identify the same pairs of positions
and both introduce their labels in the order `0, 1, 2, ...` are equal. -/
theorem labels_unique {f g : List Nat} (hlen : f.length = g.length)
    (hk : ∀ a b, a < f.length → b < f.length → (f[a]? = f[b]? ↔ g[a]? = g[b]?))
    (hf : FirstOccurrenceOrdered f) (hg : FirstOccurrenceOrdered g) : f = g := by
  apply List.ext_getElem?
  intro i
  induction i using Nat.strong_induction_on with
  | _ i ih =>
    by_cases hi : i < f.length
    · have hi2 : i < g.length := by omega
      have hfi : f[i]? = some f[i] := List.getElem?_eq_getElem hi
      have hgi : g[i]? = some g[i] := List.getElem?_eq_getElem hi2
      rw [hfi, hgi]
      congr 1
      rcases Nat.lt_trichotomy f[i] g[i] with hlt | heq | hgt
      · exfalso
        obtain ⟨j, hj, hgj⟩ := hg i g[i] hgi f[i] hlt
        have h1 : f[j]? = f[i]? := by rw [ih j hj, hgj, hfi]
        have h2 := (hk j i (by omega) hi).1 h1
        rw [hgj, hgi] at h2
        have : f[i] = g[i] := by simpa using h2
        omega
      · exact heq
      · exfalso
        obtain ⟨j, hj, hfj⟩ := hf i f[i] hfi g[i] hgt
        have h1 : g[j]? = g[i]? := by rw [← ih j hj, hfj, hgi]
        have h2 := (hk j i (by omega) hi).2 h1
        rw [hfj, hfi] at h2
        have : g[i] = f[i] := by simpa using h2
        omega
    · have hi2 : ¬ i < g.length := by omega
      rw [List.getElem?_eq_none (by omega), List.getElem?_eq_none (by omega)]

theorem firstOccurrenceOrdered_head {out : List Nat} (h : FirstOccurrenceOrdered out)
    (hne : out ≠ []) : out[0]? = some 0 := by
  cases out with
  | nil => exact absurd rfl hne
  | cons v out =>
    cases v with
    | zero => simp
    | succ v =>
      obtain ⟨j, hj, _⟩ := h 0 (v + 1) (by simp) 0 (by omega)
      omega

/-! ## Canonical renumbering -/

theorem indexOf_le_of_getElem? {l : List Nat} {j v : Nat} (h : l[j]? = some v) :
    l.indexOf v ≤ j := by
  induction l generalizing j with
  | nil => simp at h
  | cons a l ih =>
    by_cases hav : a = v
    · rw [List.indexOf_cons_eq _ hav]
      omega
    · rw [List.indexOf_cons_ne _ hav]
      cases j with
      | zero => simp at h; exact absurd h hav
      | succ j =>
        have := ih (by simpa using h)
        omega

theorem length_eq_of_nodup_of_mem_iff {T : List Nat} {v : Nat} (hnd : T.Nodup)
    (hmem : ∀ k, k ∈ T ↔ k < v) : T.length = v := by
  have hperm : T.Perm (List.range v) :=
    (List.perm_ext_iff_of_nodup hnd (List.nodup_range v)).2 (fun k => by
      rw [hmem k, List.mem_range])
  rw [hperm.length_eq, List.length_range]

/-- A labelling whose labels first occur in the order `0, 1, 2, ...` is left
unchanged by canonical renumbering. -/
theorem canonicalRenumberSpec_fixed {out : List Nat} (h : FirstOccurrenceOrdered out) :
    canonicalRenumberSpec out = out := by
  unfold canonicalRenumberSpec
  conv_rhs => rw [← List.map_id out]
  apply List.map_congr_left
  intro v hv
  simp only [id]
  have hp : out[out.indexOf v]? = some v := List.getElem?_indexOf hv
  rw [← List.length_map _ (fun j => out.getD j 0)]
  apply length_eq_of_nodup_of_mem_iff
  · apply List.Nodup.map_on
    · intro x hx y hy hxy
      simp only [List.mem_filter, decide_eq_true_eq] at hx hy
      rw [← hx.2, ← hy.2, hxy]
    · exact (List.nodup_range _).filter _
  · intro k
    simp only [List.mem_map, List.mem_filter, List.mem_range, decide_eq_true_eq]
    constructor
    · rintro ⟨j, ⟨hj, hfirst⟩, rfl⟩
      have hjlen : j < out.length := by
        have := (List.getElem?_eq_some_iff.1 hp).1
        omega
      have hj2 : out[j]? = some (out.getD j 0) := by
        rw [List.getD_eq_getElem _ _ hjlen]
        exact List.getElem?_eq_getElem hjlen
      rcases Nat.lt_trichotomy (out.getD j 0) v with hlt | heq | hgt
      · exact hlt
      · rw [heq] at hj2
        have := indexOf_le_of_getElem? hj2
        omega
      · obtain ⟨j2, hj2lt, hj2v⟩ := h j _ hj2 v hgt
        have := indexOf_le_of_getElem? hj2v
        omega
    · intro hk
      obtain ⟨j, hj, hjk⟩ := h _ v hp k hk
      have hkmem : k ∈ out := List.getElem?_mem hjk
      have hpk : out[out.indexOf k]? = some k := List.getElem?_indexOf hkmem
      have hle := indexOf_le_of_getElem? hjk
      have hget : out.getD (out.indexOf k) 0 = k := by
        rw [List.getD_eq_getElem?_getD, hpk]
        rfl
      exact ⟨out.indexOf k, ⟨by omega, by rw [hget]⟩, hget⟩

/-! ## Line lists without a touching pair -/

theorem shareColumn_of_IsTouching (a b : Line) (ha : 1 ≤ a.m_Length) (hb : 1 ≤ b.m_Length)
    (h : IsTouching a b = true) : shareColumn a b := by
  unfold IsTouching wrapU32 at h
  simp only [Bool.and_eq_true, decide_eq_true_eq, gt_iff_lt] at h
  have h1 := Nat.mod_le (a.m_X + a.m_Length) 4294967296
  have h2 := Nat.mod_le (b.m_X + b.m_Length) 4294967296
  exact ⟨max a.m_X b.m_X, by omega, by omega, by omega, by omega⟩

theorem touching_of_codeTouch {lines : List Line}
    (hr : ∀ l ∈ lines, 1 ≤ l.m_Length ∧ l.m_Y < 2147483648) {a b : Nat}
    (ha : a < lines.length) (hb : b < lines.length) (h : codeTouch lines a b) :
    Touching lines a b := by
  have hla := hr _ (List.getElem_mem ha)
  have hlb := hr _ (List.getElem_mem hb)
  rw [← List.getD_eq_getElem _ default ha] at hla
  rw [← List.getD_eq_getElem _ default hb] at hlb
  exact ⟨ha, hb, (rowsAdjacent_iff _ _ hla.2 hlb.2).1 h.1,
    shareColumn_of_IsTouching _ _ hla.1 hlb.1 h.2⟩

theorem not_touching_self (lines : List Line) (a : Nat) : ¬ Touching lines a a := by
  rintro ⟨_, _, h, _⟩
  unfold rowsDifferByOne at h
  omega

theorem firstOccurrenceOrdered_range (n : Nat) : FirstOccurrenceOrdered (List.range n) := by
  intro i v hiv k hk
  obtain ⟨hlt, hval⟩ := List.getElem?_eq_some_iff.1 hiv
  rw [List.getElem_range] at hval
  rw [List.length_range] at hlt
  refine ⟨k, by omega, ?_⟩
  rw [List.getElem?_range (by omega)]

/-! ## Claims about `Process` and `IsTouching` -/

/-- C1: for every line list sorted by `(y, x)` whose lines have length at least one
and coordinates on which no 32-bit operation wraps, `Process` succeeds and writes the
same blob index at any two positions whose lines touch (rows differing by exactly one,
column spans sharing a column); in particular the bridge case of Scenario C,
`(0,0,2), (5,0,2), (0,1,8)`, gives `[0, 0, 0]`. The proof does not use sortedness. -/
theorem Process_touching_same_index (lines : List Line) (prev : List Nat)
    (_hs : SortedLines lines) (hr : ∀ l ∈ lines, l.InRange) :
    (∃ out, Process lines prev = some out ∧
      ∀ a b, Touching lines a b → ∃ v, out[a]? = some v ∧ out[b]? = some v) ∧
    Process [⟨0, 0, 2⟩, ⟨5, 0, 2⟩, ⟨0, 1, 8⟩] prev = some [0, 0, 0] := by
  refine ⟨?_, rfl⟩
  obtain ⟨out, h1, h2, h3, _, _⟩ := Process_char lines prev
  refine ⟨out, h1, ?_⟩
  intro a b hab
  have ha : a < out.length := by rw [h2]; exact hab.1
  have heq : out[a]? = out[b]? :=
    (h3 a b hab.1 hab.2.1).2 (Conn.of_linked ((linked_iff_touching hr a b).2 hab))
  exact ⟨out[a], List.getElem?_eq_getElem ha, by rw [← heq]; exact List.getElem?_eq_getElem ha⟩

/-- C1 at Scenario C, with a non-empty output vector before the call. -/
theorem Process_touching_same_index_witness :
    SortedLines [⟨0, 0, 2⟩, ⟨5, 0, 2⟩, ⟨0, 1, 8⟩] ∧
    (∀ l ∈ [(⟨0, 0, 2⟩ : Line), ⟨5, 0, 2⟩, ⟨0, 1, 8⟩], l.InRange) ∧
    ((∃ out, Process [⟨0, 0, 2⟩, ⟨5, 0, 2⟩, ⟨0, 1, 8⟩] [7, 7] = some out ∧
      ∀ a b, Touching [⟨0, 0, 2⟩, ⟨5, 0, 2⟩, ⟨0, 1, 8⟩] a b →
        ∃ v, out[a]? = some v ∧ out[b]? = some v) ∧
    Process [⟨0, 0, 2⟩, ⟨5, 0, 2⟩, ⟨0, 1, 8⟩] [7, 7] = some [0, 0, 0]) :=
  ⟨by decide, by decide,
    Process_touching_same_index [⟨0, 0, 2⟩, ⟨5, 0, 2⟩, ⟨0, 1, 8⟩] [7, 7]
      (by decide) (by decide)⟩

/-- C2: for every line list sorted by `(y, x)` with lengths at least one and no 32-bit
wrap, `Process` succeeds, and two positions that receive the same blob index are
connected by a chain of positions in which each consecutive pair touches; hence two
positions without such a chain receive different blob indices. The proof does not use
sortedness. -/
theorem Process_same_index_chained (lines : List Line) (prev : List Nat)
    (_hs : SortedLines lines) (hr : ∀ l ∈ lines, l.InRange) :
    ∃ out, Process lines prev = some out ∧ out.length = lines.length ∧
      (∀ a b, a < lines.length → b < lines.length → out[a]? = out[b]? →
        Chained lines a b) ∧
      (∀ a b, a < lines.length → b < lines.length → ¬ Chained lines a b →
        out[a]? ≠ out[b]?) := by
  obtain ⟨out, h1, h2, h3, _, _⟩ := Process_char lines prev
  refine ⟨out, h1, h2, ?_, ?_⟩
  · intro a b ha hb h
    exact (Conn_iff_chained hr a b).1 ((h3 a b ha hb).1 h)
  · intro a b ha hb hn h
    exact hn ((Conn_iff_chained hr a b).1 ((h3 a b ha hb).1 h))

/-- C2 at two separated lines on one row and a third line two rows below. -/
theorem Process_same_index_chained_witness :
    SortedLines [⟨0, 0, 2⟩, ⟨5, 0, 2⟩, ⟨0, 2, 8⟩] ∧
    (∀ l ∈ [(⟨0, 0, 2⟩ : Line), ⟨5, 0, 2⟩, ⟨0, 2, 8⟩], l.InRange) ∧
    ∃ out, Process [⟨0, 0, 2⟩, ⟨5, 0, 2⟩, ⟨0, 2, 8⟩] [] = some out ∧
      out.length = [(⟨0, 0, 2⟩ : Line), ⟨5, 0, 2⟩, ⟨0, 2, 8⟩].length ∧
      (∀ a b, a < [(⟨0, 0, 2⟩ : Line), ⟨5, 0, 2⟩, ⟨0, 2, 8⟩].length →
        b < [(⟨0, 0, 2⟩ : Line), ⟨5, 0, 2⟩, ⟨0, 2, 8⟩].length → out[a]? = out[b]? →
        Chained [⟨0, 0, 2⟩, ⟨5, 0, 2⟩, ⟨0, 2, 8⟩] a b) ∧
      (∀ a b, a < [(⟨0, 0, 2⟩ : Line), ⟨5, 0, 2⟩, ⟨0, 2, 8⟩].length →
        b < [(⟨0, 0, 2⟩ : Line), ⟨5, 0, 2⟩, ⟨0, 2, 8⟩].length →
        ¬ Chained [⟨0, 0, 2⟩, ⟨5, 0, 2⟩, ⟨0, 2, 8⟩] a b → out[a]? ≠ out[b]?) :=
  ⟨by decide, by decide,
    Process_same_index_chained [⟨0, 0, 2⟩, ⟨5, 0, 2⟩, ⟨0, 2, 8⟩] [] (by decide) (by decide)⟩

/-- C3: for every line list and every previous content of the output vector,
`Process` succeeds and leaves exactly as many blob indices as there are lines; for the
empty line list the output is the empty vector. -/
theorem Process_output_length (lines : List Line) (prev : List Nat) :
    (∃ out, Process lines prev = some out ∧ out.length = lines.length) ∧
    Process [] prev = some [] := by
  refine ⟨?_, rfl⟩
  obtain ⟨out, h1, h2, _⟩ := Process_char lines prev
  exact ⟨out, h1, h2⟩

/-- C5: for every non-empty line list, `Process` succeeds, the set of values it writes
is exactly `{0, ..., K - 1}` for some `K ≥ 1`, and the value at position `0` is `0`. -/
theorem Process_indices_contiguous (lines : List Line) (prev : List Nat)
    (hne : lines ≠ []) :
    ∃ out K, Process lines prev = some out ∧ 1 ≤ K ∧ (∀ v, v ∈ out ↔ v < K) ∧
      out[0]? = some 0 := by
  obtain ⟨out, h1, h2, _, h4, K, h5, h6⟩ := Process_char lines prev
  refine ⟨out, K, h1, h5 hne, h6, firstOccurrenceOrdered_head h4 ?_⟩
  intro h
  rw [h] at h2
  exact hne (List.eq_nil_of_length_eq_zero h2.symm)

/-- C5 at a list with two blobs. -/
theorem Process_indices_contiguous_witness :
    [(⟨0, 0, 2⟩ : Line), ⟨5, 0, 2⟩, ⟨1, 1, 2⟩] ≠ [] ∧
    ∃ out K, Process [⟨0, 0, 2⟩, ⟨5, 0, 2⟩, ⟨1, 1, 2⟩] [] = some out ∧ 1 ≤ K ∧
      (∀ v, v ∈ out ↔ v < K) ∧ out[0]? = some 0 :=
  ⟨by decide, Process_indices_contiguous [⟨0, 0, 2⟩, ⟨5, 0, 2⟩, ⟨1, 1, 2⟩] [] (by decide)⟩

/-- C7: for two lines of length at least one whose column spans end below `2 ^ 32`,
`IsTouching` returns true exactly when the two spans have a column in common; the
rows of the lines play no part in the result. -/
theorem IsTouching_iff_common_column (line1 line2 : Line)
    (h1 : 1 ≤ line1.m_Length) (h2 : 1 ≤ line2.m_Length)
    (h1x : line1.m_X + line1.m_Length < 4294967296)
    (h2x : line2.m_X + line2.m_Length < 4294967296) :
    (IsTouching line1 line2 = true ↔
      ∃ c, line1.m_X ≤ c ∧ c < line1.m_X + line1.m_Length ∧
        line2.m_X ≤ c ∧ c < line2.m_X + line2.m_Length) ∧
    (∀ y1 y2, IsTouching { line1 with m_Y := y1 } { line2 with m_Y := y2 } =
      IsTouching line1 line2) :=
  ⟨IsTouching_iff_shareColumn line1 line2 h1 h2 h1x h2x, fun _ _ => rfl⟩

/-- C7 at the lines `(x = 0, y = 0, length = 2)` and `(x = 1, y = 9, length = 2)`. -/
theorem IsTouching_iff_common_column_witness :
    1 ≤ (⟨0, 0, 2⟩ : Line).m_Length ∧ 1 ≤ (⟨1, 9, 2⟩ : Line).m_Length ∧
    (⟨0, 0, 2⟩ : Line).m_X + (⟨0, 0, 2⟩ : Line).m_Length < 4294967296 ∧
    (⟨1, 9, 2⟩ : Line).m_X + (⟨1, 9, 2⟩ : Line).m_Length < 4294967296 ∧
    ((IsTouching ⟨0, 0, 2⟩ ⟨1, 9, 2⟩ = true ↔
      ∃ c, (⟨0, 0, 2⟩ : Line).m_X ≤ c ∧
        c < (⟨0, 0, 2⟩ : Line).m_X + (⟨0, 0, 2⟩ : Line).m_Length ∧
        (⟨1, 9, 2⟩ : Line).m_X ≤ c ∧
        c < (⟨1, 9, 2⟩ : Line).m_X + (⟨1, 9, 2⟩ : Line).m_Length) ∧
    (∀ y1 y2, IsTouching { (⟨0, 0, 2⟩ : Line) with m_Y := y1 }
        { (⟨1, 9, 2⟩ : Line) with m_Y := y2 } = IsTouching ⟨0, 0, 2⟩ ⟨1, 9, 2⟩)) :=
  ⟨by decide, by decide, by decide, by decide,
    IsTouching_iff_common_column ⟨0, 0, 2⟩ ⟨1, 9, 2⟩ (by decide) (by decide) (by decide)
      (by decide)⟩

/-- C4: for every sorted line list, `Process` succeeds and numbers the blobs by their
smallest position: every label is preceded by all smaller labels, so the label at
position `0` is `0`, every later label is at most one more than some earlier label,
and canonical renumbering (groups numbered in the order of their smallest position)
returns the output unchanged. The proof does not use sortedness. -/
theorem Process_numbered_by_first_position (lines : List Line) (prev : List Nat)
    (_hs : SortedLines lines) :
    ∃ out, Process lines prev = some out ∧
      FirstOccurrenceOrdered out ∧
      (lines ≠ [] → out[0]? = some 0) ∧
      (∀ (i v : Nat), 0 < i → out[i]? = some v →
        ∃ (j w : Nat), j < i ∧ out[j]? = some w ∧ v ≤ w + 1) ∧
      canonicalRenumberSpec out = out := by
  obtain ⟨out, h1, h2, _, h4, _⟩ := Process_char lines prev
  refine ⟨out, h1, h4, ?_, ?_, canonicalRenumberSpec_fixed h4⟩
  · intro hne
    apply firstOccurrenceOrdered_head h4
    intro h
    rw [h] at h2
    exact hne (List.eq_nil_of_length_eq_zero h2.symm)
  · intro i v hi hiv
    cases v with
    | zero =>
      have h0 : 0 < out.length := by
        have := (List.getElem?_eq_some_iff.1 hiv).1
        omega
      exact ⟨0, out[0], hi, List.getElem?_eq_getElem h0, by omega⟩
    | succ v =>
      obtain ⟨j, hj, hjv⟩ := h4 i (v + 1) hiv v (by omega)
      exact ⟨j, v, hj, hjv, by omega⟩

/-- C4 at a list in which the second blob is bridged into the first. -/
theorem Process_numbered_by_first_position_witness :
    SortedLines [⟨0, 0, 2⟩, ⟨5, 0, 2⟩, ⟨9, 0, 1⟩, ⟨0, 1, 8⟩] ∧
    ∃ out, Process [⟨0, 0, 2⟩, ⟨5, 0, 2⟩, ⟨9, 0, 1⟩, ⟨0, 1, 8⟩] [] = some out ∧
      FirstOccurrenceOrdered out ∧
      ([(⟨0, 0, 2⟩ : Line), ⟨5, 0, 2⟩, ⟨9, 0, 1⟩, ⟨0, 1, 8⟩] ≠ [] → out[0]? = some 0) ∧
      (∀ (i v : Nat), 0 < i → out[i]? = some v →
        ∃ (j w : Nat), j < i ∧ out[j]? = some w ∧ v ≤ w + 1) ∧
      canonicalRenumberSpec out = out :=
  ⟨by decide,
    Process_numbered_by_first_position [⟨0, 0, 2⟩, ⟨5, 0, 2⟩, ⟨9, 0, 1⟩, ⟨0, 1, 8⟩] []
      (by decide)⟩

/-- C8, as stated, fails: rows `0` and `4294967295` do not differ by one, so the list
has no touching pair, yet `static_cast<int>(4294967295)` is `-1`, the row test of
`Process` holds, and the two lines get the same blob index. -/
theorem Process_no_touching_pair_counterexample :
    (∀ i j, j < i → ¬ Touching [⟨0, 0, 1⟩, ⟨0, 4294967295, 1⟩] i j) ∧
    Process [⟨0, 0, 1⟩, ⟨0, 4294967295, 1⟩] [] = some [0, 0] ∧
    Process [⟨0, 0, 1⟩, ⟨0, 4294967295, 1⟩] [] ≠ some (List.range 2) := by
  refine ⟨?_, by decide, by decide⟩
  rintro i j hji ⟨hi, _, hrow, _⟩
  have hi1 : i = 1 := by simp at hi; omega
  have hj0 : j = 0 := by omega
  subst hi1 hj0
  revert hrow
  decide

/-- C8, amended: for every line list whose lines have length at least one and a row
below `2 ^ 31`, and in which no position has an earlier position it touches, `Process`
returns `[0, 1, ..., n-1]`; Scenario A, `[(0,0,3)]`, gives `[0]`. -/
theorem Process_no_touching_pair (lines : List Line) (prev : List Nat)
    (hr : ∀ l ∈ lines, 1 ≤ l.m_Length ∧ l.m_Y < 2147483648)
    (hno : ∀ i j, j < i → ¬ Touching lines i j) :
    Process lines prev = some (List.range lines.length) ∧
    Process [⟨0, 0, 3⟩] prev = some [0] := by
  refine ⟨?_, rfl⟩
  obtain ⟨out, h1, h2, h3, h4, _⟩ := Process_char lines prev
  have hnl : ∀ a b, ¬ linked lines a b := by
    rintro a b ⟨ha, hb, h⟩
    have ht : Touching lines a b := by
      rcases h with h | h
      · exact touching_of_codeTouch hr ha hb h
      · exact Touching_symm (touching_of_codeTouch hr hb ha h)
    rcases Nat.lt_trichotomy a b with hlt | heq | hgt
    · exact hno b a hlt (Touching_symm ht)
    · subst heq
      exact not_touching_self lines a ht
    · exact hno a b hgt ht
  have hconn : ∀ a b, Conn lines a b → a = b := by
    intro a b h
    induction h with
    | refl => rfl
    | tail _ hbc _ => exact absurd hbc (hnl _ _)
  have heq : out = List.range lines.length := by
    apply labels_unique (by rw [h2, List.length_range])
    · intro a b ha hb
      rw [h2] at ha hb
      rw [h3 a b ha hb, List.getElem?_range ha, List.getElem?_range hb]
      constructor
      · intro h
        rw [hconn a b h]
      · intro h
        have : a = b := by simpa using h
        rw [this]
        exact Relation.ReflTransGen.refl
    · exact h4
    · exact firstOccurrenceOrdered_range _
  rw [h1, heq]

/-- C8, amended, at Scenario D: two separated lines on one row and a third line two
rows below. -/
theorem Process_no_touching_pair_witness :
    (∀ l ∈ [(⟨0, 0, 2⟩ : Line), ⟨5, 0, 2⟩, ⟨0, 2, 8⟩], 1 ≤ l.m_Length ∧ l.m_Y < 2147483648) ∧
    (∀ i j, j < i → ¬ Touching [⟨0, 0, 2⟩, ⟨5, 0, 2⟩, ⟨0, 2, 8⟩] i j) ∧
    Process [⟨0, 0, 2⟩, ⟨5, 0, 2⟩, ⟨0, 2, 8⟩] [] =
      some (List.range [(⟨0, 0, 2⟩ : Line), ⟨5, 0, 2⟩, ⟨0, 2, 8⟩].length) ∧
    Process [⟨0, 0, 3⟩] [] = some [0] :=
  have hno : ∀ i j, j < i → ¬ Touching [⟨0, 0, 2⟩, ⟨5, 0, 2⟩, ⟨0, 2, 8⟩] i j := by
    rintro i j hji ⟨hi, _, hrow, _⟩
    have hi3 : i < 3 := by simpa using hi
    have hcases : (i = 1 ∧ j = 0) ∨ (i = 2 ∧ j = 0) ∨ (i = 2 ∧ j = 1) := by omega
    rcases hcases with ⟨rfl, rfl⟩ | ⟨rfl, rfl⟩ | ⟨rfl, rfl⟩ <;> revert hrow <;> decide
  ⟨by decide, hno,
    Process_no_touching_pair [⟨0, 0, 2⟩, ⟨5, 0, 2⟩, ⟨0, 2, 8⟩] [] (by decide) hno⟩

/-- C9, counterexample to the cause the claim gives (the bridge branch handling only
the first two touching predecessors): in the sorted input
`(0,0,1), (2,0,1), (4,0,1), (0,1,5)` line `3` touches the lines `0`, `1` and `2`,
which lie in three distinct buckets when line `3` is processed. The first touch puts
line `3` into the bucket of line `0`; the bridge branch then runs for line `1` and runs
again for line `2`, the third touching predecessor, whose bucket it appends as well.
All four lines end with blob index `0`. -/
theorem Process_unmerged_groups_counterexample :
    SortedLines [⟨0, 0, 1⟩, ⟨2, 0, 1⟩, ⟨4, 0, 1⟩, ⟨0, 1, 5⟩] ∧
    Touching [⟨0, 0, 1⟩, ⟨2, 0, 1⟩, ⟨4, 0, 1⟩, ⟨0, 1, 5⟩] 3 0 ∧
    Touching [⟨0, 0, 1⟩, ⟨2, 0, 1⟩, ⟨4, 0, 1⟩, ⟨0, 1, 5⟩] 3 1 ∧
    Touching [⟨0, 0, 1⟩, ⟨2, 0, 1⟩, ⟨4, 0, 1⟩, ⟨0, 1, 5⟩] 3 2 ∧
    (outerLoop [⟨0, 0, 1⟩, ⟨2, 0, 1⟩, ⟨4, 0, 1⟩, ⟨0, 1, 5⟩] 3).map
      ProcState.blobIndexMapping = some [[0], [1], [2]] ∧
    stateBefore [⟨0, 0, 1⟩, ⟨2, 0, 1⟩, ⟨4, 0, 1⟩, ⟨0, 1, 5⟩] 3 1 =
      some ⟨true, 0, [[0, 3], [1], [2]]⟩ ∧
    stateBefore [⟨0, 0, 1⟩, ⟨2, 0, 1⟩, ⟨4, 0, 1⟩, ⟨0, 1, 5⟩] 3 2 =
      some ⟨true, 0, [[0, 3, 1], [2]]⟩ ∧
    codeTouch [⟨0, 0, 1⟩, ⟨2, 0, 1⟩, ⟨4, 0, 1⟩, ⟨0, 1, 5⟩] 3 2 ∧
    getBlobIDbyIndex 2 [[0, 3, 1], [2]] = 1 ∧
    stateBefore [⟨0, 0, 1⟩, ⟨2, 0, 1⟩, ⟨4, 0, 1⟩, ⟨0, 1, 5⟩] 3 3 =
      some ⟨true, 0, [[0, 3, 1, 2]]⟩ ∧
    ∀ prev, Process [⟨0, 0, 1⟩, ⟨2, 0, 1⟩, ⟨4, 0, 1⟩, ⟨0, 1, 5⟩] prev = some [0, 0, 0, 0] := by
  have hr : ∀ l ∈ [(⟨0, 0, 1⟩ : Line), ⟨2, 0, 1⟩, ⟨4, 0, 1⟩, ⟨0, 1, 5⟩], l.InRange := by
    decide
  exact ⟨by decide,
    (codeTouch_iff_touching hr (by decide) (by decide)).1 (by decide),
    (codeTouch_iff_touching hr (by decide) (by decide)).1 (by decide),
    (codeTouch_iff_touching hr (by decide) (by decide)).1 (by decide),
    by decide, by decide, by decide, by decide, by decide, by decide, fun _ => rfl⟩

/-- C9 (amended): there is a sorted input in which a line touches three earlier lines
that lie in pairwise distinct buckets when the line is processed, and two of the
touched lines end with different blob indices; but the cause is the wrap in
`IsTouching`, not the bridge branch: in
`(0,0,1), (2,0,1), (4294967294,0,2), (0,1,4294967295)` the sum `x + length` of line `2`
is `0` modulo `2 ^ 32`, the touch test fails for the lines `3` and `2`, and the result
is `[0, 0, 1, 0]`. The bridge branch runs for every touching predecessor: on every
input, each earlier line that passes the touch test of `Process` with line `i` ends
with the blob index of line `i`; and on every input with lengths at least `1`, rows
below `2 ^ 31` and `x + length` below `2 ^ 32`, each earlier line that touches line `i`
ends with the blob index of line `i`, however many buckets line `i` touches. -/
theorem Process_merges_all_touched_groups (prev : List Nat) :
    (∃ (lines : List Line) (out : List Nat) (m : List (List Nat)) (i j1 j2 j3 : Nat),
      lines = [⟨0, 0, 1⟩, ⟨2, 0, 1⟩, ⟨4294967294, 0, 2⟩, ⟨0, 1, 4294967295⟩] ∧
      out = [0, 0, 1, 0] ∧
      SortedLines lines ∧ Process lines prev = some out ∧ j1 < i ∧ j2 < i ∧ j3 < i ∧
      Touching lines i j1 ∧ Touching lines i j2 ∧ Touching lines i j3 ∧
      (outerLoop lines i).map ProcState.blobIndexMapping = some m ∧
      getBlobIDbyIndex j1 m ≠ getBlobIDbyIndex j2 m ∧
      getBlobIDbyIndex j1 m ≠ getBlobIDbyIndex j3 m ∧
      getBlobIDbyIndex j2 m ≠ getBlobIDbyIndex j3 m ∧
      out[j1]? ≠ out[j3]? ∧
      wrapU32 ((lines.getD j3 default).m_X + (lines.getD j3 default).m_Length) = 0 ∧
      ¬ codeTouch lines i j3) ∧
    (∀ lines : List Line, ∃ out, Process lines prev = some out ∧
      ∀ i j, i < lines.length → j < i → codeTouch lines i j → out[j]? = out[i]?) ∧
    (∀ lines : List Line, (∀ l ∈ lines, l.InRange) →
      ∃ out, Process lines prev = some out ∧
        ∀ i j, i < lines.length → j < i → Touching lines i j → out[j]? = out[i]?) := by
  have hall : ∀ lines : List Line, ∃ out, Process lines prev = some out ∧
      ∀ i j, i < lines.length → j < i → codeTouch lines i j → out[j]? = out[i]? := by
    intro lines
    obtain ⟨out, h1, _, h3, _, _⟩ := Process_char lines prev
    refine ⟨out, h1, ?_⟩
    intro i j hi hj ht
    exact (h3 j i (by omega) hi).2 (Conn.of_linked ⟨by omega, hi, Or.inr ht⟩)
  refine ⟨⟨_, _, [[0], [1], [2]], 3, 0, 1, 2, rfl, rfl, by decide, rfl, by decide, by decide,
    by decide, ?_, ?_, ?_, by decide, by decide, by decide, by decide, by decide, by decide,
    by decide⟩, hall, ?_⟩
  · exact ⟨by decide, by decide, by decide, 0, by decide, by decide, by decide, by decide⟩
  · exact ⟨by decide, by decide, by decide, 2, by decide, by decide, by decide, by decide⟩
  · exact ⟨by decide, by decide, by decide, 4294967294, by decide, by decide, by decide,
      by decide⟩
  · intro lines hr
    obtain ⟨out, h1, h2⟩ := hall lines
    refine ⟨out, h1, ?_⟩
    intro i j hi hj ht
    exact h2 i j hi hj ((codeTouch_iff_touching hr hi (by omega)).2 ht)

/-- C9 (amended) on the input `(0,0,1), (2,0,1), (4,0,1), (0,1,5)`, which meets the
bounds: the three lines that line `3` touches end with its blob index. -/
theorem Process_merges_all_touched_groups_witness :
    (∀ l ∈ [(⟨0, 0, 1⟩ : Line), ⟨2, 0, 1⟩, ⟨4, 0, 1⟩, ⟨0, 1, 5⟩], l.InRange) ∧
    ∃ out, Process [⟨0, 0, 1⟩, ⟨2, 0, 1⟩, ⟨4, 0, 1⟩, ⟨0, 1, 5⟩] [] = some out ∧
      ∀ i j, i < [(⟨0, 0, 1⟩ : Line), ⟨2, 0, 1⟩, ⟨4, 0, 1⟩, ⟨0, 1, 5⟩].length → j < i →
        Touching [⟨0, 0, 1⟩, ⟨2, 0, 1⟩, ⟨4, 0, 1⟩, ⟨0, 1, 5⟩] i j → out[j]? = out[i]? :=
  ⟨by decide, (Process_merges_all_touched_groups []).2.2
    [⟨0, 0, 1⟩, ⟨2, 0, 1⟩, ⟨4, 0, 1⟩, ⟨0, 1, 5⟩] (by decide)⟩

/-! ## The fixture decoder -/

theorem illegal_iff (c : Char) : (c ≠ '.' ∧ (c < 'A' ∨ c > 'Z')) ↔ (c ≠ '.' ∧ ¬ isLetter c) := by
  unfold isLetter
  constructor
  · rintro ⟨h1, h2⟩
    refine ⟨h1, fun h => ?_⟩
    rcases h2 with h2 | h2
    · exact absurd h.1 (not_le.2 h2)
    · exact absurd h.2 (not_le.2 h2)
  · rintro ⟨h1, h2⟩
    refine ⟨h1, ?_⟩
    by_cases h : 'A' ≤ c
    · right
      exact not_le.1 (fun h3 => h2 ⟨h, h3⟩)
    · left
      exact not_le.1 h

theorem dot_not_letter : ¬ isLetter '.' := by decide

theorem adjBad_iff_index (l : List Char) :
    AdjBad l ↔ ∃ (k : Nat) (a b : Char), l[k]? = some a ∧ l[k + 1]? = some b ∧
      isLetter a ∧ isLetter b ∧ a ≠ b := by
  induction l with
  | nil => simp [AdjBad]
  | cons a l ih =>
    cases l with
    | nil =>
      simp only [AdjBad, false_iff]
      rintro ⟨k, x, y, _, h2, _⟩
      simp at h2
    | cons b rest =>
      simp only [AdjBad]
      rw [ih]
      constructor
      · rintro (⟨h1, h2, h3⟩ | ⟨k, x, y, h1, h2, h3⟩)
        · exact ⟨0, a, b, by simp, by simp, h1, h2, h3⟩
        · exact ⟨k + 1, x, y, by simpa using h1, by simpa using h2, h3⟩
      · rintro ⟨k, x, y, h1, h2, h3⟩
        cases k with
        | zero =>
          simp at h1 h2
          subst h1 h2
          exact Or.inl h3
        | succ k =>
          exact Or.inr ⟨k, x, y, by simpa using h1, by simpa using h2, h3⟩

theorem incrementBack_some (ls : List Line) (h : ls ≠ []) :
    ∃ ls2, incrementBack ls = some ls2 ∧ ls2 ≠ [] := by
  induction ls with
  | nil => exact absurd rfl h
  | cons l ls ih =>
    cases ls with
    | nil => exact ⟨_, rfl, by simp⟩
    | cons l2 rest =>
      obtain ⟨t, h1, _⟩ := ih (by simp)
      exact ⟨l :: t, by simp [incrementBack, h1], by simp⟩

/-- The scan of one row succeeds and fails (returns `false`) exactly on a bad row. -/
theorem scanRow_ok (Y : Nat) (row : List Char) (X : Nat) (prev : Char)
    (ls : List Line) (bs : List Nat) (hne : prev ≠ '.' → ls ≠ [])
    (hprev : prev = '.' ∨ isLetter prev) :
    ∃ r, scanRow Y row X prev ls bs = some r ∧ (r.ok = false ↔ RowBad prev row) := by
  induction row generalizing X prev ls bs with
  | nil => exact ⟨_, rfl, by simp [RowBad, AdjBad]⟩
  | cons Pixel rest ih =>
    have hshift : ¬ (isLetter prev ∧ isLetter Pixel ∧ prev ≠ Pixel) →
        ¬ (Pixel ≠ '.' ∧ ¬ isLetter Pixel) →
        (RowBad Pixel rest ↔ RowBad prev (Pixel :: rest)) := by
      intro hadj hill
      unfold RowBad
      simp only [List.mem_cons, AdjBad]
      constructor
      · rintro (⟨c, hc, h⟩ | h)
        · exact Or.inl ⟨c, Or.inr hc, h⟩
        · exact Or.inr (Or.inr h)
      · rintro (⟨c, hc | hc, h⟩ | h | h)
        · subst hc
          exact absurd h hill
        · exact Or.inl ⟨c, hc, h⟩
        · exact absurd h hadj
        · exact Or.inr h
    unfold scanRow
    by_cases hill : Pixel ≠ '.' ∧ (Pixel < 'A' ∨ Pixel > 'Z')
    · rw [if_pos hill]
      refine ⟨_, rfl, ?_⟩
      simp only [true_iff]
      exact Or.inl ⟨Pixel, by simp, (illegal_iff Pixel).1 hill⟩
    · rw [if_neg hill]
      have hill2 : ¬ (Pixel ≠ '.' ∧ ¬ isLetter Pixel) := fun h => hill ((illegal_iff Pixel).2 h)
      by_cases hdot : Pixel ≠ '.'
      · rw [if_pos hdot]
        have hlet : isLetter Pixel := by
          by_contra h
          exact hill2 ⟨hdot, h⟩
        by_cases hp : prev = '.'
        · rw [if_pos hp]
          obtain ⟨r, h1, h2⟩ := ih (X + 1) Pixel (ls ++ [⟨X, Y, 1⟩])
            (bs ++ [Pixel.toNat - 'A'.toNat]) (fun _ => by simp) (Or.inr hlet)
          refine ⟨r, h1, h2.trans (hshift ?_ hill2)⟩
          rintro ⟨h, _⟩
          rw [hp] at h
          exact dot_not_letter h
        · rw [if_neg hp]
          by_cases heq : Pixel = prev
          · rw [if_pos heq]
            obtain ⟨ls2, hinc, hls2⟩ := incrementBack_some ls (hne hp)
            rw [hinc]
            obtain ⟨r, h1, h2⟩ := ih (X + 1) Pixel ls2 bs (fun _ => hls2) (Or.inr hlet)
            refine ⟨r, h1, h2.trans (hshift ?_ hill2)⟩
            rintro ⟨_, _, h⟩
            exact h heq.symm
          · rw [if_neg heq]
            refine ⟨_, rfl, ?_⟩
            simp only [true_iff]
            refine Or.inr ?_
            simp only [AdjBad]
            exact Or.inl ⟨hprev.resolve_left hp, hlet, fun h => heq h.symm⟩
      · rw [if_neg hdot]
        have hd : Pixel = '.' := not_not.1 hdot
        obtain ⟨r, h1, h2⟩ := ih (X + 1) Pixel ls bs (fun h => absurd hd h) (Or.inl hd)
        refine ⟨r, h1, h2.trans (hshift ?_ hill2)⟩
        rintro ⟨_, h, _⟩
        rw [hd] at h
        exact dot_not_letter h

theorem rowBad_dot_iff (row : List Char) :
    RowBad '.' row ↔ (∃ c ∈ row, c ≠ '.' ∧ ¬ isLetter c) ∨ AdjBad row := by
  unfold RowBad
  cases row with
  | nil => simp [AdjBad]
  | cons a rest =>
    simp only [AdjBad]
    constructor
    · rintro (h | h | h)
      · exact Or.inl h
      · exact absurd h.1 dot_not_letter
      · exact Or.inr h
    · rintro (h | h)
      · exact Or.inl h
      · exact Or.inr (Or.inr h)

/-- The scan of the rows succeeds and fails exactly when some row is bad. -/
theorem scanRows_ok (rows : List String) (Y : Nat) (ls : List Line) (bs : List Nat) :
    ∃ r, scanRows rows Y ls bs = some r ∧
      (r.ok = false ↔ ∃ row ∈ rows, RowBad '.' row.data) := by
  induction rows generalizing Y ls bs with
  | nil => exact ⟨_, rfl, by simp⟩
  | cons row rest ih =>
    obtain ⟨r, h1, h2⟩ := scanRow_ok Y row.data 0 '.' ls bs (fun h => absurd rfl h) (Or.inl rfl)
    unfold scanRows
    rw [h1]
    cases hok : r.ok with
    | true =>
      obtain ⟨r2, g1, g2⟩ := ih (Y + 1) r.o_rLines r.o_rBlobIndices
      refine ⟨r2, by simpa [hok] using g1, ?_⟩
      rw [g2]
      have hgood : ¬ RowBad '.' row.data := by
        intro h
        rw [h2.2 h] at hok
        exact absurd hok (by decide)
      simp only [List.mem_cons]
      constructor
      · rintro ⟨x, hx, h⟩
        exact ⟨x, Or.inr hx, h⟩
      · rintro ⟨x, hx | hx, h⟩
        · subst hx
          exact absurd h hgood
        · exact ⟨x, hx, h⟩
    | false =>
      refine ⟨r, by simp [hok], ?_⟩
      simp only [hok, true_iff]
      exact ⟨row, by simp, h2.1 hok⟩

theorem incrementBack_append (init : List Line) (l : Line) :
    incrementBack (init ++ [l]) = some (init ++ [{ l with m_Length := l.m_Length + 1 }]) := by
  induction init with
  | nil => rfl
  | cons a init ih =>
    cases hi : init ++ [l] with
    | nil => simp at hi
    | cons b rest =>
      rw [hi] at ih
      simp [incrementBack, hi, ih]

/-- The scan of one row keeps the invariant of the output vectors. -/
theorem scanRow_inv (H W Y : Nat) (hY : Y < H) (row : List Char) (X : Nat) (prev : Char)
    (ls : List Line) (bs : List Nat) (hX : X + row.length ≤ W) (hinv : GenInv H W ls bs)
    (hlast : prev ≠ '.' → ∃ init l, ls = init ++ [l] ∧ l.m_X + l.m_Length = X)
    (r : GenResult) (hr : scanRow Y row X prev ls bs = some r) :
    GenInv H W r.o_rLines r.o_rBlobIndices := by
  induction row generalizing X prev ls bs with
  | nil =>
    simp only [scanRow, Option.some.injEq] at hr
    subst hr
    exact hinv
  | cons Pixel rest ih =>
    have hX2 : X + 1 + rest.length ≤ W := by
      simp only [List.length_cons] at hX
      omega
    unfold scanRow at hr
    by_cases hill : Pixel ≠ '.' ∧ (Pixel < 'A' ∨ Pixel > 'Z')
    · rw [if_pos hill] at hr
      simp only [Option.some.injEq] at hr
      subst hr
      exact hinv
    · rw [if_neg hill] at hr
      by_cases hdot : Pixel ≠ '.'
      · rw [if_pos hdot] at hr
        by_cases hp : prev = '.'
        · rw [if_pos hp] at hr
          refine ih (X + 1) Pixel _ _ hX2 ⟨?_, ?_⟩ (fun _ => ⟨ls, _, rfl, rfl⟩) hr
          · simp [hinv.len]
          · intro l hl
            rcases List.mem_append.1 hl with hl | hl
            · exact hinv.range l hl
            · simp only [List.mem_singleton] at hl
              subst hl
              exact ⟨Nat.le_refl 1, hY, by simp only; omega⟩
        · rw [if_neg hp] at hr
          by_cases heq : Pixel = prev
          · rw [if_pos heq] at hr
            obtain ⟨init, l, hls, hl⟩ := hlast hp
            rw [hls, incrementBack_append] at hr
            refine ih (X + 1) Pixel _ _ hX2 ⟨?_, ?_⟩ (fun _ => ⟨init, _, rfl, by simp only; omega⟩) hr
            · rw [← hinv.len, hls]
              simp
            · intro l2 hl2
              rcases List.mem_append.1 hl2 with hl2 | hl2
              · exact hinv.range l2 (by rw [hls]; exact List.mem_append_left _ hl2)
              · simp only [List.mem_singleton] at hl2
                subst hl2
                have := hinv.range l (by rw [hls]; simp)
                exact ⟨by simp only; omega, this.2.1, by simp only; omega⟩
          · rw [if_neg heq] at hr
            simp only [Option.some.injEq] at hr
            subst hr
            exact hinv
      · rw [if_neg hdot] at hr
        have hd : Pixel = '.' := not_not.1 hdot
        exact ih (X + 1) Pixel ls bs hX2 hinv (fun h => absurd hd h) hr

/-- The scan of the rows keeps the invariant of the output vectors. -/
theorem scanRows_inv (H W : Nat) (rows : List String) (Y : Nat) (ls : List Line)
    (bs : List Nat) (hY : Y + rows.length ≤ H) (hW : ∀ row ∈ rows, row.length ≤ W)
    (hinv : GenInv H W ls bs) (r : GenResult) (hr : scanRows rows Y ls bs = some r) :
    GenInv H W r.o_rLines r.o_rBlobIndices := by
  induction rows generalizing Y ls bs with
  | nil =>
    simp only [scanRows, Option.some.injEq] at hr
    subst hr
    exact hinv
  | cons row rest ih =>
    simp only [List.length_cons] at hY
    unfold scanRows at hr
    cases h1 : scanRow Y row.data 0 '.' ls bs with
    | none => rw [h1] at hr; simp at hr
    | some r1 =>
      rw [h1] at hr
      have hrow : 0 + row.data.length ≤ W := by
        have := hW row (by simp)
        rw [Nat.zero_add]
        exact this
      have hinv1 := scanRow_inv H W Y (by omega) row.data 0 '.' ls bs hrow hinv
        (fun h => absurd rfl h) r1 h1
      cases hok : r1.ok with
      | true =>
        simp only [hok, if_true] at hr
        exact ih (Y + 1) _ _ (by omega) (fun x hx => hW x (by simp [hx])) hinv1 hr
      | false =>
        simp only [hok, Bool.false_eq_true, if_false, Option.some.injEq] at hr
        subst hr
        exact hinv1

/-- C10: for every image, `GenerateLinesAndResult` returns, and it returns `false` if
and only if the image holds a character that is neither `.` nor an uppercase letter
`A .. Z`, or some row holds two horizontally adjacent pixels that are both letters
and are different letters; on every other image it returns `true`. -/
theorem GenerateLinesAndResult_false_iff (i_rImage : List String) (o_rLines : List Line)
    (o_rBlobIndices : List Nat) :
    ∃ r, GenerateLinesAndResult i_rImage o_rLines o_rBlobIndices = some r ∧
      (r.ok = false ↔
        (∃ row ∈ i_rImage, ∃ c ∈ row.data, c ≠ '.' ∧ ¬ ('A' ≤ c ∧ c ≤ 'Z')) ∨
        (∃ row ∈ i_rImage, ∃ (X : Nat) (a b : Char),
          row.data[X]? = some a ∧ row.data[X + 1]? = some b ∧
          ('A' ≤ a ∧ a ≤ 'Z') ∧ ('A' ≤ b ∧ b ≤ 'Z') ∧ a ≠ b)) ∧
      (r.ok = true ↔
        ¬ ((∃ row ∈ i_rImage, ∃ c ∈ row.data, c ≠ '.' ∧ ¬ ('A' ≤ c ∧ c ≤ 'Z')) ∨
        (∃ row ∈ i_rImage, ∃ (X : Nat) (a b : Char),
          row.data[X]? = some a ∧ row.data[X + 1]? = some b ∧
          ('A' ≤ a ∧ a ≤ 'Z') ∧ ('A' ≤ b ∧ b ≤ 'Z') ∧ a ≠ b))) := by
  obtain ⟨r, h1, h2⟩ := scanRows_ok i_rImage 0 o_rLines o_rBlobIndices
  have h3 : r.ok = false ↔
      (∃ row ∈ i_rImage, ∃ c ∈ row.data, c ≠ '.' ∧ ¬ ('A' ≤ c ∧ c ≤ 'Z')) ∨
      (∃ row ∈ i_rImage, ∃ (X : Nat) (a b : Char),
        row.data[X]? = some a ∧ row.data[X + 1]? = some b ∧
        ('A' ≤ a ∧ a ≤ 'Z') ∧ ('A' ≤ b ∧ b ≤ 'Z') ∧ a ≠ b) := by
    rw [h2]
    constructor
    · rintro ⟨row, hrow, h⟩
      rcases (rowBad_dot_iff row.data).1 h with h | h
      · exact Or.inl ⟨row, hrow, h⟩
      · exact Or.inr ⟨row, hrow, (adjBad_iff_index row.data).1 h⟩
    · rintro (⟨row, hrow, h⟩ | ⟨row, hrow, h⟩)
      · exact ⟨row, hrow, (rowBad_dot_iff row.data).2 (Or.inl h)⟩
      · exact ⟨row, hrow, (rowBad_dot_iff row.data).2 (Or.inr ((adjBad_iff_index row.data).2 h))⟩
  refine ⟨r, h1, h3, ?_⟩
  rw [← h3]
  cases r.ok <;> simp

/-! ## Decoding and then labelling -/

theorem GenerateLinesAndResult_inv (image : List String) (r : GenResult)
    (hgen : GenerateLinesAndResult image [] [] = some r)
    (hh : image.length ≤ 2147483648) (hw : ∀ row ∈ image, row.length < 4294967296) :
    r.o_rBlobIndices.length = r.o_rLines.length ∧ ∀ l ∈ r.o_rLines, l.InRange := by
  have hinv := scanRows_inv image.length 4294967295 image 0 [] [] (by omega)
    (fun row hrow => by have := hw row hrow; omega) ⟨rfl, by simp⟩ r hgen
  refine ⟨hinv.len.symm, fun l hl => ?_⟩
  have := hinv.range l hl
  exact ⟨this.1, by omega, by omega⟩

/-- A labelling that `Process` returns on lines in range is a canonical labelling:
equal labels mark the chained positions, and the labels first occur in order. -/
theorem canonical_of_Process {lines : List Line} {prev g : List Nat}
    (hP : Process lines prev = some g) (hr : ∀ l ∈ lines, l.InRange) :
    (∀ a b, a < lines.length → b < lines.length → (g[a]? = g[b]? ↔ Chained lines a b)) ∧
    FirstOccurrenceOrdered g := by
  obtain ⟨out, h1, _, h3, h4, _⟩ := Process_char lines prev
  rw [hP] at h1
  have : g = out := by simpa using h1
  subst this
  exact ⟨fun a b ha hb => (h3 a b ha hb).trans (Conn_iff_chained hr a b), h4⟩

/-! ## The decoder with its output vectors back to front -/

theorem incrementBack_eq_head (ls : List Line) :
    incrementBack ls = (incrementHead ls.reverse).map List.reverse := by
  rcases List.eq_nil_or_concat ls with rfl | ⟨init, l, rfl⟩
  · rfl
  · rw [List.concat_eq_append, incrementBack_append]
    simp [incrementHead]

theorem scanRow_eq_rev (Y : Nat) (row : List Char) (X : Nat) (prev : Char)
    (ls : List Line) (bs : List Nat) :
    scanRow Y row X prev ls bs =
      (scanRowRev Y row X prev ls.reverse bs.reverse).map GenResult.turned := by
  induction row generalizing X prev ls bs with
  | nil => simp [scanRow, scanRowRev, GenResult.turned]
  | cons Pixel rest ih =>
    unfold scanRow scanRowRev
    by_cases hill : Pixel ≠ '.' ∧ (Pixel < 'A' ∨ Pixel > 'Z')
    · rw [if_pos hill, if_pos hill]
      simp [GenResult.turned]
    · rw [if_neg hill, if_neg hill]
      by_cases hdot : Pixel ≠ '.'
      · rw [if_pos hdot, if_pos hdot]
        by_cases hp : prev = '.'
        · rw [if_pos hp, if_pos hp, ih]
          simp
        · rw [if_neg hp, if_neg hp]
          by_cases heq : Pixel = prev
          · rw [if_pos heq, if_pos heq, incrementBack_eq_head]
            cases hh : incrementHead ls.reverse with
            | none => simp
            | some t =>
              simp only [Option.map_some']
              rw [ih]
              simp
          · rw [if_neg heq, if_neg heq]
            simp [GenResult.turned]
      · rw [if_neg hdot, if_neg hdot, ih]

theorem scanRows_eq_rev (rows : List String) (Y : Nat) (ls : List Line) (bs : List Nat) :
    scanRows rows Y ls bs =
      (scanRowsRev rows Y ls.reverse bs.reverse).map GenResult.turned := by
  induction rows generalizing Y ls bs with
  | nil => simp [scanRows, scanRowsRev, GenResult.turned]
  | cons row rest ih =>
    unfold scanRows scanRowsRev
    rw [scanRow_eq_rev]
    cases hr : scanRowRev Y row.data 0 '.' ls.reverse bs.reverse with
    | none => simp
    | some r =>
      simp only [Option.map_some']
      cases hok : r.ok with
      | true =>
        have h1 : r.turned.ok = true := hok
        simp only [h1, if_true]
        rw [ih]
        simp [GenResult.turned]
      | false =>
        have h1 : r.turned.ok = false := hok
        simp [h1]

theorem GenerateLinesAndResult_eq_rev (image : List String) :
    GenerateLinesAndResult image [] [] =
      (scanRowsRev image 0 [] []).map GenResult.turned := by
  unfold GenerateLinesAndResult
  rw [scanRows_eq_rev]
  rfl

/-! ## Soundness of the checks on the entries -/

theorem mkEntries_maps (L : List Line) (G P D : List Nat) (h1 : G.length = L.length)
    (h2 : P.length = L.length) (h3 : D.length = L.length) :
    (mkEntries L G P D).map CertEntry.line = L ∧
      (mkEntries L G P D).map CertEntry.gold = G := by
  induction L generalizing G P D with
  | nil =>
    have : G = [] := List.eq_nil_of_length_eq_zero h1
    subst this
    cases P <;> cases D <;> simp [mkEntries]
  | cons l L ih =>
    cases G with
    | nil => simp at h1
    | cons g G =>
      cases P with
      | nil => simp at h2
      | cons p P =>
        cases D with
        | nil => simp at h3
        | cons d D =>
          have := ih G P D (by simpa using h1) (by simpa using h2) (by simpa using h3)
          simp [mkEntries, this.1, this.2]

theorem rowsSortedB_sound (Z : List CertEntry) (h : rowsSortedB Z = true) :
    Z.Pairwise (fun a b => a.line.m_Y ≤ b.line.m_Y) := by
  induction Z with
  | nil => exact List.Pairwise.nil
  | cons a Z ih =>
    cases Z with
    | nil => simp
    | cons b rest =>
      simp only [rowsSortedB, Bool.and_eq_true, decide_eq_true_eq] at h
      have hp := ih h.2
      refine List.Pairwise.cons ?_ hp
      intro m hm
      rcases List.mem_cons.1 hm with rfl | hm
      · exact h.1
      · exact Nat.le_trans h.1 (List.rel_of_pairwise_cons hp hm)

theorem closedFrom_sound (e : CertEntry) (rest : List CertEntry)
    (hs : ∀ m ∈ rest, e.line.m_Y ≤ m.line.m_Y)
    (hp : rest.Pairwise (fun a b => a.line.m_Y ≤ b.line.m_Y))
    (h : closedFrom e rest = true) :
    ∀ m ∈ rest, touchB e.line m.line = true → e.gold = m.gold := by
  induction rest with
  | nil => simp
  | cons m rest ih =>
    intro x hx ht
    by_cases hrow : m.line.m_Y ≤ e.line.m_Y + 1
    · simp only [closedFrom, if_pos hrow, Bool.and_eq_true, Bool.or_eq_true,
        Bool.not_eq_true', beq_iff_eq] at h
      rcases List.mem_cons.1 hx with rfl | hx
      · rcases h.1 with h1 | h1
        · rw [h1] at ht
          exact absurd ht (by decide)
        · exact h1
      · exact ih (fun y hy => hs y (List.mem_cons_of_mem _ hy)) (List.Pairwise.of_cons hp)
          h.2 x hx ht
    · exfalso
      have hx2 : m.line.m_Y ≤ x.line.m_Y := by
        rcases List.mem_cons.1 hx with rfl | hx
        · exact Nat.le_refl _
        · exact List.rel_of_pairwise_cons hp hx
      simp only [touchB, rowsAdjacentNat, Bool.and_eq_true, Bool.or_eq_true,
        beq_iff_eq] at ht
      omega

theorem closedAll_sound (Z : List CertEntry)
    (hp : Z.Pairwise (fun a b => a.line.m_Y ≤ b.line.m_Y)) (h : closedAll Z = true) :
    Z.Pairwise (fun a b => touchB a.line b.line = true → a.gold = b.gold) := by
  induction Z with
  | nil => exact List.Pairwise.nil
  | cons e rest ih =>
    simp only [closedAll, Bool.and_eq_true] at h
    exact List.Pairwise.cons
      (closedFrom_sound e rest (fun m hm => List.rel_of_pairwise_cons hp hm)
        (List.Pairwise.of_cons hp) h.1)
      (ih (List.Pairwise.of_cons hp) h.2)

theorem getD_prefix_reverse (pre suf : List CertEntry) (p : Nat) (hp : p < pre.length) :
    pre.reverse.getD (pre.length - 1 - p) default = (pre ++ suf).getD p default := by
  have h1 : pre.length - 1 - p < pre.reverse.length := by
    rw [List.length_reverse]
    omega
  rw [List.getD_eq_getElem _ _ h1, List.getD_eq_getElem _ _ (by simp; omega),
    List.getElem_append_left hp, List.getElem_reverse]
  congr 1
  omega

theorem getD_suffix (pre rest : List CertEntry) (e : CertEntry) (p : Nat)
    (hp : pre.length < p) :
    rest.getD (p - pre.length - 1) default = (pre ++ e :: rest).getD p default := by
  rw [List.getD_append_right _ _ _ _ (Nat.le_of_lt hp)]
  obtain ⟨m, hm⟩ : ∃ m, p - pre.length = m + 1 := ⟨p - pre.length - 1, by omega⟩
  rw [hm]
  simp

theorem getD_at_prefix_length (pre rest : List CertEntry) (e : CertEntry) :
    (pre ++ e :: rest).getD pre.length default = e := by
  rw [List.getD_append_right _ _ _ _ (Nat.le_refl _)]
  simp

theorem certGo_sound (Z suf pre : List CertEntry) (k : Nat) (hZ : Z = pre ++ suf)
    (hlt : ∀ j < pre.length, (Z.getD j default).gold < k)
    (hall : ∀ w < k, ∃ j < pre.length, (Z.getD j default).gold = w)
    (h : certGo pre.length k pre.reverse suf = true) :
    ∀ j, pre.length ≤ j → j < Z.length → CertFacts Z j := by
  induction suf generalizing pre k with
  | nil =>
    intro j h1 h2
    rw [hZ] at h2
    simp at h2
    omega
  | cons e rest ih =>
    have he : Z.getD pre.length default = e := by
      rw [hZ]
      exact getD_at_prefix_length pre rest e
    have hZ2 : Z = (pre ++ [e]) ++ rest := by rw [hZ]; simp
    have hrev : (pre ++ [e]).reverse = e :: pre.reverse := by simp
    have hlen : (pre ++ [e]).length = pre.length + 1 := by simp
    by_cases hroot : e.parent = pre.length
    · have hb : (e.parent == pre.length) = true := by simpa using hroot
      simp only [certGo, hb, if_true, Bool.and_eq_true, beq_iff_eq] at h
      have hnext := ih (pre ++ [e]) (k + 1) hZ2
        (by
          intro j hj
          rw [hlen] at hj
          by_cases hjl : j < pre.length
          · exact Nat.lt_succ_of_lt (hlt j hjl)
          · have : j = pre.length := by omega
            rw [this, he, h.1]
            exact Nat.lt_succ_self k)
        (by
          intro w hw
          rw [hlen]
          by_cases hwk : w < k
          · obtain ⟨j, hj, hjw⟩ := hall w hwk
            exact ⟨j, by omega, hjw⟩
          · exact ⟨pre.length, by omega, by rw [he, h.1]; omega⟩)
        (by rw [hlen, hrev]; exact h.2)
      intro j h1 h2
      by_cases hj : j = pre.length
      · subst hj
        refine ⟨?_, ?_, ?_⟩
        · intro _ j2 hj2
          rw [he, h.1]
          exact Nat.ne_of_lt (hlt j2 hj2)
        · intro hne
          rw [he] at hne
          exact absurd hroot hne
        · intro w hw
          rw [he, h.1] at hw
          exact hall w hw
      · exact hnext j (by rw [hlen]; omega) h2
    · have hb : (e.parent == pre.length) = false := by simpa using hroot
      simp only [certGo, hb, Bool.false_eq_true, if_false, Bool.and_eq_true,
        decide_eq_true_eq] at h
      obtain ⟨⟨hgk, hpar⟩, hgo⟩ := h
      have hq : (if e.parent < pre.length then
          pre.reverse.getD (pre.length - 1 - e.parent) default
          else rest.getD (e.parent - pre.length - 1) default) = Z.getD e.parent default := by
        by_cases hlt2 : e.parent < pre.length
        · rw [if_pos hlt2, hZ]
          exact getD_prefix_reverse pre (e :: rest) e.parent hlt2
        · rw [if_neg hlt2, hZ]
          exact getD_suffix pre rest e e.parent (by omega)
      rw [hq] at hpar
      have hnext := ih (pre ++ [e]) k hZ2
        (by
          intro j hj
          rw [hlen] at hj
          by_cases hjl : j < pre.length
          · exact hlt j hjl
          · have : j = pre.length := by omega
            rw [this, he]
            exact hgk)
        (by
          intro w hw
          rw [hlen]
          obtain ⟨j, hj, hjw⟩ := hall w hw
          exact ⟨j, by omega, hjw⟩)
        (by rw [hlen, hrev]; exact hgo)
      intro j h1 h2
      by_cases hj : j = pre.length
      · subst hj
        refine ⟨?_, ?_, ?_⟩
        · intro hp
          rw [he] at hp
          exact absurd hp hroot
        · intro _
          rw [he]
          exact hpar
        · intro w hw
          rw [he] at hw
          exact hall w (by omega)
      · exact hnext j (by rw [hlen]; omega) h2

/-! ## From the checks to the result of `Process` -/

/-- The labelling `Process` returns is any labelling that identifies exactly the
connected positions and introduces its labels in the order `0, 1, 2, ...`. -/
theorem Process_eq_of_labels (lines : List Line) (prev G : List Nat)
    (hlen : G.length = lines.length)
    (hsame : ∀ a b, a < lines.length → b < lines.length →
      (G[a]? = G[b]? ↔ Conn lines a b))
    (hord : FirstOccurrenceOrdered G) : Process lines prev = some G := by
  obtain ⟨out, h1, h2, h3, h4, _⟩ := Process_char lines prev
  have heq : out = G := by
    apply labels_unique (by rw [h2, hlen])
    · intro a b ha hb
      rw [h2] at ha hb
      rw [h3 a b ha hb, hsame a b ha hb]
    · exact h4
    · exact hord
  rw [h1, heq]

theorem touchB_comm (a b : Line) : touchB a b = touchB b a := by
  unfold touchB rowsAdjacentNat
  rw [IsTouching_comm a b, Bool.or_comm]

theorem touchB_default (l : Line) : touchB l default = false := by
  have h : IsTouching l default = false := by
    unfold IsTouching wrapU32
    show (decide (l.m_X < (0 + 0) % 4294967296) && _) = false
    simp
  simp [touchB, h]

theorem touchB_iff_rows (a b : Line) (ha : a.m_Y < 2147483648) (hb : b.m_Y < 2147483648) :
    touchB a b = true ↔ (rowsAdjacent a b = true ∧ IsTouching a b = true) := by
  unfold touchB
  rw [Bool.and_eq_true, rowsAdjacent_iff a b ha hb]
  unfold rowsAdjacentNat rowsDifferByOne
  simp

theorem entriesOK_sound (Z : List CertEntry) (prev : List Nat) (h : entriesOK Z = true) :
    Process (Z.map CertEntry.line) prev = some (Z.map CertEntry.gold) := by
  simp only [entriesOK, Bool.and_eq_true, List.all_eq_true, decide_eq_true_eq] at h
  obtain ⟨⟨⟨hrange, hsorted⟩, hclosed⟩, hcert⟩ := h
  have hpair := closedAll_sound Z (rowsSortedB_sound Z hsorted) hclosed
  have hfacts : ∀ j, j < Z.length → CertFacts Z j := fun j hj =>
    certGo_sound Z Z [] 0 rfl (by simp) (by simp) hcert j (Nat.zero_le _) hj
  have hlenL : (Z.map CertEntry.line).length = Z.length := List.length_map _ _
  have lineAt : ∀ j, (Z.map CertEntry.line).getD j default = (Z.getD j default).line :=
    fun j => List.getD_map Z default CertEntry.line
  have goldAt : ∀ j, j < Z.length →
      (Z.map CertEntry.gold)[j]? = some (Z.getD j default).gold := by
    intro j hj
    rw [List.getElem?_map, List.getElem?_eq_getElem hj, List.getD_eq_getElem _ _ hj]
    rfl
  have rowAt : ∀ j, j < Z.length → (Z.getD j default).line.m_Y < 2147483648 := by
    intro j hj
    rw [List.getD_eq_getElem _ _ hj]
    exact (hrange _ (List.getElem_mem hj)).2.1
  have touchAt : ∀ a b, a < Z.length → b < Z.length →
      (codeTouch (Z.map CertEntry.line) a b ↔
        touchB (Z.getD a default).line (Z.getD b default).line = true) := by
    intro a b ha hb
    unfold codeTouch
    rw [lineAt a, lineAt b, touchB_iff_rows _ _ (rowAt a ha) (rowAt b hb)]
  have goldLt : ∀ a b, a < b → b < Z.length →
      touchB (Z.getD a default).line (Z.getD b default).line = true →
      (Z.getD a default).gold = (Z.getD b default).gold := by
    intro a b hab hb ht
    have ha : a < Z.length := by omega
    rw [List.getD_eq_getElem _ _ ha, List.getD_eq_getElem _ _ hb] at ht ⊢
    exact List.pairwise_iff_getElem.1 hpair a b ha hb hab ht
  have goldLink : ∀ c d, linked (Z.map CertEntry.line) c d →
      (Z.getD c default).gold = (Z.getD d default).gold := by
    rintro c d ⟨hc, hd, ht⟩
    rw [hlenL] at hc hd
    have ht1 : touchB (Z.getD c default).line (Z.getD d default).line = true := by
      rcases ht with ht | ht
      · exact (touchAt c d hc hd).1 ht
      · rw [touchB_comm]
        exact (touchAt d c hd hc).1 ht
    rcases Nat.lt_trichotomy c d with hlt | heq | hgt
    · exact goldLt c d hlt hd ht1
    · rw [heq]
    · rw [touchB_comm] at ht1
      exact (goldLt d c hgt hc ht1).symm
  have goldConn : ∀ c d, Conn (Z.map CertEntry.line) c d →
      (Z.getD c default).gold = (Z.getD d default).gold := by
    intro c d hcd
    induction hcd with
    | refl => rfl
    | tail _ hl ih => exact ih.trans (goldLink _ _ hl)
  have hroot : ∀ dep j, j < Z.length → (Z.getD j default).depth = dep →
      ∃ r, r < Z.length ∧ Conn (Z.map CertEntry.line) j r ∧
        (Z.getD r default).gold = (Z.getD j default).gold ∧
        (Z.getD r default).parent = r := by
    intro dep
    induction dep using Nat.strong_induction_on with
    | _ dep ih =>
      intro j hj hdep
      by_cases hp : (Z.getD j default).parent = j
      · exact ⟨j, hj, Relation.ReflTransGen.refl, rfl, hp⟩
      · have hok := (hfacts j hj).2.1 hp
        simp only [parentOK, Bool.and_eq_true, beq_iff_eq, decide_eq_true_eq] at hok
        obtain ⟨⟨ht, hg⟩, hd⟩ := hok
        have hpn : (Z.getD j default).parent < Z.length := by
          by_contra hge
          rw [List.getD_eq_default _ _ (Nat.le_of_not_lt hge)] at ht
          have h0 : touchB (Z.getD j default).line (default : CertEntry).line = false :=
            touchB_default _
          rw [h0] at ht
          exact absurd ht (by decide)
        obtain ⟨r, hr, hconn, hgr, hpr⟩ := ih _ (by rw [← hdep]; exact hd) _ hpn rfl
        refine ⟨r, hr, ?_, by rw [hgr, hg], hpr⟩
        have hl : linked (Z.map CertEntry.line) j (Z.getD j default).parent :=
          ⟨by rw [hlenL]; exact hj, by rw [hlenL]; exact hpn,
            Or.inl ((touchAt j _ hj hpn).2 ht)⟩
        exact (Conn.of_linked hl).trans hconn
  apply Process_eq_of_labels
  · simp
  · intro a b ha hb
    rw [hlenL] at ha hb
    rw [goldAt a ha, goldAt b hb]
    constructor
    · intro hg
      have hg2 : (Z.getD a default).gold = (Z.getD b default).gold := by simpa using hg
      obtain ⟨ra, hra, hca, hga, hpa⟩ := hroot _ a ha rfl
      obtain ⟨rb, hrb, hcb, hgb, hpb⟩ := hroot _ b hb rfl
      have hrr : ra = rb := by
        rcases Nat.lt_trichotomy ra rb with hlt | heq | hgt
        · exact absurd (by rw [hga, hgb, hg2]) ((hfacts rb hrb).1 hpb ra hlt)
        · exact heq
        · exact absurd (by rw [hga, hgb, hg2]) ((hfacts ra hra).1 hpa rb hgt)
      subst hrr
      exact hca.trans hcb.symm
    · intro hc
      rw [goldConn a b hc]
  · intro i v hiv k hk
    have hi : i < Z.length := by
      have := (List.getElem?_eq_some_iff.1 hiv).1
      simpa using this
    rw [goldAt i hi] at hiv
    have hv : (Z.getD i default).gold = v := by simpa using hiv
    obtain ⟨j2, hj2, hg⟩ := (hfacts i hi).2.2 k (by rw [hv]; exact hk)
    exact ⟨j2, hj2, by rw [goldAt j2 (by omega), hg]⟩

theorem fixtureOK_sound (image : List String) (parents depths : List Nat)
    (h : fixtureOK image parents depths = true) :
    ∃ r, GenerateLinesAndResult image [] [] = some r ∧ r.ok = true ∧
      ∀ prev, Process r.o_rLines prev = some r.o_rBlobIndices := by
  unfold fixtureOK at h
  cases hr : scanRowsRev image 0 [] [] with
  | none => rw [hr] at h; simp at h
  | some r0 =>
    rw [hr] at h
    simp only [Bool.and_eq_true, beq_iff_eq] at h
    obtain ⟨⟨⟨⟨hok, h1⟩, h2⟩, h3⟩, h4⟩ := h
    refine ⟨r0.turned, ?_, hok, ?_⟩
    · rw [GenerateLinesAndResult_eq_rev, hr]
      rfl
    · intro prev
      have hm := mkEntries_maps r0.o_rLines.reverse r0.o_rBlobIndices.reverse parents depths
        (by simpa using h1) (by simpa using h2) (by simpa using h3)
      have := entriesOK_sound _ prev h4
      rw [hm.1, hm.2] at this
      exact this

/-- The checks pass on `g_ImageSimple`. -/
theorem simple_fixtureOK : fixtureOK g_ImageSimple simpleParents simpleDepths = true := by
  decide!

/-- The checks pass on `g_ImageComplex`. -/
theorem complex_fixtureOK :
    fixtureOK g_ImageComplex complexParents complexDepths = true := by
  decide!

/-- The run of `main` on the two fixtures: both are decoded, both labellings equal
the reference indices, and `main` returns `0`. -/
theorem main_eq_zero : main = some 0 := by
  obtain ⟨rs, hgs, hoks, hps⟩ := fixtureOK_sound _ _ _ simple_fixtureOK
  obtain ⟨rc, hgc, hokc, hpc⟩ := fixtureOK_sound _ _ _ complex_fixtureOK
  unfold main
  rw [hgs]
  simp only [hoks, Bool.not_true, Bool.false_eq_true, if_false]
  rw [hgc]
  simp only [hokc, Bool.not_true, Bool.false_eq_true, if_false]
  rw [hps []]
  simp only
  rw [hpc _]
  simp

/-- Both fixtures are decoded, and on both `Process` returns the reference indices. -/
theorem fixtures_reproduced :
    ∃ simple complex, GenerateLinesAndResult g_ImageSimple [] [] = some simple ∧
      GenerateLinesAndResult g_ImageComplex [] [] = some complex ∧
      simple.ok = true ∧ complex.ok = true ∧
      Process simple.o_rLines [] = some simple.o_rBlobIndices ∧
      Process complex.o_rLines simple.o_rBlobIndices = some complex.o_rBlobIndices := by
  obtain ⟨rs, hgs, hoks, hps⟩ := fixtureOK_sound _ _ _ simple_fixtureOK
  obtain ⟨rc, hgc, hokc, hpc⟩ := fixtureOK_sound _ _ _ complex_fixtureOK
  exact ⟨rs, rc, hgs, hgc, hoks, hokc, hps [], hpc _⟩

/-- C6: for every letter image that `GenerateLinesAndResult` accepts from empty output
vectors (at most `2 ^ 31` rows of fewer than `2 ^ 32` pixels, the range in which no
coordinate wraps) and whose letters are a canonical labelling of its lines (two lines carry the
same letter exactly when a chain of touching lines connects them, and the letters
first occur in the order `A, B, C, ...`), `Process` applied to the generated lines
returns exactly the generated reference indices. For the two fixtures `main` returns
`0`: both are decoded, and both labellings equal the reference indices. -/
theorem Process_reproduces_reference (image : List String) (r : GenResult)
    (prev : List Nat)
    (hgen : GenerateLinesAndResult image [] [] = some r) (_hok : r.ok = true)
    (hh : image.length ≤ 2147483648) (hw : ∀ row ∈ image, row.length < 4294967296)
    (hsame : ∀ a b, a < r.o_rLines.length → b < r.o_rLines.length →
      (r.o_rBlobIndices[a]? = r.o_rBlobIndices[b]? ↔ Chained r.o_rLines a b))
    (hord : FirstOccurrenceOrdered r.o_rBlobIndices) :
    Process r.o_rLines prev = some r.o_rBlobIndices ∧
    main = some 0 ∧
    ∃ simple complex, GenerateLinesAndResult g_ImageSimple [] [] = some simple ∧
      GenerateLinesAndResult g_ImageComplex [] [] = some complex ∧
      simple.ok = true ∧ complex.ok = true ∧
      Process simple.o_rLines [] = some simple.o_rBlobIndices ∧
      Process complex.o_rLines simple.o_rBlobIndices = some complex.o_rBlobIndices := by
  refine ⟨?_, main_eq_zero, fixtures_reproduced⟩
  obtain ⟨hlen, hr⟩ := GenerateLinesAndResult_inv image r hgen hh hw
  refine Process_eq_of_labels r.o_rLines prev r.o_rBlobIndices hlen ?_ hord
  intro a b ha hb
  rw [hsame a b ha hb, Conn_iff_chained hr a b]

/-- C6 at the image `AA.B / .A.B`: two blobs, the first made of two touching lines. -/
theorem Process_reproduces_reference_witness :
    GenerateLinesAndResult ["AA.B", ".A.B"] [] [] =
      some ⟨true, [⟨0, 0, 2⟩, ⟨3, 0, 1⟩, ⟨1, 1, 1⟩, ⟨3, 1, 1⟩], [0, 1, 0, 1]⟩ ∧
    ["AA.B", ".A.B"].length ≤ 2147483648 ∧
    (∀ row ∈ ["AA.B", ".A.B"], row.length < 4294967296) ∧
    (∀ a b, a < 4 → b < 4 →
      ([0, 1, 0, 1][a]? = [0, 1, 0, 1][b]? ↔
        Chained [⟨0, 0, 2⟩, ⟨3, 0, 1⟩, ⟨1, 1, 1⟩, ⟨3, 1, 1⟩] a b)) ∧
    FirstOccurrenceOrdered [0, 1, 0, 1] ∧
    Process [⟨0, 0, 2⟩, ⟨3, 0, 1⟩, ⟨1, 1, 1⟩, ⟨3, 1, 1⟩] [9] = some [0, 1, 0, 1] :=
  have hgen : GenerateLinesAndResult ["AA.B", ".A.B"] [] [] =
      some ⟨true, [⟨0, 0, 2⟩, ⟨3, 0, 1⟩, ⟨1, 1, 1⟩, ⟨3, 1, 1⟩], [0, 1, 0, 1]⟩ := by decide
  have hcan := canonical_of_Process
    (show Process [⟨0, 0, 2⟩, ⟨3, 0, 1⟩, ⟨1, 1, 1⟩, ⟨3, 1, 1⟩] [] = some [0, 1, 0, 1] by decide)
    (by decide)
  ⟨hgen, by decide, by decide, hcan.1, hcan.2,
    (Process_reproduces_reference ["AA.B", ".A.B"]
      ⟨true, [⟨0, 0, 2⟩, ⟨3, 0, 1⟩, ⟨1, 1, 1⟩, ⟨3, 1, 1⟩], [0, 1, 0, 1]⟩ [9]
      hgen rfl (by decide) (by decide) hcan.1 hcan.2).1⟩

/-! ## Points of the run of `Process` -/

theorem stateBefore_inv (lines : List Line) (i j : Nat) (hi : i < lines.length)
    (hj : j ≤ i) : ∃ s, stateBefore lines i j = some s ∧ InnerInv lines i j s := by
  obtain ⟨s0, h0, hinv⟩ := outerLoop_inv lines i (Nat.le_of_lt hi)
  have hstart : InnerInv lines i 0 { s0 with touched := false } :=
    ⟨by simpa using hinv.inv, hinv.closed, by simp⟩
  obtain ⟨s, h1, h2⟩ := innerLoop_upto hi hstart j hj
  refine ⟨s, ?_, h2⟩
  unfold stateBefore
  rw [h0]
  exact h1

theorem stateBefore_succ (lines : List Line) (i j : Nat) :
    stateBefore lines i (j + 1) =
      (stateBefore lines i j).bind (fun s => innerStep lines i s j) := by
  unfold stateBefore
  cases outerLoop lines i with
  | none => rfl
  | some s => exact foldlM_range_succ (innerStep lines i) _ j

/-- The bridge branch: the two buckets found are merged into the earlier one. -/
theorem bridge_step {lines : List Line} {i j : Nat} {s : ProcState}
    (hj : j < i) (h : InnerInv lines i j s) (ht : codeTouch lines i j)
    (htd : s.touched = true)
    (hne : getBlobIDbyIndex j s.blobIndexMapping ≠ s.visitedBlobId) :
    ∃ pre P mid Q post, s.blobIndexMapping = pre ++ P :: (mid ++ Q :: post) ∧
      ((s.visitedBlobId = (pre.length : Int) ∧
          getBlobIDbyIndex j s.blobIndexMapping = ((pre ++ P :: mid).length : Int)) ∨
        (s.visitedBlobId = ((pre ++ P :: mid).length : Int) ∧
          getBlobIDbyIndex j s.blobIndexMapping = (pre.length : Int))) ∧
      innerStep lines i s j =
        some ⟨true, (pre.length : Int), pre ++ (P ++ Q) :: (mid ++ post)⟩ := by
  have hstep : innerStep lines i s j = onTouch i s j := by
    unfold innerStep
    rw [if_pos ht.1, if_pos ht.2]
  have inv := h.inv
  rw [htd] at inv
  simp only [if_true] at inv
  obtain ⟨pre, P, post, hm, _, hv⟩ := h.visited htd
  obtain ⟨pre2, Q, post2, hm2, _, hg⟩ :=
    getBlobIDbyIndex_found j s.blobIndexMapping ((inv.cover j).2 (by omega))
  have heq : pre ++ P :: post = pre2 ++ Q :: post2 := by rw [← hm, ← hm2]
  rw [hstep]
  rcases Nat.lt_trichotomy pre.length pre2.length with hlt | hlen | hgt
  · obtain ⟨mid, h1, h2⟩ := two_holes heq hlt
    have hm3 : s.blobIndexMapping = pre ++ P :: (mid ++ Q :: post2) := by rw [hm, h2]
    have hv2 : (s.visitedBlobId = (pre.length : Int) ∧
        getBlobIDbyIndex j s.blobIndexMapping = ((pre ++ P :: mid).length : Int)) :=
      ⟨hv, by rw [hg, h1]⟩
    exact ⟨pre, P, mid, Q, post2, hm3, Or.inl hv2,
      onTouch_bridge i j s pre mid post2 P Q htd hm3 (Or.inl hv2)⟩
  · exact absurd (by rw [hg, hv, hlen]) hne
  · obtain ⟨mid, h1, h2⟩ := two_holes heq.symm hgt
    have hm3 : s.blobIndexMapping = pre2 ++ Q :: (mid ++ P :: post) := by rw [hm2, h2]
    have hv2 : (s.visitedBlobId = ((pre2 ++ Q :: mid).length : Int) ∧
        getBlobIDbyIndex j s.blobIndexMapping = (pre2.length : Int)) :=
      ⟨by rw [hv, h1], hg⟩
    exact ⟨pre2, Q, mid, P, post, hm3, Or.inr hv2,
      onTouch_bridge i j s pre2 mid post Q P htd hm3 (Or.inr hv2)⟩

theorem heads_increasing {lines : List Line} {k : Nat} {m : List (List Nat)}
    (inv : BucketInv lines k m) :
    m.Pairwise (fun B C => ∀ h ∈ B.head?, ∀ h2 ∈ C.head?, h < h2) :=
  inv.headLt.imp (fun hBC h hh h2 hh2 => hBC h hh h2 (mem_of_mem_head hh2))

/-! ## Claims about the run of `Process` -/

/-- C14: `IsTouching` is symmetric for every two lines, also where `x + length` wraps
modulo `2 ^ 32`. -/
theorem IsTouching_symmetric (a b : Line) : IsTouching a b = IsTouching b a :=
  IsTouching_comm a b

/-- C15: for every line list, at the point where the inner loop of `Process` examines
line `j < i`, the lookup `getBlobIDbyIndex(j, blobIndexMapping)` returns a bucket
position `b` with `0 ≤ b < number of buckets`, never `-1`, and `visitedBlobId`, once
set, is such a position too; the whole run makes no access out of bounds (`Process`
returns). -/
theorem Process_lookups_in_bounds (lines : List Line) (prev : List Nat) (i j : Nat)
    (hi : i < lines.length) (hj : j < i) :
    (∃ s, stateBefore lines i j = some s ∧
      (∃ b : Nat, getBlobIDbyIndex j s.blobIndexMapping = (b : Int) ∧
        b < s.blobIndexMapping.length) ∧
      getBlobIDbyIndex j s.blobIndexMapping ≠ -1 ∧
      (s.touched = true → ∃ v : Nat, s.visitedBlobId = (v : Int) ∧
        v < s.blobIndexMapping.length) ∧
      ∃ s2, innerStep lines i s j = some s2) ∧
    ∃ out, Process lines prev = some out := by
  obtain ⟨s, h1, h2⟩ := stateBefore_inv lines i j hi (Nat.le_of_lt hj)
  obtain ⟨out, hout, _⟩ := Process_char lines prev
  refine ⟨⟨s, h1, ?_, ?_, ?_, ?_⟩, out, hout⟩
  · have hcover : ∃ B ∈ s.blobIndexMapping, j ∈ B := by
      have inv := h2.inv
      cases htd : s.touched with
      | true =>
        rw [htd] at inv
        exact (inv.cover j).2 (by simp; omega)
      | false =>
        rw [htd] at inv
        exact (inv.cover j).2 (by simpa using hj)
    obtain ⟨pre, P, post, hm, _, hg⟩ := getBlobIDbyIndex_found j s.blobIndexMapping hcover
    exact ⟨pre.length, hg, by rw [hm]; simp⟩
  · have hcover : ∃ B ∈ s.blobIndexMapping, j ∈ B := by
      have inv := h2.inv
      cases htd : s.touched with
      | true =>
        rw [htd] at inv
        exact (inv.cover j).2 (by simp; omega)
      | false =>
        rw [htd] at inv
        exact (inv.cover j).2 (by simpa using hj)
    obtain ⟨pre, P, post, _, _, hg⟩ := getBlobIDbyIndex_found j s.blobIndexMapping hcover
    rw [hg]
    omega
  · intro htd
    obtain ⟨pre, P, post, hm, _, hv⟩ := h2.visited htd
    exact ⟨pre.length, hv, by rw [hm]; simp⟩
  · obtain ⟨s2, h3, _⟩ := innerStep_inv hi hj h2
    exact ⟨s2, h3⟩

/-- C15 at Scenario C, where line `2` bridges the buckets of lines `0` and `1`. -/
theorem Process_lookups_in_bounds_witness :
    2 < [(⟨0, 0, 2⟩ : Line), ⟨5, 0, 2⟩, ⟨0, 1, 8⟩].length ∧ 1 < 2 ∧
    ((∃ s, stateBefore [⟨0, 0, 2⟩, ⟨5, 0, 2⟩, ⟨0, 1, 8⟩] 2 1 = some s ∧
      (∃ b : Nat, getBlobIDbyIndex 1 s.blobIndexMapping = (b : Int) ∧
        b < s.blobIndexMapping.length) ∧
      getBlobIDbyIndex 1 s.blobIndexMapping ≠ -1 ∧
      (s.touched = true → ∃ v : Nat, s.visitedBlobId = (v : Int) ∧
        v < s.blobIndexMapping.length) ∧
      ∃ s2, innerStep [⟨0, 0, 2⟩, ⟨5, 0, 2⟩, ⟨0, 1, 8⟩] 2 s 1 = some s2) ∧
    ∃ out, Process [⟨0, 0, 2⟩, ⟨5, 0, 2⟩, ⟨0, 1, 8⟩] [] = some out) :=
  ⟨by decide, by decide,
    Process_lookups_in_bounds [⟨0, 0, 2⟩, ⟨5, 0, 2⟩, ⟨0, 1, 8⟩] [] 2 1 (by decide)
      (by decide)⟩

/-- C16: for every line list and every `i`, after the outer-loop iteration of
`Process` for line `i` the buckets are non-empty, pairwise disjoint, free of
duplicates, and their union is exactly `{0, ..., i}`; at the end of the outer loop
they partition `{0, ..., n-1}`. -/
theorem Process_partition_invariant (lines : List Line) (i : Nat)
    (hi : i < lines.length) :
    (∃ s, outerLoop lines (i + 1) = some s ∧
      (∀ B ∈ s.blobIndexMapping, B ≠ []) ∧
      s.blobIndexMapping.Pairwise (fun B C => ∀ x ∈ B, x ∉ C) ∧
      (∀ B ∈ s.blobIndexMapping, B.Nodup) ∧
      (∀ x, (∃ B ∈ s.blobIndexMapping, x ∈ B) ↔ x ≤ i)) ∧
    (∃ s, outerLoop lines lines.length = some s ∧
      (∀ B ∈ s.blobIndexMapping, B ≠ []) ∧
      s.blobIndexMapping.Pairwise (fun B C => ∀ x ∈ B, x ∉ C) ∧
      (∀ B ∈ s.blobIndexMapping, B.Nodup) ∧
      (∀ x, (∃ B ∈ s.blobIndexMapping, x ∈ B) ↔ x < lines.length)) := by
  obtain ⟨s, h1, h2⟩ := outerLoop_inv lines (i + 1) hi
  obtain ⟨t, g1, g2⟩ := outerLoop_inv lines lines.length (Nat.le_refl _)
  refine ⟨⟨s, h1, h2.inv.nonempty, h2.inv.disjoint, h2.inv.nodup, ?_⟩,
    ⟨t, g1, g2.inv.nonempty, g2.inv.disjoint, g2.inv.nodup, g2.inv.cover⟩⟩
  intro x
  rw [h2.inv.cover x]
  omega

/-- C16 at Scenario C after the iteration for line `1`. -/
theorem Process_partition_invariant_witness :
    1 < [(⟨0, 0, 2⟩ : Line), ⟨5, 0, 2⟩, ⟨0, 1, 8⟩].length ∧
    ((∃ s, outerLoop [⟨0, 0, 2⟩, ⟨5, 0, 2⟩, ⟨0, 1, 8⟩] (1 + 1) = some s ∧
      (∀ B ∈ s.blobIndexMapping, B ≠ []) ∧
      s.blobIndexMapping.Pairwise (fun B C => ∀ x ∈ B, x ∉ C) ∧
      (∀ B ∈ s.blobIndexMapping, B.Nodup) ∧
      (∀ x, (∃ B ∈ s.blobIndexMapping, x ∈ B) ↔ x ≤ 1)) ∧
    (∃ s, outerLoop [⟨0, 0, 2⟩, ⟨5, 0, 2⟩, ⟨0, 1, 8⟩]
        [(⟨0, 0, 2⟩ : Line), ⟨5, 0, 2⟩, ⟨0, 1, 8⟩].length = some s ∧
      (∀ B ∈ s.blobIndexMapping, B ≠ []) ∧
      s.blobIndexMapping.Pairwise (fun B C => ∀ x ∈ B, x ∉ C) ∧
      (∀ B ∈ s.blobIndexMapping, B.Nodup) ∧
      (∀ x, (∃ B ∈ s.blobIndexMapping, x ∈ B) ↔
        x < [(⟨0, 0, 2⟩ : Line), ⟨5, 0, 2⟩, ⟨0, 1, 8⟩].length))) :=
  ⟨by decide, Process_partition_invariant [⟨0, 0, 2⟩, ⟨5, 0, 2⟩, ⟨0, 1, 8⟩] 1 (by decide)⟩

/-- C17: at every point of the run of `Process` (before the inner loop examines line
`j` in the iteration for line `i`, and after every outer-loop iteration) the first
element of each bucket is the smallest member of the bucket and the first elements
increase strictly along the bucket list. A bridge merge of the buckets at positions
`p < q` keeps position `p`, appends the members of bucket `q` to bucket `p`, removes
bucket `q` and leaves the other buckets in their order. -/
theorem Process_bucket_order_invariant (lines : List Line) (i j : Nat)
    (hi : i < lines.length) (hj : j ≤ i) :
    (∃ s, stateBefore lines i j = some s ∧
      (∀ B ∈ s.blobIndexMapping, ∀ h ∈ B.head?, ∀ x ∈ B, h ≤ x) ∧
      s.blobIndexMapping.Pairwise (fun B C => ∀ h ∈ B.head?, ∀ h2 ∈ C.head?, h < h2) ∧
      (j < i → codeTouch lines i j → s.touched = true →
        getBlobIDbyIndex j s.blobIndexMapping ≠ s.visitedBlobId →
        ∃ pre P mid Q post, s.blobIndexMapping = pre ++ P :: (mid ++ Q :: post) ∧
          ((s.visitedBlobId = (pre.length : Int) ∧
              getBlobIDbyIndex j s.blobIndexMapping = ((pre ++ P :: mid).length : Int)) ∨
            (s.visitedBlobId = ((pre ++ P :: mid).length : Int) ∧
              getBlobIDbyIndex j s.blobIndexMapping = (pre.length : Int))) ∧
          stateBefore lines i (j + 1) =
            some ⟨true, (pre.length : Int), pre ++ (P ++ Q) :: (mid ++ post)⟩)) ∧
    (∃ s, outerLoop lines (i + 1) = some s ∧
      (∀ B ∈ s.blobIndexMapping, ∀ h ∈ B.head?, ∀ x ∈ B, h ≤ x) ∧
      s.blobIndexMapping.Pairwise (fun B C => ∀ h ∈ B.head?, ∀ h2 ∈ C.head?, h < h2)) := by
  obtain ⟨s, h1, h2⟩ := stateBefore_inv lines i j hi hj
  obtain ⟨t, g1, g2⟩ := outerLoop_inv lines (i + 1) hi
  refine ⟨⟨s, h1, h2.inv.headMin, heads_increasing h2.inv, ?_⟩,
    ⟨t, g1, g2.inv.headMin, heads_increasing g2.inv⟩⟩
  intro hji ht htd hne
  obtain ⟨pre, P, mid, Q, post, hm, hv, hstep⟩ := bridge_step hji h2 ht htd hne
  refine ⟨pre, P, mid, Q, post, hm, hv, ?_⟩
  rw [stateBefore_succ, h1, Option.some_bind]
  exact hstep

/-- C17 at Scenario C, where line `2` has joined the bucket of line `0` and now
meets line `1`. -/
theorem Process_bucket_order_invariant_witness :
    2 < [(⟨0, 0, 2⟩ : Line), ⟨5, 0, 2⟩, ⟨0, 1, 8⟩].length ∧ 1 ≤ 2 ∧
    ((∃ s, stateBefore [⟨0, 0, 2⟩, ⟨5, 0, 2⟩, ⟨0, 1, 8⟩] 2 1 = some s ∧
      (∀ B ∈ s.blobIndexMapping, ∀ h ∈ B.head?, ∀ x ∈ B, h ≤ x) ∧
      s.blobIndexMapping.Pairwise (fun B C => ∀ h ∈ B.head?, ∀ h2 ∈ C.head?, h < h2) ∧
      (1 < 2 → codeTouch [⟨0, 0, 2⟩, ⟨5, 0, 2⟩, ⟨0, 1, 8⟩] 2 1 → s.touched = true →
        getBlobIDbyIndex 1 s.blobIndexMapping ≠ s.visitedBlobId →
        ∃ pre P mid Q post, s.blobIndexMapping = pre ++ P :: (mid ++ Q :: post) ∧
          ((s.visitedBlobId = (pre.length : Int) ∧
              getBlobIDbyIndex 1 s.blobIndexMapping = ((pre ++ P :: mid).length : Int)) ∨
            (s.visitedBlobId = ((pre ++ P :: mid).length : Int) ∧
              getBlobIDbyIndex 1 s.blobIndexMapping = (pre.length : Int))) ∧
          stateBefore [⟨0, 0, 2⟩, ⟨5, 0, 2⟩, ⟨0, 1, 8⟩] 2 (1 + 1) =
            some ⟨true, (pre.length : Int), pre ++ (P ++ Q) :: (mid ++ post)⟩)) ∧
    (∃ s, outerLoop [⟨0, 0, 2⟩, ⟨5, 0, 2⟩, ⟨0, 1, 8⟩] (2 + 1) = some s ∧
      (∀ B ∈ s.blobIndexMapping, ∀ h ∈ B.head?, ∀ x ∈ B, h ≤ x) ∧
      s.blobIndexMapping.Pairwise
        (fun B C => ∀ h ∈ B.head?, ∀ h2 ∈ C.head?, h < h2))) :=
  ⟨by decide, by decide,
    Process_bucket_order_invariant [⟨0, 0, 2⟩, ⟨5, 0, 2⟩, ⟨0, 1, 8⟩] 2 1 (by decide)
      (by decide)⟩

/-- C18: the result of `Process` does not depend on the input being sorted: for every
line list in any order (lengths at least one, `y < 2 ^ 31`, `x + length < 2 ^ 32`)
`Process` succeeds, two positions receive the same blob index if and only if a chain
of touching positions connects them, and the blobs are numbered by their smallest
position. The unsorted list `(0,1,8), (5,0,2), (0,0,2)` gives `[0, 0, 0]`. -/
theorem Process_any_order (lines : List Line) (prev : List Nat)
    (hr : ∀ l ∈ lines, l.InRange) :
    (∃ out, Process lines prev = some out ∧ out.length = lines.length ∧
      (∀ a b, a < lines.length → b < lines.length →
        (out[a]? = out[b]? ↔ Chained lines a b)) ∧
      FirstOccurrenceOrdered out) ∧
    Process [⟨0, 1, 8⟩, ⟨5, 0, 2⟩, ⟨0, 0, 2⟩] prev = some [0, 0, 0] := by
  refine ⟨?_, rfl⟩
  obtain ⟨out, h1, h2, h3, h4, _⟩ := Process_char lines prev
  exact ⟨out, h1, h2, fun a b ha hb => (h3 a b ha hb).trans (Conn_iff_chained hr a b), h4⟩

/-- C18 at an unsorted list with two blobs. -/
theorem Process_any_order_witness :
    (∀ l ∈ [(⟨0, 1, 8⟩ : Line), ⟨9, 0, 1⟩, ⟨0, 0, 2⟩], l.InRange) ∧
    ((∃ out, Process [⟨0, 1, 8⟩, ⟨9, 0, 1⟩, ⟨0, 0, 2⟩] [] = some out ∧
      out.length = [(⟨0, 1, 8⟩ : Line), ⟨9, 0, 1⟩, ⟨0, 0, 2⟩].length ∧
      (∀ a b, a < [(⟨0, 1, 8⟩ : Line), ⟨9, 0, 1⟩, ⟨0, 0, 2⟩].length →
        b < [(⟨0, 1, 8⟩ : Line), ⟨9, 0, 1⟩, ⟨0, 0, 2⟩].length →
        (out[a]? = out[b]? ↔ Chained [⟨0, 1, 8⟩, ⟨9, 0, 1⟩, ⟨0, 0, 2⟩] a b)) ∧
      FirstOccurrenceOrdered out) ∧
    Process [⟨0, 1, 8⟩, ⟨5, 0, 2⟩, ⟨0, 0, 2⟩] [] = some [0, 0, 0]) :=
  ⟨by decide, Process_any_order [⟨0, 1, 8⟩, ⟨9, 0, 1⟩, ⟨0, 0, 2⟩] [] (by decide)⟩

/-- C19: with the 32-bit fields of `Line`, `IsTouching` is false for the two lines
`{x = 4294967295, length = 1}` on any rows, although both have length one and share
column `4294967295`: `x + length` evaluates to `0` modulo `2 ^ 32`. -/
theorem IsTouching_wrap_misses (y1 y2 : Nat) :
    1 ≤ (⟨4294967295, y1, 1⟩ : Line).m_Length ∧
    1 ≤ (⟨4294967295, y2, 1⟩ : Line).m_Length ∧
    shareColumn ⟨4294967295, y1, 1⟩ ⟨4294967295, y2, 1⟩ ∧
    wrapU32 ((⟨4294967295, y2, 1⟩ : Line).m_X + (⟨4294967295, y2, 1⟩ : Line).m_Length) = 0 ∧
    IsTouching ⟨4294967295, y1, 1⟩ ⟨4294967295, y2, 1⟩ = false := by
  refine ⟨Nat.le_refl 1, Nat.le_refl 1, ⟨4294967295, ?_, ?_, ?_, ?_⟩, ?_, ?_⟩ <;>
    simp [IsTouching, wrapU32]

/-! ## Painting lines into the image -/

theorem paintFrom_spec (P : Char) (x : Nat) (n j : Nat) (row : List Char)
    (h1 : x + j + n ≤ row.length) (h2 : x + j + n ≤ 4294967296) :
    ∃ row2, paintFrom P x n j row = some row2 ∧ row2.length = row.length ∧
      ∀ c, row2.getD c '.' = if x + j ≤ c ∧ c < x + j + n then P else row.getD c '.' := by
  induction n generalizing j row with
  | zero => exact ⟨row, rfl, rfl, fun c => by rw [if_neg]; omega⟩
  | succ n ih =>
    have hw : wrapU32 (x + j) = x + j := by unfold wrapU32; omega
    have hlt : x + j < row.length := by omega
    obtain ⟨row2, e, hl, hp⟩ := ih (j + 1) (row.set (x + j) P)
      (by rw [List.length_set]; omega) (by omega)
    refine ⟨row2, ?_, by rw [hl, List.length_set], fun c => ?_⟩
    · rw [paintFrom, hw, if_pos hlt]; exact e
    · rw [hp c, List.getD_eq_getElem?_getD, List.getD_eq_getElem?_getD, List.getElem?_set]
      by_cases hc : x + j = c
      · subst hc
        rw [if_neg (by omega), if_pos rfl, if_pos hlt, if_pos (by omega)]; rfl
      · rw [if_neg hc]
        by_cases h3 : x + (j + 1) ≤ c ∧ c < x + (j + 1) + n
        · rw [if_pos h3, if_pos (by omega)]
        · rw [if_neg h3, if_neg (by omega)]

theorem pixAt_set (Image : List (List Char)) (y : Nat) (row : List Char) (r c : Nat)
    (hy : y < Image.length) :
    pixAt (Image.set y row) r c = if r = y then row.getD c '.' else pixAt Image r c := by
  unfold pixAt
  rw [List.getD_eq_getElem?_getD (Image.set y row), List.getElem?_set]
  by_cases h : y = r
  · subst h; rw [if_pos rfl, if_pos hy, if_pos rfl]; rfl
  · rw [if_neg h, if_neg (fun e => h e.symm), List.getD_eq_getElem?_getD Image]

theorem paintLines_spec (W : Nat) (lines : List Line) :
    ∀ (idx : List Nat) (Image : List (List Char)), idx.length = lines.length →
      (∀ row ∈ Image, row.length = W) →
      (∀ l ∈ lines, l.m_Y < Image.length ∧ l.m_X + l.m_Length ≤ W ∧
        l.m_X + l.m_Length ≤ 4294967296) →
      ∃ Image2, paintLines lines idx Image = some Image2 ∧ Image2.length = Image.length ∧
        (∀ row ∈ Image2, row.length = W) ∧
        ∀ r c, pixAt Image2 r c = (lines.zip idx).foldl (paintStep r c) (pixAt Image r c) := by
  induction lines with
  | nil => intro idx Image _ hW _; exact ⟨Image, by cases idx <;> rfl, rfl, hW, fun r c => rfl⟩
  | cons l lines ih =>
    intro idx Image hlen hW hl
    cases idx with
    | nil => simp at hlen
    | cons g idx =>
      obtain ⟨hy, hx, hx2⟩ := hl l (List.mem_cons_self _ _)
      have hrow : Image[l.m_Y]? = some (Image.get ⟨l.m_Y, hy⟩) := List.getElem?_eq_getElem hy
      have hrl : (Image.get ⟨l.m_Y, hy⟩).length = W := hW _ (List.get_mem _ _ _)
      obtain ⟨row2, e2, hl2, hp2⟩ := paintFrom_spec (pixelOf g) l.m_X l.m_Length 0
        (Image.get ⟨l.m_Y, hy⟩) (by rw [hrl]; omega) (by omega)
      obtain ⟨Image2, e3, hl3, hW3, hp3⟩ := ih idx (Image.set l.m_Y row2)
        (by simpa using hlen)
        (fun row hr => by
          rcases List.mem_or_eq_of_mem_set hr with h | h
          · exact hW row h
          · rw [h, hl2, hrl])
        (fun q hq => by
          rw [List.length_set]; exact hl q (List.mem_cons_of_mem _ hq))
      refine ⟨Image2, ?_, by rw [hl3, List.length_set], hW3, fun r c => ?_⟩
      · rw [paintLines, hrow]; simp only []; rw [e2]; exact e3
      · rw [hp3 r c, List.zip_cons_cons, List.foldl_cons, pixAt_set _ _ _ _ _ hy]
        congr 1
        unfold paintStep covers
        dsimp only
        by_cases hr : r = l.m_Y
        · rw [if_pos hr, hp2 c]
          by_cases hc : l.m_X + 0 ≤ c ∧ c < l.m_X + 0 + l.m_Length
          · rw [if_pos hc, if_pos ⟨hr.symm, by omega, by omega⟩]
          · rw [if_neg hc, if_neg (by intro h; exact hc ⟨by omega, by omega⟩)]
            unfold pixAt; rw [hr, List.getD_eq_getElem?_getD Image, hrow]; rfl
        · rw [if_neg hr, if_neg (fun h => hr h.1.symm)]

theorem foldl_max_spec (f : Line → Nat) (lines : List Line) (a : Nat) :
    a ≤ lines.foldl (fun m l => max m (f l)) a ∧
    (∀ l ∈ lines, f l ≤ lines.foldl (fun m l => max m (f l)) a) ∧
    (lines.foldl (fun m l => max m (f l)) a = a ∨
      ∃ l ∈ lines, lines.foldl (fun m l => max m (f l)) a = f l) := by
  induction lines generalizing a with
  | nil => exact ⟨Nat.le_refl a, fun l h => absurd h (List.not_mem_nil l), Or.inl rfl⟩
  | cons q lines ih =>
    obtain ⟨h1, h2, h3⟩ := ih (max a (f q))
    rw [List.foldl_cons]
    refine ⟨Nat.le_trans (Nat.le_max_left _ _) h1, fun l hl => ?_, ?_⟩
    · rcases List.mem_cons.1 hl with e | hl
      · subst e; exact Nat.le_trans (Nat.le_max_right _ _) h1
      · exact h2 l hl
    · rcases h3 with e | ⟨l, hl, e⟩
      · rcases Nat.le_total a (f q) with h | h
        · exact Or.inr ⟨q, List.mem_cons_self _ _, by rw [e, Nat.max_eq_right h]⟩
        · exact Or.inl (by rw [e, Nat.max_eq_left h])
      · exact Or.inr ⟨l, List.mem_cons_of_mem _ hl, e⟩

theorem maxColumn_spec (lines : List Line) (hne : lines ≠ [])
    (hr : ∀ l ∈ lines, 1 ≤ l.m_Length ∧ l.m_X + l.m_Length ≤ 4294967296) :
    (∀ l ∈ lines, l.m_X + l.m_Length - 1 ≤ maxColumn lines) ∧
    ∃ l ∈ lines, maxColumn lines = l.m_X + l.m_Length - 1 := by
  have hf : ∀ l ∈ lines, wrapU32 (l.m_X + l.m_Length + 4294967295) = l.m_X + l.m_Length - 1 :=
    fun l hl => by have := hr l hl; unfold wrapU32; omega
  obtain ⟨_, h2, h3⟩ :=
    foldl_max_spec (fun l => wrapU32 (l.m_X + l.m_Length + 4294967295)) lines 0
  refine ⟨fun l hl => ?_, ?_⟩
  · rw [← hf l hl]; exact h2 l hl
  · rcases h3 with e | ⟨l, hl, e⟩
    · cases lines with
      | nil => exact absurd rfl hne
      | cons q rest =>
        refine ⟨q, List.mem_cons_self _ _, ?_⟩
        have h4 := h2 q (List.mem_cons_self _ _)
        rw [e, hf q (List.mem_cons_self _ _)] at h4
        have h5 : maxColumn (q :: rest) = 0 := e
        omega
    · exact ⟨l, hl, by rw [← hf l hl]; exact e⟩

theorem foldl_paintStep_none (r c : Nat) (items : List (Line × Nat)) (ch : Char)
    (h : ∀ it ∈ items, ¬ covers it.1 r c) : items.foldl (paintStep r c) ch = ch := by
  induction items generalizing ch with
  | nil => rfl
  | cons it items ih =>
    rw [List.foldl_cons, ih _ (fun q hq => h q (List.mem_cons_of_mem _ hq))]
    unfold paintStep
    rw [if_neg (h it (List.mem_cons_self _ _))]

theorem foldl_paintStep_last (r c : Nat) (pre post : List (Line × Nat)) (l : Line) (g : Nat)
    (ch : Char) (hl : covers l r c) (hpost : ∀ it ∈ post, ¬ covers it.1 r c) :
    (pre ++ (l, g) :: post).foldl (paintStep r c) ch = pixelOf g := by
  rw [List.foldl_append, List.foldl_cons, foldl_paintStep_none r c post _ hpost]
  unfold paintStep
  rw [if_pos hl]

theorem foldl_paintStep_cases (r c : Nat) (items : List (Line × Nat)) (ch : Char) :
    items.foldl (paintStep r c) ch = ch ∨
      ∃ it ∈ items, items.foldl (paintStep r c) ch = pixelOf it.2 := by
  induction items generalizing ch with
  | nil => exact Or.inl rfl
  | cons it items ih =>
    rw [List.foldl_cons]
    rcases ih (paintStep r c ch it) with e | ⟨q, hq, e⟩
    · unfold paintStep at e ⊢
      by_cases h : covers it.1 r c
      · rw [if_pos h] at e ⊢; exact Or.inr ⟨it, List.mem_cons_self _ _, e⟩
      · rw [if_neg h] at e ⊢; exact Or.inl e
    · exact Or.inr ⟨q, List.mem_cons_of_mem _ hq, e⟩

theorem pixelOf_lt (g : Nat) (h : g < 26) :
    pixelOf g = Char.ofNat ('A'.toNat + g) ∧ isLetter (pixelOf g) ∧
      pixelOf g ≠ Char.ofNat 0 ∧ pixelOf g ≠ '.' ∧ (pixelOf g).toNat - 'A'.toNat = g := by
  interval_cases g <;> decide

theorem printed_of_no_nul (row : List Char) (h : ∀ c ∈ row, c ≠ Char.ofNat 0) :
    printed row = String.mk row := by
  unfold printed
  rw [List.takeWhile_eq_self_iff.2 (fun c hc => by simpa using h c hc)]

theorem pixAt_replicate (H W r c : Nat) :
    pixAt (List.replicate H (List.replicate W '.')) r c = '.' := by
  unfold pixAt
  rw [List.getD_eq_getElem?_getD (List.replicate H _), List.getElem?_replicate]
  by_cases h : r < H
  · rw [if_pos h, Option.getD_some, List.getD_eq_getElem?_getD, List.getElem?_replicate]
    by_cases h2 : c < W
    · rw [if_pos h2]; rfl
    · rw [if_neg h2]; rfl
  · rw [if_neg h]; rfl

theorem pixAt_of_getElem? {Image : List (List Char)} {row : List Char} {r c : Nat} {ch : Char}
    (h1 : Image[r]? = some row) (h2 : row[c]? = some ch) : pixAt Image r c = ch := by
  unfold pixAt
  rw [List.getD_eq_getElem?_getD Image, h1, List.getD_eq_getElem?_getD, Option.getD_some, h2,
    Option.getD_some]

theorem RenderImage_spec (lines : List Line) (idx : List Nat) (back : Line)
    (hback : lines.getLast? = some back) (hlen : idx.length = lines.length)
    (hr : ∀ l ∈ lines, 1 ≤ l.m_Length ∧ l.m_X + l.m_Length < 4294967296 ∧ l.m_Y ≤ back.m_Y)
    (hy : back.m_Y + 1 < 4294967296) (hidx : ∀ g ∈ idx, g < 26) :
    ∃ Image, RenderImage lines idx = some ⟨false, Image.map String.mk⟩ ∧
      Image.length = back.m_Y + 1 ∧ (∀ row ∈ Image, row.length = maxColumn lines + 1) ∧
      ∀ r c, pixAt Image r c = (lines.zip idx).foldl (paintStep r c) '.' := by
  have hne : lines ≠ [] := by rintro rfl; simp at hback
  obtain ⟨hm1, l0, hl0, hm2⟩ := maxColumn_spec lines hne
    (fun l hl => ⟨(hr l hl).1, by have := (hr l hl).2.1; omega⟩)
  have hW : wrapU32 (maxColumn lines + 1) = maxColumn lines + 1 := by
    have := hr l0 hl0; unfold wrapU32; omega
  have hH : wrapU32 (back.m_Y + 1) = back.m_Y + 1 := by unfold wrapU32; omega
  obtain ⟨Image, e, hl, hw, hp⟩ := paintLines_spec (maxColumn lines + 1) lines idx
    (List.replicate (back.m_Y + 1) (List.replicate (maxColumn lines + 1) '.')) hlen
    (fun row h => by rw [List.eq_of_mem_replicate h, List.length_replicate])
    (fun l hl => by
      have := hr l hl; have := hm1 l hl; rw [List.length_replicate]; omega)
  have hpix : ∀ r c, pixAt Image r c = (lines.zip idx).foldl (paintStep r c) '.' :=
    fun r c => by rw [hp r c, pixAt_replicate]
  refine ⟨Image, ?_, by rw [hl, List.length_replicate], hw, hpix⟩
  have hmap : Image.map printed = Image.map String.mk := by
    apply List.map_congr_left
    intro row hrow
    apply printed_of_no_nul
    intro ch hch
    obtain ⟨r, hr2, er⟩ := List.getElem_of_mem hrow
    obtain ⟨c, hc2, ec⟩ := List.getElem_of_mem hch
    have h3 : pixAt Image r c = ch :=
      pixAt_of_getElem? (by rw [List.getElem?_eq_getElem hr2, er])
        (by rw [List.getElem?_eq_getElem hc2, ec])
    rw [hpix r c] at h3
    rcases foldl_paintStep_cases r c (lines.zip idx) '.' with e2 | ⟨it, hit, e2⟩
    · rw [← h3, e2]; decide
    · rw [← h3, e2]; exact (pixelOf_lt _ (hidx _ (List.of_mem_zip hit).2)).2.2.1
  unfold RenderImage
  rw [if_neg (by simpa using hne), if_neg (by rw [hlen]; exact fun h => h rfl), hback]
  simp only []
  rw [hH, hW, e]
  simp only []
  rw [hmap]

/-! ## Claims about `RenderImage` -/

/-- C12, counterexample: for the empty line list and the blob-index list `[0]` the
lengths differ, yet `RenderImage` returns at its first test, before the lengths are
compared: nothing is reported (and nothing is rendered). -/
theorem RenderImage_length_mismatch_counterexample :
    ([] : List Line).length ≠ [0].length ∧
    ∃ res, RenderImage [] [0] = some res ∧ res.mismatch = false ∧ res.rows = [] :=
  ⟨by decide, ⟨false, []⟩, rfl, rfl, rfl⟩

/-- C12 (amended): for every line list and blob-index list whose lengths differ,
`RenderImage` prints no image row; it reports the mismatch when the line list is
not empty, and reports nothing when the line list is empty. -/
theorem RenderImage_length_mismatch (lines : List Line) (idx : List Nat)
    (h : lines.length ≠ idx.length) :
    ∃ res, RenderImage lines idx = some res ∧ res.rows = [] ∧
      (lines ≠ [] → res.mismatch = true) ∧ (lines = [] → res.mismatch = false) := by
  cases lines with
  | nil => exact ⟨⟨false, []⟩, rfl, rfl, fun h2 => absurd rfl h2, fun _ => rfl⟩
  | cons l lines =>
    refine ⟨⟨true, []⟩, ?_, rfl, fun _ => rfl, fun h2 => by cases h2⟩
    unfold RenderImage
    rw [if_neg (by simp), if_pos h]

/-- C12 (amended) at one line and no blob index. -/
theorem RenderImage_length_mismatch_witness :
    [(⟨0, 0, 2⟩ : Line)].length ≠ ([] : List Nat).length ∧
    ∃ res, RenderImage [⟨0, 0, 2⟩] [] = some res ∧ res.rows = [] ∧
      ([(⟨0, 0, 2⟩ : Line)] ≠ [] → res.mismatch = true) ∧
      ([(⟨0, 0, 2⟩ : Line)] = [] → res.mismatch = false) :=
  ⟨by decide, RenderImage_length_mismatch [⟨0, 0, 2⟩] [] (by decide)⟩

/-- C13, counterexample. First input: the line in row `1` comes before the line in row
`0`; the image is built with `back().m_Y + 1 = 1` row and the first line is painted
into row `1`, outside the image, so no raster of height `2` is produced. Second input:
two overlapping lines in row `0` with the indices `0` and `1`; the pixel in column `1`
is covered by the first line but shows `B`, the letter of the second line. -/
theorem RenderImage_raster_counterexample :
    (RenderImage [⟨0, 1, 1⟩, ⟨0, 0, 1⟩] [0, 0] = none) ∧
    (covers ⟨0, 0, 2⟩ 0 1 ∧
      RenderImage [⟨0, 0, 2⟩, ⟨1, 0, 2⟩] [0, 1] = some ⟨false, ["ABB"]⟩ ∧
      "ABB".data[1]? = some 'B' ∧ 'B' ≠ Char.ofNat ('A'.toNat + 0)) := by
  decide

/-- C13 (amended): for every non-empty line list whose last line lies in the largest
row (lengths at least `1`, `x + length` and `y + 1` below `2 ^ 32`) and every blob-index
list of the same length with all indices below `26`, `RenderImage` reports nothing and
prints a raster of `(largest y) + 1` rows, each of width
`(largest x + length - 1) + 1`; a pixel covered by no line shows `.`, and a pixel
covered by a line shows the letter `A + index` of the last line in the list that
covers it (for lines that do not overlap: of the line that covers it). -/
theorem RenderImage_raster (lines : List Line) (idx : List Nat) (back : Line)
    (hback : lines.getLast? = some back) (hlen : idx.length = lines.length)
    (hr : ∀ l ∈ lines, 1 ≤ l.m_Length ∧ l.m_X + l.m_Length < 4294967296 ∧
      l.m_Y + 1 < 4294967296)
    (hlast : ∀ l ∈ lines, l.m_Y ≤ back.m_Y) (hidx : ∀ g ∈ idx, g < 26) :
    ∃ rows : List String, RenderImage lines idx = some ⟨false, rows⟩ ∧
      back ∈ lines ∧ rows.length = back.m_Y + 1 ∧
      (∀ row ∈ rows, row.length = maxColumn lines + 1) ∧
      (∀ l ∈ lines, l.m_X + l.m_Length - 1 ≤ maxColumn lines) ∧
      (∃ l ∈ lines, maxColumn lines = l.m_X + l.m_Length - 1) ∧
      ∀ r c, r < back.m_Y + 1 → c < maxColumn lines + 1 →
        ∃ row ch, rows[r]? = some row ∧ row.data[c]? = some ch ∧
          ((∀ l ∈ lines, ¬ covers l r c) → ch = '.') ∧
          (∀ pre post l g, lines.zip idx = pre ++ (l, g) :: post → covers l r c →
            (∀ it ∈ post, ¬ covers it.1 r c) → ch = Char.ofNat ('A'.toNat + g)) := by
  have hmem : back ∈ lines := List.mem_of_getLast?_eq_some hback
  have hne : lines ≠ [] := List.ne_nil_of_mem hmem
  obtain ⟨Image, e, hH, hW, hp⟩ := RenderImage_spec lines idx back hback hlen
    (fun l hl => ⟨(hr l hl).1, (hr l hl).2.1, hlast l hl⟩) (hr back hmem).2.2 hidx
  obtain ⟨hm1, hm2⟩ := maxColumn_spec lines hne
    (fun l hl => ⟨(hr l hl).1, by have := (hr l hl).2.1; omega⟩)
  refine ⟨Image.map String.mk, e, hmem, by rw [List.length_map, hH], ?_, hm1, hm2, ?_⟩
  · intro row hrow
    obtain ⟨cs, hcs, rfl⟩ := List.mem_map.1 hrow
    exact hW cs hcs
  · intro r c hr2 hc2
    have hr3 : r < Image.length := by rw [hH]; exact hr2
    have hrow : Image[r]? = some (Image.get ⟨r, hr3⟩) := List.getElem?_eq_getElem hr3
    have hc3 : c < (Image.get ⟨r, hr3⟩).length := by
      rw [hW _ (List.get_mem _ _ _)]; exact hc2
    have hch : (Image.get ⟨r, hr3⟩)[c]? = some ((Image.get ⟨r, hr3⟩).get ⟨c, hc3⟩) :=
      List.getElem?_eq_getElem hc3
    have hpix := hp r c
    rw [pixAt_of_getElem? hrow hch] at hpix
    refine ⟨String.mk (Image.get ⟨r, hr3⟩), (Image.get ⟨r, hr3⟩).get ⟨c, hc3⟩, ?_, hch,
      fun hno => ?_, fun pre post l g hz hl hpost => ?_⟩
    · rw [List.getElem?_map, hrow]; rfl
    · rw [hpix]
      exact foldl_paintStep_none r c _ _ (fun it hit => hno _ (List.of_mem_zip hit).1)
    · have hg : g ∈ idx := by
        have : (l, g) ∈ lines.zip idx := by rw [hz]; simp
        exact (List.of_mem_zip this).2
      rw [hpix, hz, foldl_paintStep_last r c pre post l g '.' hl hpost]
      exact (pixelOf_lt g (hidx g hg)).1

/-- C13 (amended) at Scenario C with the indices `0, 1, 2`. -/
theorem RenderImage_raster_witness :
    [(⟨0, 0, 2⟩ : Line), ⟨5, 0, 2⟩, ⟨0, 1, 8⟩].getLast? = some ⟨0, 1, 8⟩ ∧
    [0, 1, 2].length = [(⟨0, 0, 2⟩ : Line), ⟨5, 0, 2⟩, ⟨0, 1, 8⟩].length ∧
    (∀ l ∈ [(⟨0, 0, 2⟩ : Line), ⟨5, 0, 2⟩, ⟨0, 1, 8⟩], 1 ≤ l.m_Length ∧
      l.m_X + l.m_Length < 4294967296 ∧ l.m_Y + 1 < 4294967296) ∧
    (∀ l ∈ [(⟨0, 0, 2⟩ : Line), ⟨5, 0, 2⟩, ⟨0, 1, 8⟩], l.m_Y ≤ (⟨0, 1, 8⟩ : Line).m_Y) ∧
    (∀ g ∈ [0, 1, 2], g < 26) ∧
    ∃ rows : List String,
      RenderImage [⟨0, 0, 2⟩, ⟨5, 0, 2⟩, ⟨0, 1, 8⟩] [0, 1, 2] = some ⟨false, rows⟩ ∧
      (⟨0, 1, 8⟩ : Line) ∈ [(⟨0, 0, 2⟩ : Line), ⟨5, 0, 2⟩, ⟨0, 1, 8⟩] ∧
      rows.length = (⟨0, 1, 8⟩ : Line).m_Y + 1 ∧
      (∀ row ∈ rows, row.length = maxColumn [⟨0, 0, 2⟩, ⟨5, 0, 2⟩, ⟨0, 1, 8⟩] + 1) ∧
      (∀ l ∈ [(⟨0, 0, 2⟩ : Line), ⟨5, 0, 2⟩, ⟨0, 1, 8⟩],
        l.m_X + l.m_Length - 1 ≤ maxColumn [⟨0, 0, 2⟩, ⟨5, 0, 2⟩, ⟨0, 1, 8⟩]) ∧
      (∃ l ∈ [(⟨0, 0, 2⟩ : Line), ⟨5, 0, 2⟩, ⟨0, 1, 8⟩],
        maxColumn [⟨0, 0, 2⟩, ⟨5, 0, 2⟩, ⟨0, 1, 8⟩] = l.m_X + l.m_Length - 1) ∧
      ∀ r c, r < (⟨0, 1, 8⟩ : Line).m_Y + 1 →
        c < maxColumn [⟨0, 0, 2⟩, ⟨5, 0, 2⟩, ⟨0, 1, 8⟩] + 1 →
        ∃ row ch, rows[r]? = some row ∧ row.data[c]? = some ch ∧
          ((∀ l ∈ [(⟨0, 0, 2⟩ : Line), ⟨5, 0, 2⟩, ⟨0, 1, 8⟩], ¬ covers l r c) → ch = '.') ∧
          (∀ pre post l g,
            [(⟨0, 0, 2⟩ : Line), ⟨5, 0, 2⟩, ⟨0, 1, 8⟩].zip [0, 1, 2] = pre ++ (l, g) :: post →
            covers l r c → (∀ it ∈ post, ¬ covers it.1 r c) →
            ch = Char.ofNat ('A'.toNat + g)) :=
  ⟨by decide, by decide, by decide, by decide, by decide,
    RenderImage_raster [⟨0, 0, 2⟩, ⟨5, 0, 2⟩, ⟨0, 1, 8⟩] [0, 1, 2] ⟨0, 1, 8⟩ (by decide)
      (by decide) (by decide) (by decide) (by decide)⟩

/-! ## The lines and reference indices the decoder produces -/

theorem lt_of_before {a : Line} {X Y : Nat}
    (h : 1 ≤ a.m_Length ∧ (a.m_Y < Y ∨ (a.m_Y = Y ∧ a.m_X + a.m_Length ≤ X))) (b : Line)
    (hy : b.m_Y = Y) (hx : b.m_X = X) : Line.lt a b = true := by
  unfold Line.lt
  rcases h.2 with h1 | ⟨h1, h2⟩
  · simp; left; omega
  · simp; right; omega

theorem getElem?_at_length {α : Type} (done rest : List α) (p : α) :
    (done ++ p :: rest)[done.length]? = some p := by
  rw [List.getElem?_append_right (Nat.le_refl _), Nat.sub_self, List.getElem?_cons_zero]

theorem scanRow_dec (image : List String) (Y : Nat) (rowfull : String)
    (hrow : image[Y]? = some rowfull) (rest : List Char) :
    ∀ (done : List Char) (prev : Char) (ls : List Line) (bs : List Nat),
      rowfull.data = done ++ rest → DecInv image Y done.length ls bs →
      OpenRun rowfull.data Y done.length prev ls bs →
      ∀ r, scanRow Y rest done.length prev ls bs = some r → r.ok = true →
        DecInv image (Y + 1) 0 r.o_rLines r.o_rBlobIndices := by
  induction rest with
  | nil =>
    intro done prev ls bs _ hinv _ r hr _
    simp only [scanRow, Option.some.injEq] at hr
    subst hr
    exact ⟨hinv.len, hinv.ok, hinv.asc, fun l hl => by
      have := hinv.before l hl
      exact ⟨this.1, Or.inl (by omega)⟩⟩
  | cons Pixel rest ih =>
    intro done prev ls bs hd hinv hopen r hr hok
    have hX : (done ++ [Pixel]).length = done.length + 1 := by simp
    have hd2 : rowfull.data = (done ++ [Pixel]) ++ rest := by rw [hd]; simp
    have hat : rowfull.data[done.length]? = some Pixel := by
      rw [hd]; exact getElem?_at_length done rest Pixel
    unfold scanRow at hr
    by_cases hill : Pixel ≠ '.' ∧ (Pixel < 'A' ∨ Pixel > 'Z')
    · rw [if_pos hill] at hr
      simp only [Option.some.injEq] at hr
      subst hr
      exact absurd hok (by simp)
    · rw [if_neg hill] at hr
      by_cases hdot : Pixel ≠ '.'
      · rw [if_pos hdot] at hr
        have hlet : isLetter Pixel := by
          by_contra h
          exact hill ((illegal_iff Pixel).2 ⟨hdot, h⟩)
        by_cases hp : prev = '.'
        · rw [if_pos hp, ← hX] at hr
          refine ih (done ++ [Pixel]) Pixel _ _ hd2 ⟨?_, ?_, ?_, ?_⟩ ?_ r hr hok
          · simp [hinv.len]
          · intro it hit
            rw [List.zip_append hinv.len.symm] at hit
            rcases List.mem_append.1 hit with h | h
            · exact hinv.ok it h
            · simp only [List.zip_cons_cons, List.zip_nil_right, List.mem_singleton] at h
              subst h
              refine ⟨rowfull, Pixel, hrow, hlet, rfl, fun c h1 h2 => ?_⟩
              have hc : c = done.length := by
                simp only at h1 h2; omega
              rw [hc]; exact hat
          · refine List.pairwise_append.2 ⟨hinv.asc, List.pairwise_singleton _ _, ?_⟩
            intro a ha b hb
            rw [List.mem_singleton] at hb
            subst hb
            exact lt_of_before (hinv.before a ha) _ rfl rfl
          · intro l hl
            rcases List.mem_append.1 hl with h | h
            · have := hinv.before l h
              exact ⟨this.1, by rw [hX]; omega⟩
            · rw [List.mem_singleton] at h
              subst h
              exact ⟨Nat.le_refl 1, Or.inr ⟨rfl, by rw [hX]⟩⟩
          · intro _
            refine ⟨hlet, ls, _, bs, rfl, rfl, hinv.len.symm, rfl, by rw [hX], ?_⟩
            intro c h1 h2
            have hc : c = done.length := by
              simp only at h1; rw [hX] at h2; omega
            rw [hc]; exact hat
        · rw [if_neg hp] at hr
          by_cases heq : Pixel = prev
          · rw [if_pos heq] at hr
            obtain ⟨_, init, l, binit, hls, hbs, hlen2, hly, hlx, hpix⟩ := hopen hp
            rw [hls, incrementBack_append, ← hX] at hr
            have hasc := hinv.asc
            rw [hls] at hasc
            obtain ⟨ha1, _, ha3⟩ := List.pairwise_append.1 hasc
            refine ih (done ++ [Pixel]) Pixel _ _ hd2 ⟨?_, ?_, ?_, ?_⟩ ?_ r hr hok
            · rw [hinv.len, hls]; simp
            · intro it hit
              rw [hbs, List.zip_append hlen2] at hit
              rcases List.mem_append.1 hit with h | h
              · exact hinv.ok it (by
                  rw [hls, hbs, List.zip_append hlen2]; exact List.mem_append_left _ h)
              · simp only [List.zip_cons_cons, List.zip_nil_right, List.mem_singleton] at h
                subst h
                refine ⟨rowfull, prev, by rw [← hrow]; simp only [hly], by rw [← heq]; exact hlet,
                  rfl, fun c h1 h2 => ?_⟩
                simp only at h1 h2
                by_cases hc : c < done.length
                · exact hpix c h1 hc
                · have hc2 : c = done.length := by omega
                  rw [hc2, ← heq]; exact hat
            · refine List.pairwise_append.2 ⟨ha1, List.pairwise_singleton _ _, ?_⟩
              intro a ha b hb
              rw [List.mem_singleton] at hb
              subst hb
              exact ha3 a ha l (List.mem_singleton_self l)
            · intro l2 hl2
              rcases List.mem_append.1 hl2 with h | h
              · have := hinv.before l2 (by rw [hls]; exact List.mem_append_left _ h)
                exact ⟨this.1, by rw [hX]; omega⟩
              · rw [List.mem_singleton] at h
                subst h
                exact ⟨by simp only; omega, Or.inr ⟨hly, by rw [hX]; simp only; omega⟩⟩
            · intro _
              refine ⟨hlet, init, _, binit, rfl, by rw [hbs, heq], hlen2, hly,
                by rw [hX]; simp only; omega, ?_⟩
              intro c h1 h2
              simp only at h1
              rw [hX] at h2
              by_cases hc : c < done.length
              · rw [heq]; exact hpix c h1 hc
              · have hc2 : c = done.length := by omega
                rw [hc2]; exact hat
          · rw [if_neg heq] at hr
            simp only [Option.some.injEq] at hr
            subst hr
            exact absurd hok (by simp)
      · rw [if_neg hdot, ← hX] at hr
        have hdd : Pixel = '.' := not_not.1 hdot
        refine ih (done ++ [Pixel]) Pixel ls bs hd2
          ⟨hinv.len, hinv.ok, hinv.asc, fun l hl => ?_⟩ (fun h => absurd hdd h) r hr hok
        have := hinv.before l hl
        exact ⟨this.1, by rw [hX]; omega⟩

theorem scanRows_dec (image : List String) (rest : List String) :
    ∀ (doneRows : List String) (ls : List Line) (bs : List Nat), image = doneRows ++ rest →
      DecInv image doneRows.length 0 ls bs →
      ∀ r, scanRows rest doneRows.length ls bs = some r → r.ok = true →
        DecInv image image.length 0 r.o_rLines r.o_rBlobIndices := by
  induction rest with
  | nil =>
    intro doneRows ls bs himg hinv r hr _
    simp only [scanRows, Option.some.injEq] at hr
    subst hr
    have hl : image.length = doneRows.length := by rw [himg, List.append_nil]
    rw [hl]
    exact hinv
  | cons row rest ih =>
    intro doneRows ls bs himg hinv r hr hok
    have hY : (doneRows ++ [row]).length = doneRows.length + 1 := by simp
    have hrow : image[doneRows.length]? = some row := by
      rw [himg]; exact getElem?_at_length doneRows rest row
    unfold scanRows at hr
    cases h1 : scanRow doneRows.length row.data 0 '.' ls bs with
    | none => rw [h1] at hr; cases hr
    | some r1 =>
      rw [h1] at hr
      simp only [] at hr
      by_cases hok1 : r1.ok = true
      · rw [if_pos hok1, ← hY] at hr
        have h2 := scanRow_dec image doneRows.length row hrow row.data [] '.' ls bs rfl hinv
          (fun h => absurd rfl h) r1 h1 hok1
        rw [← hY] at h2
        exact ih (doneRows ++ [row]) _ _ (by rw [himg]; simp) h2 r hr hok
      · rw [if_neg hok1] at hr
        simp only [Option.some.injEq] at hr
        subst hr
        exact absurd hok hok1

/-- C11: for every image on which `GenerateLinesAndResult`, called with empty output
vectors, returns `true`: the produced lines ascend strictly under `Line::operator<`,
every produced line has length at least `1`, there is one reference index per line,
and the `k`-th reference index is the letter of the pixels of the `k`-th line minus
`A` (all pixels of the line hold that one letter, in the row of the line). -/
theorem GenerateLinesAndResult_output (i_rImage : List String) (lines : List Line)
    (gold : List Nat) (h : GenerateLinesAndResult i_rImage [] [] = some ⟨true, lines, gold⟩) :
    lines.Pairwise (fun a b => Line.lt a b = true) ∧
    (∀ l ∈ lines, 1 ≤ l.m_Length) ∧
    gold.length = lines.length ∧
    ∀ (k : Nat) (l : Line) (g : Nat), lines[k]? = some l → gold[k]? = some g →
      ∃ row ch, i_rImage[l.m_Y]? = some row ∧ ('A' ≤ ch ∧ ch ≤ 'Z') ∧
        (∀ c, l.m_X ≤ c → c < l.m_X + l.m_Length → row.data[c]? = some ch) ∧
        g = ch.toNat - 'A'.toNat := by
  have hinv := scanRows_dec i_rImage i_rImage [] [] [] rfl
    ⟨rfl, fun it hit => by simp at hit, List.Pairwise.nil, fun l hl => by simp at hl⟩ _ h rfl
  refine ⟨hinv.asc, fun l hl => (hinv.before l hl).1, hinv.len, fun k l g hl hg => ?_⟩
  have hz : (lines.zip gold)[k]? = some (l, g) := by
    rw [List.getElem?_zip_eq_some]; exact ⟨hl, hg⟩
  obtain ⟨row, ch, h1, h2, h3, h4⟩ := hinv.ok (l, g) (List.getElem?_mem hz)
  exact ⟨row, ch, h1, h2, h4, h3⟩

/-- C11 at an image of two rows. -/
theorem GenerateLinesAndResult_output_witness :
    GenerateLinesAndResult ["AA.B", ".CC."] [] [] =
      some ⟨true, [⟨0, 0, 2⟩, ⟨3, 0, 1⟩, ⟨1, 1, 2⟩], [0, 1, 2]⟩ ∧
    ([(⟨0, 0, 2⟩ : Line), ⟨3, 0, 1⟩, ⟨1, 1, 2⟩].Pairwise (fun a b => Line.lt a b = true) ∧
    (∀ l ∈ [(⟨0, 0, 2⟩ : Line), ⟨3, 0, 1⟩, ⟨1, 1, 2⟩], 1 ≤ l.m_Length) ∧
    [0, 1, 2].length = [(⟨0, 0, 2⟩ : Line), ⟨3, 0, 1⟩, ⟨1, 1, 2⟩].length ∧
    ∀ (k : Nat) (l : Line) (g : Nat),
      [(⟨0, 0, 2⟩ : Line), ⟨3, 0, 1⟩, ⟨1, 1, 2⟩][k]? = some l → [0, 1, 2][k]? = some g →
      ∃ row ch, ["AA.B", ".CC."][l.m_Y]? = some row ∧ ('A' ≤ ch ∧ ch ≤ 'Z') ∧
        (∀ c, l.m_X ≤ c → c < l.m_X + l.m_Length → row.data[c]? = some ch) ∧
        g = ch.toNat - 'A'.toNat) :=
  ⟨by decide, GenerateLinesAndResult_output ["AA.B", ".CC."] [⟨0, 0, 2⟩, ⟨3, 0, 1⟩, ⟨1, 1, 2⟩]
    [0, 1, 2] (by decide)⟩

/-! ## Decoding a row made of runs -/

theorem scanRow_dots (Y : Nat) (n : Nat) (tail : List Char) :
    ∀ (X : Nat) (prev : Char) (ls : List Line) (bs : List Nat),
      scanRow Y (List.replicate n '.' ++ tail) X prev ls bs =
        scanRow Y tail (X + n) (if n = 0 then prev else '.') ls bs := by
  induction n with
  | zero => intro X prev ls bs; rfl
  | succ n ih =>
    intro X prev ls bs
    rw [List.replicate_succ, List.cons_append, scanRow, if_neg (by simp), if_neg (by simp), ih,
      if_neg (Nat.succ_ne_zero n), ite_self]
    have e : X + 1 + n = X + (n + 1) := by omega
    rw [e]

theorem letter_tests {p : Char} (hp : isLetter p) :
    ¬ (p ≠ '.' ∧ (p < 'A' ∨ p > 'Z')) ∧ p ≠ '.' := by
  have hd : p ≠ '.' := fun h => dot_not_letter (h ▸ hp)
  exact ⟨fun h => ((illegal_iff p).1 h).2 hp, hd⟩

theorem scanRow_run (Y : Nat) (p : Char) (hp : isLetter p) (n : Nat) (tail : List Char) :
    ∀ (X : Nat) (init : List Line) (x0 y0 m : Nat) (bs : List Nat),
      scanRow Y (List.replicate n p ++ tail) X p (init ++ [⟨x0, y0, m⟩]) bs =
        scanRow Y tail (X + n) p (init ++ [⟨x0, y0, m + n⟩]) bs := by
  induction n with
  | zero => intro X init x0 y0 m bs; rfl
  | succ n ih =>
    intro X init x0 y0 m bs
    rw [List.replicate_succ, List.cons_append, scanRow, if_neg (letter_tests hp).1,
      if_pos (letter_tests hp).2, if_neg (letter_tests hp).2, if_pos rfl, incrementBack_append]
    have e : X + 1 + n = X + (n + 1) := by omega
    have e2 : m + 1 + n = m + (n + 1) := by omega
    rw [← e, ← e2]
    exact ih (X + 1) init x0 y0 (m + 1) bs

theorem scanRow_block (Y : Nat) (p : Char) (hp : isLetter p) (n : Nat) (tail : List Char)
    (X : Nat) (ls : List Line) (bs : List Nat) :
    scanRow Y (List.replicate (n + 1) p ++ tail) X '.' ls bs =
      scanRow Y tail (X + (n + 1)) p (ls ++ [⟨X, Y, n + 1⟩]) (bs ++ [p.toNat - 'A'.toNat]) := by
  rw [List.replicate_succ, List.cons_append, scanRow, if_neg (letter_tests hp).1,
    if_pos (letter_tests hp).2, if_pos rfl, scanRow_run Y p hp n tail]
  have e : X + 1 + n = X + (n + 1) := by omega
  have e2 : 1 + n = n + 1 := by omega
  rw [e, e2]

theorem scanRow_blockRow (Y W : Nat) (items : List (Line × Nat)) :
    ∀ (pos : Nat) (prev : Char) (ls : List Line) (bs : List Nat),
      (∀ it ∈ items, it.1.m_Y = Y ∧ 1 ≤ it.1.m_Length ∧ it.2 < 26 ∧ pos ≤ it.1.m_X ∧
        (prev ≠ '.' → pos < it.1.m_X)) →
      items.Pairwise (fun a b => a.1.m_X + a.1.m_Length < b.1.m_X) →
      scanRow Y (blockRow W pos items) pos prev ls bs =
        some ⟨true, ls ++ items.map Prod.fst, bs ++ items.map Prod.snd⟩ := by
  induction items with
  | nil =>
    intro pos prev ls bs _ _
    have h := scanRow_dots Y (W - pos) [] pos prev ls bs
    rw [List.append_nil] at h
    rw [blockRow, h]
    simp [scanRow]
  | cons it rest ih =>
    intro pos prev ls bs hwf hpw
    obtain ⟨hY, hlen, hg, hpos, hprev⟩ := hwf it (List.mem_cons_self _ _)
    obtain ⟨hp1, hp2⟩ := List.pairwise_cons.1 hpw
    obtain ⟨n, hn⟩ : ∃ n, it.1.m_Length = n + 1 := ⟨it.1.m_Length - 1, by omega⟩
    have hlet := (pixelOf_lt it.2 hg).2.1
    have hval := (pixelOf_lt it.2 hg).2.2.2.2
    have hprev2 : (if it.1.m_X - pos = 0 then prev else '.') = '.' := by
      by_cases h0 : it.1.m_X - pos = 0
      · rw [if_pos h0]
        by_contra hne
        have := hprev hne
        omega
      · rw [if_neg h0]
    have hX : pos + (it.1.m_X - pos) = it.1.m_X := by omega
    rw [blockRow, scanRow_dots, hprev2, hX, hn, scanRow_block Y _ hlet, hval, ← hn,
      ih (it.1.m_X + it.1.m_Length) (pixelOf it.2) _ _ ?_ hp2]
    · have e : (⟨it.1.m_X, Y, it.1.m_Length⟩ : Line) = it.1 := by
        rw [← hY]
      rw [e]
      simp
    · intro q hq
      obtain ⟨hqY, hqlen, hqg, _, _⟩ := hwf q (List.mem_cons_of_mem _ hq)
      have := hp1 q hq
      exact ⟨hqY, hqlen, hqg, by omega, fun _ => this⟩

/-! ## The rows `RenderImage` prints are made of runs -/

theorem getD_replicate_dot (n i : Nat) : (List.replicate n '.').getD i '.' = '.' := by
  rw [List.getD_eq_getElem?_getD, List.getElem?_replicate]
  by_cases h : i < n
  · rw [if_pos h]; rfl
  · rw [if_neg h]; rfl

theorem getD_replicate_lt (n i : Nat) (p : Char) (h : i < n) :
    (List.replicate n p).getD i '.' = p := by
  rw [List.getD_eq_getElem?_getD, List.getElem?_replicate, if_pos h]; rfl

theorem ext_getD {l1 l2 : List Char} (hl : l1.length = l2.length)
    (h : ∀ c, c < l1.length → l1.getD c '.' = l2.getD c '.') : l1 = l2 := by
  refine List.ext_getElem hl (fun n h1 h2 => ?_)
  have := h n h1
  rw [List.getD_eq_getElem _ _ h1, List.getD_eq_getElem _ _ h2] at this
  exact this

theorem length_blockRow (W : Nat) (items : List (Line × Nat)) :
    ∀ pos, (∀ it ∈ items, pos ≤ it.1.m_X ∧ it.1.m_X + it.1.m_Length ≤ W) →
      items.Pairwise (fun a b => a.1.m_X + a.1.m_Length < b.1.m_X) → pos ≤ W →
      (blockRow W pos items).length = W - pos := by
  induction items with
  | nil => intro pos _ _ _; rw [blockRow, List.length_replicate]
  | cons it rest ih =>
    intro pos hwf hpw hpos
    obtain ⟨h1, h2⟩ := hwf it (List.mem_cons_self _ _)
    obtain ⟨hp1, hp2⟩ := List.pairwise_cons.1 hpw
    rw [blockRow, List.length_append, List.length_append, List.length_replicate,
      List.length_replicate, ih _ (fun q hq => ⟨by have := hp1 q hq; omega,
        (hwf q (List.mem_cons_of_mem _ hq)).2⟩) hp2 h2]
    omega

theorem getD_blockRow (Y W c : Nat) (items : List (Line × Nat)) :
    ∀ pos, pos ≤ c → (∀ it ∈ items, it.1.m_Y = Y ∧ pos ≤ it.1.m_X) →
      items.Pairwise (fun a b => a.1.m_X + a.1.m_Length < b.1.m_X) →
      (blockRow W pos items).getD (c - pos) '.' = items.foldl (paintStep Y c) '.' := by
  induction items with
  | nil => intro pos _ _ _; rw [blockRow, getD_replicate_dot]; rfl
  | cons it rest ih =>
    intro pos hc hwf hpw
    obtain ⟨hY, hx⟩ := hwf it (List.mem_cons_self _ _)
    obtain ⟨hp1, hp2⟩ := List.pairwise_cons.1 hpw
    rw [blockRow]
    by_cases h1 : c < it.1.m_X
    · rw [List.getD_append _ _ _ _ (by rw [List.length_replicate]; omega), getD_replicate_dot,
        foldl_paintStep_none Y c]
      intro q hq hcov
      rcases List.mem_cons.1 hq with e | hq
      · subst e; have := hcov.2.1; omega
      · have := hp1 q hq; have := hcov.2.1; omega
    · rw [List.getD_append_right _ _ _ _ (by rw [List.length_replicate]; omega),
        List.length_replicate, List.foldl_cons]
      by_cases h2 : c < it.1.m_X + it.1.m_Length
      · have hcov : covers it.1 Y c := ⟨hY, by omega, h2⟩
        rw [List.getD_append _ _ _ _ (by rw [List.length_replicate]; omega),
          getD_replicate_lt _ _ _ (by omega), foldl_paintStep_none Y c]
        · unfold paintStep; rw [if_pos hcov]
        · intro q hq hcov2
          have := hp1 q hq; have := hcov2.2.1; omega
      · have hcov : ¬ covers it.1 Y c := fun h => h2 h.2.2
        have e : c - pos - (it.1.m_X - pos) - it.1.m_Length =
            c - (it.1.m_X + it.1.m_Length) := by omega
        rw [List.getD_append_right _ _ _ _ (by rw [List.length_replicate]; omega),
          List.length_replicate, e,
          ih _ (by omega) (fun q hq => ⟨(hwf q (List.mem_cons_of_mem _ hq)).1,
            by have := hp1 q hq; omega⟩) hp2]
        unfold paintStep; rw [if_neg hcov]

theorem foldl_paintStep_rowItems (Z : List (Line × Nat)) (r c : Nat) :
    ∀ ch, (rowItems Z r).foldl (paintStep r c) ch = Z.foldl (paintStep r c) ch := by
  induction Z with
  | nil => intro ch; rfl
  | cons it Z ih =>
    intro ch
    unfold rowItems
    rw [List.filter_cons]
    by_cases h : it.1.m_Y = r
    · rw [if_pos (by simpa using h), List.foldl_cons, List.foldl_cons]; exact ih _
    · rw [if_neg (by simpa using h), List.foldl_cons]
      have e : paintStep r c ch it = ch := by
        unfold paintStep; rw [if_neg (fun hc => h hc.1)]
      rw [e]; exact ih ch

theorem apart_trans {a b c : Line} (h1 : Apart a b) (h2 : Apart b c) : Apart a c := by
  unfold Apart at *
  omega

theorem apart_pairwise (lines : List Line)
    (hasc : lines.Chain' (fun a b => Line.lt a b = true))
    (hgap : lines.Chain' (fun a b => a.m_Y = b.m_Y → a.m_X + a.m_Length < b.m_X)) :
    lines.Pairwise Apart := by
  have hch : lines.Chain' Apart := by
    induction lines with
    | nil => exact List.chain'_nil
    | cons a rest ih =>
      cases rest with
      | nil => exact List.chain'_singleton a
      | cons b rest =>
        rw [List.chain'_cons] at hasc hgap ⊢
        refine ⟨?_, ih hasc.2 hgap.2⟩
        have h1 := hasc.1
        unfold Line.lt at h1
        simp only [Bool.or_eq_true, Bool.and_eq_true, decide_eq_true_eq] at h1
        rcases h1 with h | ⟨h, _⟩
        · exact Or.inl h
        · exact Or.inr ⟨h, hgap.1 h⟩
  haveI : IsTrans Line Apart := ⟨fun _ _ _ h1 h2 => apart_trans h1 h2⟩
  exact List.chain'_iff_pairwise.1 hch

theorem rowItems_pairwise (Z : List (Line × Nat)) (hZ : Z.Pairwise (fun a b => Apart a.1 b.1))
    (r : Nat) :
    (rowItems Z r).Pairwise (fun a b => a.1.m_X + a.1.m_Length < b.1.m_X) := by
  unfold rowItems
  refine (hZ.filter _).imp_of_mem (fun ha hb hab => ?_)
  have h1 := (List.mem_filter.1 ha).2
  have h2 := (List.mem_filter.1 hb).2
  simp only [decide_eq_true_eq] at h1 h2
  unfold Apart at hab
  omega

theorem image_rows (Image : List (List Char)) (Z : List (Line × Nat)) (H W : Nat)
    (hH : Image.length = H) (hW : ∀ row ∈ Image, row.length = W)
    (hp : ∀ r c, pixAt Image r c = Z.foldl (paintStep r c) '.')
    (hZ : Z.Pairwise (fun a b => Apart a.1 b.1))
    (hx : ∀ it ∈ Z, it.1.m_X + it.1.m_Length ≤ W) :
    Image = (List.range H).map (fun r => blockRow W 0 (rowItems Z r)) := by
  refine List.ext_getElem (by rw [List.length_map, List.length_range, hH]) (fun r h1 h2 => ?_)
  rw [List.getElem_map, List.getElem_range]
  have hpw := rowItems_pairwise Z hZ r
  have hmem : ∀ it ∈ rowItems Z r, it ∈ Z ∧ it.1.m_Y = r := fun it hit => by
    have := List.mem_filter.1 hit
    exact ⟨this.1, by simpa using this.2⟩
  have hlen : (Image[r]).length = W := hW _ (List.getElem_mem _)
  refine ext_getD ?_ (fun c hc => ?_)
  · rw [hlen, length_blockRow W _ 0 (fun it hit => ⟨Nat.zero_le _, hx it (hmem it hit).1⟩) hpw
      (Nat.zero_le _)]
    rfl
  · have h3 := getD_blockRow r W c (rowItems Z r) 0 (Nat.zero_le _)
      (fun it hit => ⟨(hmem it hit).2, Nat.zero_le _⟩) hpw
    rw [Nat.sub_zero] at h3
    rw [h3, foldl_paintStep_rowItems, ← hp r c]
    unfold pixAt
    rw [List.getD_eq_getElem _ _ h1]

theorem rowsFrom_split (Z : List (Line × Nat))
    (hZ : Z.Pairwise (fun a b => a.1.m_Y ≤ b.1.m_Y)) (Y : Nat) :
    rowsFrom Z Y = rowItems Z Y ++ rowsFrom Z (Y + 1) := by
  induction Z with
  | nil => rfl
  | cons it Z ih =>
    obtain ⟨hp1, hp2⟩ := List.pairwise_cons.1 hZ
    by_cases h : it.1.m_Y ≤ Y
    · have e := ih hp2
      unfold rowsFrom rowItems at e ⊢
      rw [List.filter_cons, List.filter_cons, List.filter_cons]
      by_cases h2 : it.1.m_Y = Y
      · rw [if_pos (by simpa using Nat.le_of_eq h2.symm), if_pos (by simpa using h2),
          if_neg (by simp; omega), e]
        rfl
      · rw [if_neg (by simp; omega), if_neg (by simpa using h2), if_neg (by simp; omega), e]
    · have hall : ∀ q ∈ it :: Z, Y + 1 ≤ q.1.m_Y := fun q hq => by
        rcases List.mem_cons.1 hq with e | hq
        · subst e; omega
        · have := hp1 q hq; omega
      have e1 : rowItems (it :: Z) Y = [] := by
        unfold rowItems
        rw [List.filter_eq_nil_iff]
        intro q hq
        have := hall q hq
        simp; omega
      rw [e1, List.nil_append]
      unfold rowsFrom
      apply List.filter_congr
      intro q hq
      have := hall q hq
      simp; omega

theorem scanRows_blockRows (W : Nat) (Z : List (Line × Nat))
    (hwf : ∀ it ∈ Z, 1 ≤ it.1.m_Length ∧ it.2 < 26)
    (hZ : Z.Pairwise (fun a b => Apart a.1 b.1)) (n : Nat) :
    ∀ (Y : Nat) (ls : List Line) (bs : List Nat), (∀ it ∈ Z, it.1.m_Y < Y + n) →
      scanRows ((List.range' Y n).map (fun r => String.mk (blockRow W 0 (rowItems Z r))))
          Y ls bs =
        some ⟨true, ls ++ (rowsFrom Z Y).map Prod.fst, bs ++ (rowsFrom Z Y).map Prod.snd⟩ := by
  have hZy : Z.Pairwise (fun a b => a.1.m_Y ≤ b.1.m_Y) :=
    hZ.imp (fun h => by unfold Apart at h; omega)
  induction n with
  | zero =>
    intro Y ls bs hall
    have e : rowsFrom Z Y = [] := by
      unfold rowsFrom
      rw [List.filter_eq_nil_iff]
      intro q hq
      have := hall q hq
      simp; omega
    rw [e]
    simp [scanRows]
  | succ n ih =>
    intro Y ls bs hall
    have hrow := scanRow_blockRow Y W (rowItems Z Y) 0 '.' ls bs (fun it hit => by
        have := List.mem_filter.1 hit
        have h2 := hwf it this.1
        exact ⟨by simpa using this.2, h2.1, h2.2, Nat.zero_le _, fun h => absurd rfl h⟩)
      (rowItems_pairwise Z hZ Y)
    rw [List.range'_succ, List.map_cons, scanRows]
    dsimp only
    rw [hrow]
    dsimp only
    rw [if_pos rfl, ih (Y + 1) _ _ (fun it hit => by have := hall it hit; omega),
      rowsFrom_split Z hZy Y]
    simp [List.append_assoc]

/-! ## Decoding what `RenderImage` prints -/

/-- C20, counterexample: the single line that fills column `4294967295` of row `0`
meets every condition of the claim, but `MaxColumn + 1` is `0` modulo `2 ^ 32`, the
image rows are empty and the pixel is written outside its row: no raster is produced
that could be decoded. -/
theorem RenderImage_decode_counterexample :
    [(⟨4294967295, 0, 1⟩ : Line)] ≠ [] ∧
    [(⟨4294967295, 0, 1⟩ : Line)].Chain' (fun a b => Line.lt a b = true) ∧
    [(⟨4294967295, 0, 1⟩ : Line)].Chain'
      (fun a b => a.m_Y = b.m_Y → a.m_X + a.m_Length < b.m_X) ∧
    (∀ l ∈ [(⟨4294967295, 0, 1⟩ : Line)], 1 ≤ l.m_Length) ∧
    [0].length = [(⟨4294967295, 0, 1⟩ : Line)].length ∧ (∀ g ∈ [0], g < 26) ∧
    wrapU32 (maxColumn [⟨4294967295, 0, 1⟩] + 1) = 0 ∧
    RenderImage [⟨4294967295, 0, 1⟩] [0] = none :=
  ⟨by decide, List.chain'_singleton _, List.chain'_singleton _, by decide, by decide,
    by decide, by decide, by decide⟩

/-- C20 (amended): for every non-empty line list that ascends strictly by `(y, x)`, has
lengths at least `1`, has `x + length` and `y + 1` below `2 ^ 32`, and has at least one
background column between consecutive lines of a row, and for every blob-index list
of the same length with all indices below `26`: `RenderImage` prints a raster, and
`GenerateLinesAndResult`, called with empty output vectors on the printed rows,
returns `true` with exactly the original line list and the original blob-index list. -/
theorem RenderImage_decode (lines : List Line) (idx : List Nat) (hne : lines ≠ [])
    (hasc : lines.Chain' (fun a b => Line.lt a b = true))
    (hgap : lines.Chain' (fun a b => a.m_Y = b.m_Y → a.m_X + a.m_Length < b.m_X))
    (hr : ∀ l ∈ lines, 1 ≤ l.m_Length ∧ l.m_X + l.m_Length < 4294967296 ∧
      l.m_Y + 1 < 4294967296)
    (hlen : idx.length = lines.length) (hidx : ∀ g ∈ idx, g < 26) :
    ∃ rows, RenderImage lines idx = some ⟨false, rows⟩ ∧
      GenerateLinesAndResult rows [] [] = some ⟨true, lines, idx⟩ := by
  have hap := apart_pairwise lines hasc hgap
  obtain ⟨init, back, hib⟩ : ∃ init back, lines = init ++ [back] := by
    rcases List.eq_nil_or_concat lines with h | ⟨init, back, h⟩
    · exact absurd h hne
    · exact ⟨init, back, by rw [h, List.concat_eq_append]⟩
  have hback : lines.getLast? = some back := by rw [hib]; simp
  have hmem : back ∈ lines := by rw [hib]; simp
  have hlast : ∀ l ∈ lines, l.m_Y ≤ back.m_Y := by
    intro l hl
    rw [hib] at hl hap
    rcases List.mem_append.1 hl with h | h
    · have := (List.pairwise_append.1 hap).2.2 l h back (List.mem_singleton_self _)
      unfold Apart at this
      omega
    · rw [List.mem_singleton] at h; rw [h]
  obtain ⟨Image, e, hH, hW, hp⟩ := RenderImage_spec lines idx back hback hlen
    (fun l hl => ⟨(hr l hl).1, (hr l hl).2.1, hlast l hl⟩) (hr back hmem).2.2 hidx
  obtain ⟨hm1, _⟩ := maxColumn_spec lines hne
    (fun l hl => ⟨(hr l hl).1, by have := (hr l hl).2.1; omega⟩)
  have hfst : (lines.zip idx).map Prod.fst = lines := List.map_fst_zip _ _ (by omega)
  have hsnd : (lines.zip idx).map Prod.snd = idx := List.map_snd_zip _ _ (by omega)
  have hZ : (lines.zip idx).Pairwise (fun a b => Apart a.1 b.1) := by
    rw [← hfst] at hap
    exact List.pairwise_map.1 hap
  have hrows := image_rows Image (lines.zip idx) (back.m_Y + 1) (maxColumn lines + 1) hH hW hp
    hZ (fun it hit => by
      have h1 := (List.of_mem_zip hit).1
      have := hm1 _ h1
      have := (hr _ h1).1
      omega)
  refine ⟨Image.map String.mk, e, ?_⟩
  have hscan := scanRows_blockRows (maxColumn lines + 1) (lines.zip idx)
    (fun it hit => ⟨(hr _ (List.of_mem_zip hit).1).1, hidx _ (List.of_mem_zip hit).2⟩) hZ
    (back.m_Y + 1) 0 [] [] (fun it hit => by
      have := hlast _ (List.of_mem_zip hit).1
      omega)
  have hall : rowsFrom (lines.zip idx) 0 = lines.zip idx := by
    unfold rowsFrom
    rw [List.filter_eq_self]
    intro q _
    simp
  rw [hall, hfst, hsnd, List.nil_append, List.nil_append] at hscan
  unfold GenerateLinesAndResult
  rw [hrows, List.map_map, List.range_eq_range']
  exact hscan

/-- C20 (amended) at Scenario C with the indices `0, 1, 2`. -/
theorem RenderImage_decode_witness :
    [(⟨0, 0, 2⟩ : Line), ⟨5, 0, 2⟩, ⟨0, 1, 8⟩] ≠ [] ∧
    [(⟨0, 0, 2⟩ : Line), ⟨5, 0, 2⟩, ⟨0, 1, 8⟩].Chain' (fun a b => Line.lt a b = true) ∧
    [(⟨0, 0, 2⟩ : Line), ⟨5, 0, 2⟩, ⟨0, 1, 8⟩].Chain'
      (fun a b => a.m_Y = b.m_Y → a.m_X + a.m_Length < b.m_X) ∧
    (∀ l ∈ [(⟨0, 0, 2⟩ : Line), ⟨5, 0, 2⟩, ⟨0, 1, 8⟩], 1 ≤ l.m_Length ∧
      l.m_X + l.m_Length < 4294967296 ∧ l.m_Y + 1 < 4294967296) ∧
    [0, 1, 2].length = [(⟨0, 0, 2⟩ : Line), ⟨5, 0, 2⟩, ⟨0, 1, 8⟩].length ∧
    (∀ g ∈ [0, 1, 2], g < 26) ∧
    ∃ rows, RenderImage [⟨0, 0, 2⟩, ⟨5, 0, 2⟩, ⟨0, 1, 8⟩] [0, 1, 2] = some ⟨false, rows⟩ ∧
      GenerateLinesAndResult rows [] [] =
        some ⟨true, [⟨0, 0, 2⟩, ⟨5, 0, 2⟩, ⟨0, 1, 8⟩], [0, 1, 2]⟩ :=
  ⟨by decide, by simp [Line.lt], by simp, by decide, by decide, by decide,
    RenderImage_decode [⟨0, 0, 2⟩, ⟨5, 0, 2⟩, ⟨0, 1, 8⟩] [0, 1, 2] (by decide)
      (by simp [Line.lt]) (by simp) (by decide) (by decide) (by decide)⟩

end BlobDetection
